import Mathlib

/-!
# Verification of the ha-modbus-manager register core

A shallow embedding, in Lean 4, of the parts of the `modbus_manager`
integration that the specification's claims are about:

* the condition evaluator `_evaluate_condition` / `_evaluate_single_condition`
  (`template_loader.py`),
* the firmware-version gate of `_should_include_sensor`
  (`template_loader.py` and `config_flow.py`) and
  `_find_applicable_firmware_version` (`config_flow.py`),
* the register validator `validate_register_data` (`template_loader.py`),
* the write path `async_set_native_value` (`number.py`),
* the Range Optimizer (modelled from the spec: no optimizer source file is
  shipped under `src/`; §4.1 of the spec defines its algorithm).

Python strings are embedded as `List Char`, Python dictionaries as
association lists, Python runtime values as the inductive `PyVal`
(modelling the value kinds that occur in device configurations and
register templates: `None`, `bool`, `int`, `float` — as exact rationals —
`str`, `list` and `dict`).  Uncaught Python exceptions are modelled by
`Option`/`none` results.  All definitions are translated directly from the
source; deviations forced by the embedding are noted in doc comments.
-/

/-- Python `str.strip()` whitespace set (space, tab, newline, carriage
return, vertical tab, form feed). -/
def isPySpace (c : Char) : Bool :=
  c = ' ' || c = '\t' || c = '\n' || c = '\r' || c = '\x0b' || c = '\x0c'

/-- Python `s.strip()`: remove leading and trailing whitespace. -/
def pyStrip (s : List Char) : List Char :=
  ((s.dropWhile isPySpace).reverse.dropWhile isPySpace).reverse

/-- Python `s.strip(chars)`: remove leading and trailing characters drawn
from the set `cs` (used by the evaluator as `.strip("'\"")`). -/
def pyStripChars (cs : List Char) (s : List Char) : List Char :=
  ((s.dropWhile (cs.contains ·)).reverse.dropWhile (cs.contains ·)).reverse

/-- Python `sub in s` substring test. -/
def containsSub (pat s : List Char) : Bool :=
  s.tails.any (fun t => pat.isPrefixOf t)

/-- Python `s.lower()` (ASCII case folding suffices for the evaluator's
uses: `true`/`false` literals). -/
def pyLower (s : List Char) : List Char :=
  s.map Char.toLower

/-- First index at which `pat` occurs in `s`, if any (helper for
`str.split`). -/
def findSub (pat : List Char) : List Char → Option Nat
  | [] => if pat.isEmpty then some 0 else none
  | c :: rest =>
    if pat.isPrefixOf (c :: rest) then some 0
    else (findSub pat rest).map (· + 1)

/-- Python `s.split(sep)` for a nonempty separator, with explicit fuel
(the fuel is structural; `pySplitOn` supplies enough of it). -/
def pySplitOnFuel (sep : List Char) : Nat → List Char → List (List Char)
  | 0, s => [s]
  | fuel + 1, s =>
    match findSub sep s with
    | none => [s]
    | some i => s.take i :: pySplitOnFuel sep fuel (s.drop (i + sep.length))

/-- Python `s.split(sep)` (nonempty separator): split at every
non-overlapping occurrence, left to right. -/
def pySplitOn (sep s : List Char) : List (List Char) :=
  pySplitOnFuel sep (s.length + 1) s

/-- A decimal digit? -/
def isDigitChar (c : Char) : Bool :=
  '0' ≤ c && c ≤ '9'

/-- Value of a list of decimal digits. -/
def digitsToNat (s : List Char) : Nat :=
  s.foldl (fun acc c => acc * 10 + (c.toNat - '0'.toNat)) 0

/-- Python `int(s)` on a string: optional surrounding whitespace, optional
sign, then one or more decimal digits; anything else raises `ValueError`
(`none`).  (Underscore digit grouping, accepted by Python 3.6+, is not
modelled; no template uses it.) -/
def pyIntOfStr (s : List Char) : Option Int :=
  let t := pyStrip s
  match t with
  | '+' :: ds => if ds ≠ [] ∧ ds.all isDigitChar then some (digitsToNat ds) else none
  | '-' :: ds => if ds ≠ [] ∧ ds.all isDigitChar then some (-(digitsToNat ds : Int)) else none
  | ds => if ds ≠ [] ∧ ds.all isDigitChar then some (digitsToNat ds) else none

/-- Decimal digits of a natural number (most significant first). -/
def natToDigits (n : Nat) : List Char :=
  Nat.toDigits 10 n

/-- Python `str(i)` for an integer. -/
def pyStrOfInt (i : Int) : List Char :=
  if i < 0 then '-' :: natToDigits i.natAbs else natToDigits i.natAbs

/-- Python `<` on strings: lexicographic comparison by code point. -/
def pyStrLt : List Char → List Char → Bool
  | [], [] => false
  | [], _ :: _ => true
  | _ :: _, [] => false
  | a :: as, b :: bs =>
    if a.toNat < b.toNat then true
    else if a = b then pyStrLt as bs
    else false

/-- A scalar Python value: `None`, `bool`, `int`, `float` (modelled as an
exact rational — the spec treats scale/offset as real numbers) or `str`. -/
inductive PyAtom where
  | aNone : PyAtom
  | aBool (b : Bool) : PyAtom
  | aInt (i : Int) : PyAtom
  | aRat (q : ℚ) : PyAtom
  | aStr (s : List Char) : PyAtom
deriving DecidableEq

/-- A Python runtime value, as far as the embedded code inspects one: a
scalar, a list, or a dict.  Container elements are scalars — the embedded
code never inspects deeper nesting, so one container level suffices. -/
inductive PyVal where
  | vNone : PyVal
  | vBool (b : Bool) : PyVal
  | vInt (i : Int) : PyVal
  | vRat (q : ℚ) : PyVal
  | vStr (s : List Char) : PyVal
  | vList (xs : List PyAtom) : PyVal
  | vDict (kvs : List (PyAtom × PyAtom)) : PyVal
deriving DecidableEq

/-- A Python dict with string keys, as used for `dynamic_config` and
register/template dicts: an association list, first binding wins. -/
abbrev PyDict := List (List Char × PyVal)

/-- Python `d.get(k, default)`. -/
def pyGetD (d : PyDict) (k : List Char) (default : PyVal) : PyVal :=
  match d.find? (fun kv => kv.1 = k) with
  | some kv => kv.2
  | none => default

/-- Python `d.get(k)` (default `None`). -/
def pyGet (d : PyDict) (k : List Char) : PyVal :=
  pyGetD d k .vNone

/-- Python `k in d` membership test on a dict. -/
def pyHasKey (d : PyDict) (k : List Char) : Bool :=
  (d.find? (fun kv => kv.1 = k)).isSome

/-- Python truthiness `bool(v)`. -/
def pyBoolOf : PyVal → Bool
  | .vNone => false
  | .vBool b => b
  | .vInt i => i ≠ 0
  | .vRat q => q ≠ 0
  | .vStr s => s ≠ []
  | .vList xs => !xs.isEmpty
  | .vDict kvs => !kvs.isEmpty

/-- Truncation toward zero, as Python `int(float)`. -/
def pyTrunc (q : ℚ) : Int :=
  if q < 0 then ⌈q⌉ else ⌊q⌋

/-- Python `int(v)`: identity on ints, `0`/`1` on bools, truncation on
floats, decimal parse on strings; `None`, lists and dicts raise
(`TypeError`, modelled as `none`). -/
def pyIntCoerce : PyVal → Option Int
  | .vInt i => some i
  | .vBool b => some (if b then 1 else 0)
  | .vRat q => some (pyTrunc q)
  | .vStr s => pyIntOfStr s
  | _ => none

/-- Python `str(v)`.  (`str` of a non-integral float is Python's
shortest-roundtrip decimal; it is rendered here as `num/den`, a model
simplification — no claim evaluates `str` on a non-integral float.) -/
def pyStrOf : PyVal → List Char
  | .vNone => ['N', 'o', 'n', 'e']
  | .vBool b => if b then ['T', 'r', 'u', 'e'] else ['F', 'a', 'l', 's', 'e']
  | .vInt i => pyStrOfInt i
  | .vRat q =>
    if q.den = 1 then pyStrOfInt q.num ++ ['.', '0']
    else pyStrOfInt q.num ++ '/' :: natToDigits q.den
  | .vStr s => s
  | .vList _ => ['[', ']']
  | .vDict _ => ['{', '}']

/-- Python `==` across the value kinds the embedded code compares
(numeric kinds compare numerically, `bool` counting as `0`/`1`; strings
structurally; container equality is structural — a model simplification
for the cross-kind container corner no template exercises). -/
def pyEq (a b : PyVal) : Bool :=
  match a, b with
  | .vInt i, .vInt j => i = j
  | .vInt i, .vRat q => (i : ℚ) = q
  | .vRat q, .vInt i => q = (i : ℚ)
  | .vRat p, .vRat q => p = q
  | .vBool x, .vBool y => x = y
  | .vBool x, .vInt j => (if x then (1 : Int) else 0) = j
  | .vInt i, .vBool y => i = (if y then (1 : Int) else 0)
  | .vBool x, .vRat q => (if x then (1 : ℚ) else 0) = q
  | .vRat q, .vBool y => q = (if y then (1 : ℚ) else 0)
  | .vStr s, .vStr t => s = t
  | .vNone, .vNone => true
  | .vList xs, .vList ys => decide (xs = ys)
  | .vDict xs, .vDict ys => decide (xs = ys)
  | _, _ => false

/-- `str(v)` for a scalar container element (used by the `in`/`not in`
branches on list-valued configuration entries). -/
def pyAtomStr : PyAtom → List Char
  | .aNone => ['N', 'o', 'n', 'e']
  | .aBool b => if b then ['T', 'r', 'u', 'e'] else ['F', 'a', 'l', 's', 'e']
  | .aInt i => pyStrOfInt i
  | .aRat q =>
    if q.den = 1 then pyStrOfInt q.num ++ ['.', '0']
    else pyStrOfInt q.num ++ '/' :: natToDigits q.den
  | .aStr s => s

/-- The `" or "` operator pattern of `_evaluate_condition`. -/
def orPat : List Char := [' ', 'o', 'r', ' ']

/-- The `" and "` operator pattern of `_evaluate_condition`. -/
def andPat : List Char := [' ', 'a', 'n', 'd', ' ']

/-- The operator-position scan of `_evaluate_condition`
(template_loader.py 1006–1024): walk the string tracking parenthesis
depth; at depth 0 record the position after the *last* `" or "` match and
after the *first* `" and "` match (the recorded position is `i + 2` for a
match starting at index `i`, exactly as in the source). -/
def scanOps : List Char → Nat → Int → Option Nat → Option Nat → Option Nat × Option Nat
  | [], _, _, orP, andP => (orP, andP)
  | c :: rest, i, depth, orP, andP =>
    if c = '(' then scanOps rest (i + 1) (depth + 1) orP andP
    else if c = ')' then scanOps rest (i + 1) (depth - 1) orP andP
    else if depth = 0 then
      if orPat.isPrefixOf (c :: rest) then scanOps rest (i + 1) depth (some (i + 2)) andP
      else if andPat.isPrefixOf (c :: rest) then
        scanOps rest (i + 1) depth orP (if andP = none then some (i + 2) else andP)
      else scanOps rest (i + 1) depth orP andP
    else scanOps rest (i + 1) depth orP andP

/-- Positions (in the source's `or_pos` / `and_pos` convention) of the
lowest-precedence operators outside parentheses. -/
def findOps (s : List Char) : Option Nat × Option Nat :=
  scanOps s 0 0 none none

/-- The balanced-outer-parenthesis check of `_evaluate_condition`
(template_loader.py 990–1000): the first parenthesis closes only at the
final index. -/
def isOuterScan : List Char → Int → Nat → Nat → Bool
  | [], _, _, _ => true
  | c :: rest, depth, i, n =>
    if c = '(' then isOuterScan rest (depth + 1) (i + 1) n
    else if c = ')' then
      if depth - 1 = 0 ∧ i < n - 1 then false
      else isOuterScan rest (depth - 1) (i + 1) n
    else isOuterScan rest depth (i + 1) n

/-- `is_outer` for one iteration of the outer-parenthesis-stripping loop. -/
def isOuter (s : List Char) : Bool :=
  isOuterScan s 0 0 s.length

/-- One iteration of the outer-parenthesis-stripping `while` loop of
`_evaluate_condition` (template_loader.py 989–1004): if the string starts
with `(`, ends with `)` and the parentheses are outer-balanced, remove
them and strip; otherwise the loop stops (`none`). -/
def strip_outer_step (s : List Char) : Option (List Char) :=
  if s.head? = some '(' ∧ s.getLast? = some ')' then
    if isOuter s then some (pyStrip (s.drop 1).dropLast) else none
  else none

/-- The outer-parenthesis-stripping loop, with structural fuel. -/
def stripOuterFuel : Nat → List Char → List Char
  | 0, s => s
  | fuel + 1, s =>
    match strip_outer_step s with
    | some t => stripOuterFuel fuel t
    | none => s

/-- The outer-parenthesis-stripping loop of `_evaluate_condition`
(each iteration removes at least two characters, so `s.length` fuel is
always enough). -/
def stripOuterParens (s : List Char) : List Char :=
  stripOuterFuel s.length s

/-- The right-hand-side list parser of the `in` / `not in` branches
(template_loader.py 1066–1074): optionally drop surrounding brackets,
split on `,`, keep the entries that are nonempty after stripping, strip
whitespace and quotes from each. -/
def parseValueList (s : List Char) : List (List Char) :=
  let s1 := if s.head? = some '[' ∧ s.getLast? = some ']' then (s.drop 1).dropLast else s
  ((pySplitOn [','] s1).filter (fun v => pyStrip v ≠ [])).map
    (fun v => pyStripChars ['\'', '"'] (pyStrip v))

/-- The shared value-coercion comparison of the `==` and `!=` branches of
`_evaluate_single_condition` (template_loader.py 1143–1204; the two
branches differ only in the final operator): boolean literals first, then
attempted integer coercion of both sides, then string comparison.
Returns the truth of `actual == required`. -/
def evalCompareEq (requiredStr : List Char) (actual : PyVal) : Bool :=
  if pyLower requiredStr = "true".toList ∨ pyLower requiredStr = "false".toList then
    (if actual = .vNone then false else pyBoolOf actual) = (pyLower requiredStr = "true".toList)
  else
    match pyIntOfStr requiredStr with
    | some ri =>
      if actual = .vNone then (0 : Int) = ri
      else
        match pyIntCoerce actual with
        | some ai => ai = ri
        | none => pyStrOf actual = requiredStr
    | none =>
      (if actual = .vNone then ([] : List Char) else pyStrOf actual) = requiredStr

/-- The `not in` branch of `_evaluate_single_condition`
(template_loader.py 1057–1095). -/
def notInBranch (c : List Char) (cfg : PyDict) : Option Bool :=
  match pySplitOn " not in ".toList c with
  | [p0, p1] =>
    let actual := pyGet cfg (pyStrip p0)
    let req := parseValueList (pyStrip p1)
    match actual with
    | .vList xs => some (!req.any (fun v => xs.any (fun a => pyAtomStr a = v)))
    | a => some (!req.contains (pyStrOf a))
  | _ => some true

/-- The `in` branch of `_evaluate_single_condition`
(template_loader.py 1096–1132). -/
def inBranch (c : List Char) (cfg : PyDict) : Option Bool :=
  match pySplitOn " in ".toList c with
  | [p0, p1] =>
    let actual := pyGet cfg (pyStrip p0)
    let req := parseValueList (pyStrip p1)
    match actual with
    | .vList xs => some (req.any (fun v => xs.any (fun a => pyAtomStr a = v)))
    | a => some (req.contains (pyStrOf a))
  | _ => some true

/-- The `!=` branch of `_evaluate_single_condition`
(template_loader.py 1133–1174). -/
def neBranch (c : List Char) (cfg : PyDict) : Option Bool :=
  match pySplitOn "!=".toList c with
  | [p0, p1] =>
    some (!evalCompareEq (pyStripChars ['\'', '"'] (pyStrip p1)) (pyGet cfg (pyStrip p0)))
  | _ => some true

/-- The `==` branch of `_evaluate_single_condition`
(template_loader.py 1175–1216). -/
def eqBranch (c : List Char) (cfg : PyDict) : Option Bool :=
  match pySplitOn "==".toList c with
  | [p0, p1] =>
    some (evalCompareEq (pyStripChars ['\'', '"'] (pyStrip p1)) (pyGet cfg (pyStrip p0)))
  | _ => some true

/-- The `>=` branch of `_evaluate_single_condition`
(template_loader.py 1218–1235): a non-integer right-hand side or a
string-valued configuration entry that fails `int()` returns `False`
(the branch's own `except ValueError`); a `None`/list/dict-valued entry
raises an uncaught `TypeError` (`none`). -/
def geBranch (c : List Char) (cfg : PyDict) : Option Bool :=
  match pySplitOn ">=".toList c with
  | [p0, p1] =>
    match pyIntOfStr (pyStrip p1) with
    | none => some false
    | some r =>
      match pyGetD cfg (pyStrip p0) (.vInt 0) with
      | .vStr s =>
        match pyIntOfStr s with
        | none => some false
        | some a => some (decide (a ≥ r))
      | .vInt a => some (decide (a ≥ r))
      | .vBool b => some (decide ((if b then (1 : Int) else 0) ≥ r))
      | .vRat q => some (decide (q ≥ (r : ℚ)))
      | _ => none
  | _ => some true

/-- The `>` branch of `_evaluate_single_condition`
(template_loader.py 1236–1253). -/
def gtBranch (c : List Char) (cfg : PyDict) : Option Bool :=
  match pySplitOn ">".toList c with
  | [p0, p1] =>
    match pyIntOfStr (pyStrip p1) with
    | none => some false
    | some r =>
      match pyGetD cfg (pyStrip p0) (.vInt 0) with
      | .vStr s =>
        match pyIntOfStr s with
        | none => some false
        | some a => some (decide (a > r))
      | .vInt a => some (decide (a > r))
      | .vBool b => some (decide ((if b then (1 : Int) else 0) > r))
      | .vRat q => some (decide (q > (r : ℚ)))
      | _ => none
  | _ => some true

/-- `_evaluate_single_condition` (template_loader.py 1046–1257): try the
operator patterns in source order; a condition matching none of them is
the documented fail-open case and returns `True`.  A branch whose split
does not have exactly two parts falls through to the same fail-open
return.  `none` models an uncaught Python exception. -/
def _evaluate_single_condition (cond : List Char) (cfg : PyDict) : Option Bool :=
  let c := pyStrip cond
  if containsSub " not in ".toList c then notInBranch c cfg
  else if containsSub " in ".toList c then inBranch c cfg
  else if containsSub "!=".toList c then neBranch c cfg
  else if containsSub "==".toList c then eqBranch c cfg
  else if containsSub ">=".toList c then geBranch c cfg
  else if containsSub ">".toList c then gtBranch c cfg
  else some true

/-- `_evaluate_condition` (template_loader.py 970–1043) with structural
fuel: strip, remove outer parentheses, split at the last depth-0 `or`
(else the first depth-0 `and`) with Python's short-circuit semantics,
else evaluate as a single condition.  Every recursive call is on a
strictly shorter string, so `length + 1` fuel always suffices (proved
below). -/
def evaluate_condition_fuel (cfg : PyDict) : Nat → List Char → Option Bool
  | 0, _ => none
  | fuel + 1, cond =>
    let c := stripOuterParens (pyStrip cond)
    match findOps c with
    | (some i, _) =>
      match evaluate_condition_fuel cfg fuel (pyStrip (c.take (i - 2))) with
      | none => none
      | some true => some true
      | some false => evaluate_condition_fuel cfg fuel (pyStrip (c.drop (i + 2)))
    | (none, some j) =>
      match evaluate_condition_fuel cfg fuel (pyStrip (c.take (j - 2))) with
      | none => none
      | some false => some false
      | some true => evaluate_condition_fuel cfg fuel (pyStrip (c.drop (j + 3)))
    | (none, none) => _evaluate_single_condition c cfg

/-- `_evaluate_condition` (template_loader.py 970–1043). -/
def _evaluate_condition (cond : List Char) (cfg : PyDict) : Option Bool :=
  evaluate_condition_fuel cfg (cond.length + 1) cond

/-- `packaging.version.parse`, modelled on the release-segment fragment of
PEP 440 that firmware tags use: optional whitespace and `v`/`V` prefix,
then dot-separated decimal groups.  Strings outside this fragment (letters,
separators, empty groups) raise `InvalidVersion` (`none`) — exactly what
`packaging` does for tags such as `SAPPHIRE-H_03011.95.01`.  (Pre/post/dev
release suffixes of PEP 440 are outside the model; no firmware tag in the
repository uses them.) -/
def parseVersion (s : List Char) : Option (List Nat) :=
  let t := pyStrip s
  let t1 := match t with
    | 'v' :: r => r
    | 'V' :: r => r
    | r => r
  let parts := t1.splitOn '.'
  if parts.all (fun p => !p.isEmpty && p.all isDigitChar) then some (parts.map digitsToNat)
  else none

/-- Release tuples compare with trailing zeros stripped
(`packaging.version._cmpkey`). -/
def stripTrailingZeros (v : List Nat) : List Nat :=
  (v.reverse.dropWhile (· = 0)).reverse

/-- Lexicographic strict order on release tuples (a proper prefix is
smaller, as for Python tuples). -/
def verLexLt : List Nat → List Nat → Bool
  | [], [] => false
  | [], _ :: _ => true
  | _ :: _, [] => false
  | a :: as, b :: bs => if a < b then true else if a = b then verLexLt as bs else false

/-- `packaging` strict order on parsed release versions. -/
def verLt (a b : List Nat) : Bool :=
  verLexLt (stripTrailingZeros a) (stripTrailingZeros b)

/-- `packaging` non-strict order on parsed release versions. -/
def verLe (a b : List Nat) : Bool :=
  verLt a b || stripTrailingZeros a = stripTrailingZeros b

/-- `str()` of a parsed release version: the canonical dot-joined decimal
rendering (`packaging` re-renders from the parsed tuple, so e.g. `1.05`
renders as `1.5`). -/
def renderVersion : List Nat → List Char
  | [] => []
  | x :: rest => rest.foldl (fun acc y => acc ++ '.' :: natToDigits y) (natToDigits x)

/-- The firmware-version filter fragment of `_should_include_sensor`
(template_loader.py 905–933), as the *exclusion* it implements: a truthy
`firmware_min_version` excludes the sensor when the device firmware is
lower — by `packaging` comparison when both tags parse, by Python string
comparison otherwise (`except version.InvalidVersion` fallback). -/
def firmware_excludes_tl (fwMin : Option (List Char)) (fw : List Char) : Bool :=
  match fwMin with
  | none => false
  | some m =>
    if m.isEmpty then false
    else
      match parseVersion fw, parseVersion m with
      | some c, some mv => verLt c mv
      | _, _ => pyStrLt fw m

/-- The firmware-version filter fragment of `_should_include_sensor`
(config_flow.py 1098–1134): as the template-loader variant, but the check
is skipped when the device firmware string is falsy (empty). -/
def firmware_excludes_cf (fwMin : Option (List Char)) (fw : List Char) : Bool :=
  match fwMin with
  | none => false
  | some m =>
    if m.isEmpty || fw.isEmpty then false
    else
      match parseVersion fw, parseVersion m with
      | some c, some mv => verLt c mv
      | _, _ => pyStrLt fw m

/-- The comparison the spec describes for firmware gating: the device
firmware is lower than the required minimum under semantic-version
ordering, with string comparison as fallback for non-semantic tags. -/
def versionLower (fw m : List Char) : Bool :=
  match parseVersion fw, parseVersion m with
  | some a, some b => verLt a b
  | _, _ => pyStrLt fw m

/-- `_find_applicable_firmware_version` (config_flow.py 1443–1488): among
the `sensor_replacements` keys, find the highest parseable version that is
`≤` the current firmware and return its `str()`; keys that fail to parse
are skipped.  When the current firmware itself is not a valid semantic
version, return it exactly when it occurs verbatim in the key list, else
`None`.  (Python's `max` keeps the earliest of equal maxima; so does the
fold.) -/
def _find_applicable_firmware_version (current : List Char)
    (available : List (List Char)) : Option (List Char) :=
  if available.isEmpty then none
  else
    match parseVersion current with
    | some c =>
      match (available.filterMap parseVersion).filter (fun v => verLe v c) with
      | [] => none
      | v0 :: rest =>
        some (renderVersion (rest.foldl (fun acc v => if verLt acc v then v else acc) v0))
    | none => if available.contains current then some current else none

/-- Python `==` on scalar values (numeric kinds compare numerically,
`bool` counting as `0`/`1`). -/
def pyAtomEq (a b : PyAtom) : Bool :=
  match a, b with
  | .aInt i, .aInt j => i = j
  | .aInt i, .aRat q => (i : ℚ) = q
  | .aRat q, .aInt i => q = (i : ℚ)
  | .aRat p, .aRat q => p = q
  | .aBool x, .aBool y => x = y
  | .aBool x, .aInt j => (if x then (1 : Int) else 0) = j
  | .aInt i, .aBool y => i = (if y then (1 : Int) else 0)
  | .aBool x, .aRat q => (if x then (1 : ℚ) else 0) = q
  | .aRat q, .aBool y => q = (if y then (1 : ℚ) else 0)
  | .aStr s, .aStr t => s = t
  | .aNone, .aNone => true
  | _, _ => false

/-- `d.get(k, default)` on a scalar-keyed Python dict (used for the
`switch` on/off configuration). -/
def pyDictGetA (kvs : List (PyAtom × PyAtom)) (k default : PyAtom) : PyAtom :=
  match kvs.find? (fun kv => pyAtomEq kv.1 k) with
  | some kv => kv.2
  | none => default

/-- Python `a >= b` where the operands may have any type: defined for
number/number and string/string pairs, a `TypeError` (`none`) otherwise
(`validate_control_settings` turns that `TypeError` into a `False`
result via its `except`). -/
def pyGeCmp (a b : PyVal) : Option Bool :=
  match a, b with
  | .vInt i, .vInt j => some (decide (i ≥ j))
  | .vInt i, .vRat q => some (decide ((i : ℚ) ≥ q))
  | .vRat q, .vInt i => some (decide (q ≥ (i : ℚ)))
  | .vRat p, .vRat q => some (decide (p ≥ q))
  | .vBool x, .vInt j => some (decide ((if x then (1 : Int) else 0) ≥ j))
  | .vInt i, .vBool y => some (decide (i ≥ (if y then (1 : Int) else 0)))
  | .vBool x, .vBool y => some (decide ((if x then (1 : Int) else 0) ≥ (if y then (1 : Int) else 0)))
  | .vBool x, .vRat q => some (decide ((if x then (1 : ℚ) else 0) ≥ q))
  | .vRat q, .vBool y => some (decide (q ≥ (if y then (1 : ℚ) else 0)))
  | .vStr s, .vStr t => some (!pyStrLt s t)
  | _, _ => none

/-- `validate_control_settings` (template_loader.py 1454–1490): number
controls need `min_value < max_value` when both are given (a cross-type
comparison raises and the surrounding `except` returns `False`); switch
controls with a truthy `switch` dict need distinct on/off values (a
truthy non-dict `switch` value raises `AttributeError` on `.get`, again
`False` via the `except`). -/
def validate_control_settings (reg : PyDict) : Bool :=
  let control := pyGetD reg "control".toList (.vStr "none".toList)
  if control = .vStr "number".toList then
    match pyGet reg "min_value".toList, pyGet reg "max_value".toList with
    | .vNone, _ => true
    | _, .vNone => true
    | a, b =>
      match pyGeCmp a b with
      | some ge => !ge
      | none => false
  else if control = .vStr "switch".toList then
    let sw := pyGetD reg "switch".toList (.vDict [])
    if !pyBoolOf sw then true
    else
      match sw with
      | .vDict kvs =>
        !pyAtomEq (pyDictGetA kvs (.aStr "on".toList) (.aInt 1))
          (pyDictGetA kvs (.aStr "off".toList) (.aInt 0))
      | _ => false
  else true

/-- Is a scalar an `int` or `float` in Python's `isinstance` sense (as the
source uses it for `scale` and `sum_scale`; `bool`, a Python `int`
subclass, is not modelled as numeric here — no template supplies a boolean
scale)? -/
def pyIsNumber : PyAtom → Bool
  | .aInt _ => true
  | .aRat _ => true
  | _ => false

/-- `validate_register_data` (template_loader.py 1356–1451), translated
check for check in source order: address, data_type, count, float word
minimum, scale, scan_interval, control settings, sum_scale, select
options.  Each failed check is an early `return False`. -/
def validate_register_data (reg : PyDict) : Bool :=
  let addressOk :=
    match pyGet reg "address".toList with
    | .vInt i => decide (0 ≤ i)
    | _ => false
  let dataTypeOk :=
    match pyGet reg "data_type".toList with
    | .vStr s =>
      ["uint16", "int16", "uint32", "int32", "string", "float", "float32", "float64",
        "boolean"].any (fun t => t.toList = s)
    | _ => false
  let countOk :=
    match pyGet reg "count".toList with
    | .vNone => true
    | .vInt n => decide (1 ≤ n)
    | _ => false
  let floatCountOk :=
    match pyGet reg "data_type".toList, pyGet reg "count".toList with
    | .vStr s, .vInt n =>
      if s = "float".toList ∨ s = "float32".toList then decide (2 ≤ n)
      else if s = "float64".toList then decide (4 ≤ n)
      else true
    | _, _ => true
  let scaleOk :=
    match pyGet reg "scale".toList with
    | .vInt i => decide (0 < i)
    | .vRat q => decide (0 < q)
    | _ => false
  let scanIntervalOk :=
    match pyGet reg "scan_interval".toList with
    | .vInt n => decide (0 ≤ n)
    | _ => false
  let sumScaleOk :=
    match pyGet reg "sum_scale".toList with
    | .vNone => true
    | .vList xs => xs.all pyIsNumber
    | _ => false
  let optionsOk :=
    if pyGet reg "control".toList = .vStr "select".toList then
      match pyGetD reg "options".toList (.vDict []) with
      | .vDict kvs => !kvs.isEmpty
      | _ => false
    else true
  addressOk && dataTypeOk && countOk && floatCountOk && scaleOk && scanIntervalOk &&
    validate_control_settings reg && sumScaleOk && optionsOk

/-- `determine_entity_type` (template_loader.py 1336–1353). -/
def determine_entity_type (reg : PyDict) : List Char :=
  let control := pyGetD reg "control".toList (.vStr "none".toList)
  if control = .vStr "number".toList then "number".toList
  else if control = .vStr "select".toList then "select".toList
  else if control = .vStr "switch".toList then "switch".toList
  else if control = .vStr "button".toList then "button".toList
  else if control = .vStr "text".toList then "text".toList
  else if pyGet reg "data_type".toList = .vStr "boolean".toList then "binary_sensor".toList
  else "sensor".toList

/-- Dict assignment `d[k] = v`: replace the binding if present, else
append. -/
def pySet (d : PyDict) (k : List Char) (v : PyVal) : PyDict :=
  if pyHasKey d k then d.map (fun kv => if kv.1 = k then (k, v) else kv) else d ++ [(k, v)]

/-- `validate_and_process_register` (template_loader.py 1276–1333),
parameterized by the `OPTIONAL_FIELDS` table whose default values come
from `const.py` (a file outside `src/`; the claims proved about this
function hold for every such table): require `name`/`address`, copy the
explicitly-set `count` (else `None`), fill optional-field defaults, copy
the remaining template fields, set `entity_type`, then validate —
returning `None` (rejection) when `validate_register_data` fails. -/
def validate_and_process_register (optionalDefaults : PyDict) (reg : PyDict) :
    Option PyDict :=
  if !(pyHasKey reg "name".toList && pyHasKey reg "address".toList) then none
  else
    let p0 : PyDict := [("name".toList, pyGet reg "name".toList),
      ("address".toList, pyGet reg "address".toList)]
    let p1 : PyDict := p0 ++ [("count".toList, pyGet reg "count".toList)]
    let p2 := optionalDefaults.foldl
      (fun acc fd =>
        if pyHasKey acc fd.1 || fd.1 = "count".toList then acc
        else acc ++ [(fd.1, pyGetD reg fd.1 fd.2)]) p1
    let p3 := reg.foldl (fun acc kv => if pyHasKey acc kv.1 then acc else acc ++ [kv]) p2
    let p4 := pySet p3 "entity_type".toList (.vStr (determine_entity_type p3))
    if validate_register_data p4 then some p4 else none

/-- Floor of the base-2 logarithm of a positive rational (junk on
non-positive input, which the encoder never passes). -/
def ratFloorLog2 (m : ℚ) : Int :=
  if 1 ≤ m then (Nat.log2 (Int.toNat ⌊m⌋) : Int)
  else
    let f : Nat := Nat.log2 (Int.toNat ⌊m⁻¹⌋)
    if ((2 : ℚ) ^ f)⁻¹ ≤ m then -(f : Int) else -(f : Int) - 1

/-- Round a rational to the nearest integer, ties to even (IEEE-754
default rounding, as used by `struct.pack`). -/
def roundNearestEven (r : ℚ) : Int :=
  let n := ⌊r⌋
  if r - n < 1 / 2 then n
  else if r - n > 1 / 2 then n + 1
  else if n % 2 = 0 then n else n + 1

/-- IEEE-754 binary encoding of a rational with `expBits` exponent bits
and `sigBits` significand bits (hidden bit included): sign/magnitude,
round to nearest even, gradual underflow to subnormals, overflow to
infinity.  `ieeeBits 8 24` is `struct.pack(">f", ·)` and `ieeeBits 11 53`
is `struct.pack(">d", ·)` as a big-endian bit pattern (Python floats are
binary64; a float32 write packs the double rounded to single). -/
def ieeeBits (expBits sigBits : Nat) (q : ℚ) : Nat :=
  if q = 0 then 0
  else
    let sign : Nat := if q < 0 then 1 else 0
    let m : ℚ := |q|
    let bias : Int := 2 ^ (expBits - 1) - 1
    let e1 : Int := max (ratFloorLog2 m) (1 - bias)
    let s0 : Int := roundNearestEven (m * (2 : ℚ) ^ ((sigBits : Int) - 1 - e1))
    let e2 : Int := if s0 = 2 ^ sigBits then e1 + 1 else e1
    let s2 : Int := if s0 = 2 ^ sigBits then 2 ^ (sigBits - 1) else s0
    let signPart : Nat := sign * 2 ^ (expBits + sigBits - 1)
    if s2 < 2 ^ (sigBits - 1) then signPart + s2.toNat
    else if 2 ^ expBits - 1 ≤ e2 + bias then signPart + (2 ^ expBits - 1) * 2 ^ (sigBits - 1)
    else signPart + (e2 + bias).toNat * 2 ^ (sigBits - 1) + (s2.toNat - 2 ^ (sigBits - 1))

/-- `struct.unpack(">HH", struct.pack(">f", q))`: the two big-endian
16-bit register words of the IEEE-754 float32 encoding
(number.py 390–393). -/
def f32words (q : ℚ) : List Nat :=
  [ieeeBits 8 24 q / 2 ^ 16, ieeeBits 8 24 q % 2 ^ 16]

/-- `struct.unpack(">HHHH", struct.pack(">d", q))`: the four big-endian
16-bit register words of the IEEE-754 float64 encoding
(number.py 399–402). -/
def f64words (q : ℚ) : List Nat :=
  [ieeeBits 11 53 q / 2 ^ 48 % 2 ^ 16, ieeeBits 11 53 q / 2 ^ 32 % 2 ^ 16,
    ieeeBits 11 53 q / 2 ^ 16 % 2 ^ 16, ieeeBits 11 53 q % 2 ^ 16]

/-- The fields of `register_config` that `async_set_native_value` reads
(number.py 365–421), with the numeric fields carried as exact rationals
(the spec's scale/offset are real numbers; Python's binary64 arithmetic is
modelled exactly). -/
structure NumberConfig where
  data_type : List Char := "uint16".toList
  scale : Option ℚ := none
  multiplier : Option ℚ := none
  offset : ℚ := 0
  swap : List Char := "none".toList
  count : Option Int := none
deriving DecidableEq

/-- `scale_factor` selection (number.py 375–384): `scale` when present,
else `multiplier`, else `1.0`. -/
def scaleFactorOf (cfg : NumberConfig) : ℚ :=
  match cfg.scale with
  | some s => s
  | none =>
    match cfg.multiplier with
    | some m => m
    | none => 1

/-- `self.register_config.get("count", 1) or 1` (number.py 408): a
missing or falsy (`None`/`0`) count becomes `1`. -/
def effectiveCount (cfg : NumberConfig) : Int :=
  match cfg.count with
  | some n => if n = 0 then 1 else n
  | none => 1

/-- What gets handed to `async_pb_call` as `write_value`: a plain Python
int, or a list of 16-bit register words. -/
inductive WritePayload where
  | ints (i : Int) : WritePayload
  | words (ws : List Nat) : WritePayload
deriving DecidableEq

/-- The observable outcome of one `async_set_native_value` call: whether a
device write was attempted and with what payload/count, whether a
coordinator refresh was requested, whether an error was logged, and
whether anything was raised to the caller (the method body is wrapped in
`try/except Exception`, so no exit raises). -/
structure SetValueOutcome where
  writeAttempted : Bool
  payload : Option (WritePayload × Int)
  refreshRequested : Bool
  errorLogged : Bool
  raisedToCaller : Bool
deriving DecidableEq

/-- `async_set_native_value` (number.py 365–432) from the point where the
register configuration is read, as a function of the (possibly
safety-clamped) display value and of the device's write result: compute
`scaled_value = (value - offset) / scale_factor`, convert it to the write
payload by data type (IEEE-754 word pair with optional word swap for
float32, word quadruple for float64, `int()` truncation otherwise), issue
the write, and request a coordinator refresh exactly on a truthy write
result — a falsy one only logs an error.  A zero scale factor raises
`ZeroDivisionError`, which the outer `except` turns into a logged error
with no write and no refresh. -/
def async_set_native_value (cfg : NumberConfig) (value : ℚ) (writeResult : Bool) :
    SetValueOutcome :=
  if scaleFactorOf cfg = 0 then
    { writeAttempted := false, payload := none, refreshRequested := false,
      errorLogged := true, raisedToCaller := false }
  else
    let scaled := (value - cfg.offset) / scaleFactorOf cfg
    let payload : WritePayload × Int :=
      if cfg.data_type = "float".toList ∨ cfg.data_type = "float32".toList then
        (WritePayload.words
          (if cfg.swap = "word".toList then
            match f32words scaled with
            | [a, b] => [b, a]
            | ws => ws
          else f32words scaled), 2)
      else if cfg.data_type = "float64".toList then (WritePayload.words (f64words scaled), 4)
      else (WritePayload.ints (pyTrunc scaled), effectiveCount cfg)
    if writeResult then
      { writeAttempted := true, payload := some payload, refreshRequested := true,
        errorLogged := false, raisedToCaller := false }
    else
      { writeAttempted := true, payload := some payload, refreshRequested := false,
        errorLogged := true, raisedToCaller := false }

/-- Modelled from the spec: the repository ships no optimizer source under
`src/` (the coordinator module is absent), so the Range Optimizer is
modelled from §4.1.  A requested register of one `(slave_id,
register_space)` group: an address and a word count.  (Grouping is by-key
independent, so the model covers one group.) -/
structure SpecRegister where
  address : Nat
  width : Nat
deriving DecidableEq, Repr

/-- One past the last word a register occupies. -/
def regEnd (r : SpecRegister) : Nat :=
  r.address + r.width

/-- Modelled from the spec (§3): a `ReadSpan` — a contiguous range of
addresses read in one device call (start address and word count). -/
structure ReadSpan where
  start : Nat
  words : Nat
deriving DecidableEq, Repr

/-- A span covers a register when the register's words all lie inside the
span's address range. -/
def spanCovers (s : ReadSpan) (r : SpecRegister) : Prop :=
  s.start ≤ r.address ∧ regEnd r ≤ s.start + s.words

/-- Modelled from the spec (§4.1 sweep): starting from a span
`[start, e)`, greedily absorb the next sorted registers while the gap
from the current end is at most `maxGap` and the grown span stays within
`maxSpan`; return the absorbed registers, the final end, and the
remaining registers. -/
def takeBlock (start maxSpan maxGap : Nat) :
    Nat → List SpecRegister → List SpecRegister × Nat × List SpecRegister
  | e, [] => ([], e, [])
  | e, r :: rest =>
    if r.address ≤ e + maxGap ∧ r.address + r.width ≤ start + maxSpan then
      let res := takeBlock start maxSpan maxGap (max e (r.address + r.width)) rest
      (r :: res.1, res.2)
    else ([], e, r :: rest)

/-- Modelled from the spec (§4.1): the left-to-right sweep over the sorted
register list, with structural fuel (every block consumes at least one
register, so `length + 1` fuel always suffices). -/
def sweepBlocks (maxSpan maxGap : Nat) : Nat → List SpecRegister → List ReadSpan
  | 0, _ => []
  | _ + 1, [] => []
  | fuel + 1, r :: rest =>
    let res := takeBlock r.address maxSpan maxGap (r.address + r.width) rest
    ⟨r.address, res.2.1 - r.address⟩ :: sweepBlocks maxSpan maxGap fuel res.2.2

/-- Stable insertion into an address-sorted register list. -/
def insertByAddress (r : SpecRegister) : List SpecRegister → List SpecRegister
  | [] => [r]
  | x :: xs => if r.address ≤ x.address then r :: x :: xs else x :: insertByAddress r xs

/-- Sort a register group by address (insertion sort — the model's
executable stand-in for Python's `sorted(..., key=lambda r: r.address)`). -/
def sortByAddress : List SpecRegister → List SpecRegister
  | [] => []
  | r :: rs => insertByAddress r (sortByAddress rs)

/-- Modelled from the spec (§4.1): `optimize(registers, max_span_words,
max_gap_words)` for one `(slave_id, register_space)` group — sort by
address, then sweep. -/
def optimize (regs : List SpecRegister) (maxSpan maxGap : Nat) : List ReadSpan :=
  let sorted := sortByAddress regs
  sweepBlocks maxSpan maxGap (sorted.length + 1) sorted

/-- The member lists of the blocks the sweep forms (same recursion as
`sweepBlocks`, but returning the registers of each block — used to state
coverage). -/
def sweepGroups (maxSpan maxGap : Nat) : Nat → List SpecRegister → List (List SpecRegister)
  | 0, _ => []
  | _ + 1, [] => []
  | fuel + 1, r :: rest =>
    let res := takeBlock r.address maxSpan maxGap (r.address + r.width) rest
    (r :: res.1) :: sweepGroups maxSpan maxGap fuel res.2.2

/-- The blocks of `optimize` (sort, then group by the sweep). -/
def optGroups (regs : List SpecRegister) (maxSpan maxGap : Nat) : List (List SpecRegister) :=
  let sorted := sortByAddress regs
  sweepGroups maxSpan maxGap (sorted.length + 1) sorted

/-- Adjacent-gap constraint of a block: each register starts at most
`maxGap` words after the previous register's end. -/
def gapsOkB (maxGap : Nat) : List SpecRegister → Bool
  | [] => true
  | [_] => true
  | a :: b :: rest => decide (b.address ≤ regEnd a + maxGap) && gapsOkB maxGap (b :: rest)

/-- End of the last register of a block (`0` for the empty block). -/
def lastEnd : List SpecRegister → Nat
  | [] => 0
  | [r] => regEnd r
  | _ :: rest => lastEnd rest

/-- A block a strategy may read in one span while respecting the two
constraints: nonempty, all internal gaps at most `maxGap`, and — except
for a single register, which may never be split — total extent at most
`maxSpan`. -/
def feasibleBlock (maxSpan maxGap : Nat) : List SpecRegister → Bool
  | [] => false
  | r :: rest =>
    gapsOkB maxGap (r :: rest) &&
      (rest.isEmpty || decide (lastEnd (r :: rest) ≤ r.address + maxSpan))

/-- A strategy respecting the two constraints: a partition of the sorted
register list into consecutive feasible blocks. -/
def validPartition (maxSpan maxGap : Nat) (P : List (List SpecRegister))
    (regs : List SpecRegister) : Prop :=
  P.flatten = regs ∧ ∀ b ∈ P, feasibleBlock maxSpan maxGap b = true

/-- A well-formed register set for one group, viewed in address order:
consecutive registers do not overlap (each starts at or past the previous
end) and every register is at least one word wide. -/
def wellLaidOut (regs : List SpecRegister) : Prop :=
  List.Chain' (fun a b => regEnd a ≤ b.address) regs ∧ ∀ r ∈ regs, 0 < r.width

/-- The comparison-operator substrings `_evaluate_single_condition`
recognizes, in source order. -/
def comparisonPats : List (List Char) :=
  [" not in ".toList, " in ".toList, "!=".toList, "==".toList, ">=".toList, ">".toList]

/-- A condition string in which no comparison-operator substring occurs
(the evaluator's documented unknown-format case). -/
def noComparisonOps (s : List Char) : Prop :=
  ∀ p ∈ comparisonPats, containsSub p s = false

/-- One unfolding step of the fuelled evaluator, with the recursive
occurrences abstracted as `recur` (proof device for reasoning about a
single level of the recursion at a time). -/
def evalCondStep (cfg : PyDict) (recur : List Char → Option Bool)
    (cond : List Char) : Option Bool :=
  let c := stripOuterParens (pyStrip cond)
  match findOps c with
  | (some i, _) =>
    match recur (pyStrip (c.take (i - 2))) with
    | none => none
    | some true => some true
    | some false => recur (pyStrip (c.drop (i + 2)))
  | (none, some j) =>
    match recur (pyStrip (c.take (j - 2))) with
    | none => none
    | some false => some false
    | some true => recur (pyStrip (c.drop (j + 3)))
  | (none, none) => _evaluate_single_condition c cfg

/-! ## Association-list dictionary lemmas -/

theorem pyGetD_append_left {d1 d2 : PyDict} {k : List Char} {dflt : PyVal}
    (h : pyHasKey d1 k = true) : pyGetD (d1 ++ d2) k dflt = pyGetD d1 k dflt := by
  unfold pyGetD pyHasKey at *
  rw [List.find?_append]
  cases hf : d1.find? (fun kv => kv.1 = k) with
  | none => rw [hf] at h; simp at h
  | some kv => simp [Option.orElse]

theorem pyGetD_append_right {d1 d2 : PyDict} {k : List Char} {dflt : PyVal}
    (h : pyHasKey d1 k = false) : pyGetD (d1 ++ d2) k dflt = pyGetD d2 k dflt := by
  unfold pyGetD pyHasKey at *
  rw [List.find?_append]
  cases hf : d1.find? (fun kv => kv.1 = k) with
  | none => simp [Option.orElse]
  | some kv => rw [hf] at h; simp at h

theorem pyHasKey_append {d1 d2 : PyDict} {k : List Char} :
    pyHasKey (d1 ++ d2) k = (pyHasKey d1 k || pyHasKey d2 k) := by
  unfold pyHasKey
  rw [List.find?_append]
  cases hf : d1.find? (fun kv => kv.1 = k) <;> simp [Option.orElse]

theorem pyGetD_of_hasKey {d : PyDict} {k : List Char} {a b : PyVal}
    (h : pyHasKey d k = true) : pyGetD d k a = pyGetD d k b := by
  unfold pyGetD pyHasKey at *
  cases hf : d.find? (fun kv => kv.1 = k) with
  | none => rw [hf] at h; simp at h
  | some kv => rfl

/-- A fold whose steps only extend the dictionary preserves key presence. -/
theorem foldl_hasKey_mono {α : Type} {f : PyDict → α → PyDict}
    (hf : ∀ acc x, ∃ t, f acc x = acc ++ t) (l : List α) (init : PyDict)
    (k : List Char) (h : pyHasKey init k = true) :
    pyHasKey (l.foldl f init) k = true := by
  induction l generalizing init with
  | nil => exact h
  | cons x xs ih =>
    simp only [List.foldl_cons]
    apply ih
    obtain ⟨t, ht⟩ := hf init x
    rw [ht, pyHasKey_append, h, Bool.true_or]

/-- A fold whose steps only extend the dictionary and whose appended
bindings for key `k` always carry the value `target` (when `k` was still
absent) preserves the invariant "`k`, if present, maps to `target`". -/
theorem foldl_get_invariant {α : Type} {f : PyDict → α → PyDict} {k : List Char}
    {target : PyVal} (l : List α)
    (hf : ∀ acc x, x ∈ l →
      f acc x = acc ∨ ∃ kv, f acc x = acc ++ [kv] ∧
        (kv.1 = k → pyHasKey acc k = false → kv.2 = target))
    (init : PyDict) (hinit : pyHasKey init k = true → pyGet init k = target) :
    pyHasKey (l.foldl f init) k = true → pyGet (l.foldl f init) k = target := by
  induction l generalizing init with
  | nil => exact hinit
  | cons x xs ih =>
    intro hkey
    simp only [List.foldl_cons] at hkey ⊢
    refine ih (fun acc y hy => hf acc y (List.mem_cons_of_mem x hy)) (f init x) ?_ hkey
    intro hk2
    rcases hf init x (List.mem_cons_self x xs) with heq | ⟨kv, heq, hval⟩
    · rw [heq]; exact hinit (heq ▸ hk2)
    · rw [heq]
      by_cases hik : pyHasKey init k = true
      · rw [pyGet, pyGetD_append_left hik]; exact hinit hik
      · have hik' : pyHasKey init k = false := by
          cases h' : pyHasKey init k
          · rfl
          · exact absurd h' hik
        rw [pyGet, pyGetD_append_right hik']
        rw [heq, pyHasKey_append, hik', Bool.false_or] at hk2
        unfold pyHasKey at hk2
        unfold pyGetD
        cases hkv : [kv].find? (fun kv => kv.1 = k) with
        | none => rw [hkv] at hk2; simp at hk2
        | some kv' =>
          simp only [List.find?_cons, List.find?_nil] at hkv
          by_cases hkk : kv.1 = k
          · simp [hkk] at hkv
            rw [← hkv]
            exact hval hkk hik'
          · simp [hkk] at hkv

theorem pyGetD_eq_pyGet_of_hasKey {d : PyDict} {k : List Char} {a : PyVal}
    (h : pyHasKey d k = true) : pyGetD d k a = pyGet d k :=
  pyGetD_of_hasKey h

theorem pyGetD_of_not_hasKey {d : PyDict} {k : List Char} {a : PyVal}
    (h : pyHasKey d k = false) : pyGetD d k a = a := by
  unfold pyGetD pyHasKey at *
  cases hf : d.find? (fun kv => kv.1 = k) with
  | none => rfl
  | some kv => rw [hf] at h; simp at h

theorem pyHasKey_of_pyGet {d : PyDict} {k : List Char} {v : PyVal}
    (hv : v ≠ .vNone) (h : pyGet d k = v) : pyHasKey d k = true := by
  cases hk : pyHasKey d k
  · rw [pyGet, pyGetD_of_not_hasKey hk] at h
    exact absurd h.symm hv
  · rfl

/-- In a dict with distinct keys, every binding is what lookup returns. -/
theorem pyGet_of_mem_nodup {d : PyDict} {kv : List Char × PyVal}
    (hnd : (d.map Prod.fst).Nodup) (hmem : kv ∈ d) : pyGet d kv.1 = kv.2 := by
  induction d with
  | nil => cases hmem
  | cons hd tl ih =>
    simp only [List.map_cons, List.nodup_cons] at hnd
    rcases List.mem_cons.mp hmem with heq | hmem'
    · subst heq
      simp [pyGet, pyGetD, List.find?_cons]
    · have hne : hd.1 ≠ kv.1 := by
        intro hcontra
        exact hnd.1 (hcontra ▸ List.mem_map_of_mem Prod.fst hmem')
      have := ih hnd.2 hmem'
      simp only [pyGet, pyGetD, List.find?_cons] at *
      have : (fun x : List Char × PyVal => decide (x.1 = kv.1)) hd = false := by
        simp [hne]
      simp only [this]
      exact ih hnd.2 hmem'

/-- The copy-remaining-fields fold of `validate_and_process_register`
ends up containing every key of the source dict. -/
theorem regfold_hasKey {reg : PyDict} {k : List Char}
    (h : ∃ x ∈ reg, x.1 = k) (acc : PyDict) :
    pyHasKey (reg.foldl
      (fun acc kv => if pyHasKey acc kv.1 then acc else acc ++ [kv]) acc) k = true := by
  induction reg generalizing acc with
  | nil => obtain ⟨x, hx, _⟩ := h; cases hx
  | cons hd tl ih =>
    simp only [List.foldl_cons]
    rcases List.mem_cons.mp (h.choose_spec.1) with heq | hmem'
    · have hk : hd.1 = k := heq ▸ h.choose_spec.2
      by_cases hacc : pyHasKey acc hd.1 = true
      · simp only [hacc, if_true]
        apply foldl_hasKey_mono
        · intro a x
          by_cases hc : pyHasKey a x.1 = true
          · exact ⟨[], by simp [hc]⟩
          · refine ⟨[x], ?_⟩
            have : pyHasKey a x.1 = false := by cases h' : pyHasKey a x.1; rfl; exact absurd h' hc
            simp [this]
        · exact hk ▸ hacc
      · have hacc' : pyHasKey acc hd.1 = false := by
          cases h' : pyHasKey acc hd.1; rfl; exact absurd h' hacc
        simp only [hacc', if_neg, Bool.false_eq_true, not_false_iff, ite_false]
        apply foldl_hasKey_mono
        · intro a x
          by_cases hc : pyHasKey a x.1 = true
          · exact ⟨[], by simp [hc]⟩
          · refine ⟨[x], ?_⟩
            have : pyHasKey a x.1 = false := by cases h' : pyHasKey a x.1; rfl; exact absurd h' hc
            simp [this]
        · rw [pyHasKey_append]
          have : pyHasKey [hd] k = true := by
            unfold pyHasKey
            simp [List.find?_cons, hk]
          simp [this]
    · exact ih ⟨h.choose, hmem', h.choose_spec.2⟩ _

/-- A declared float register whose word count is below its type's
minimum fails validation, whatever the other fields hold. -/
theorem validate_false_of_short_float {reg : PyDict} {dt : List Char} {n : Int}
    (hdt : pyGet reg "data_type".toList = .vStr dt)
    (hc : pyGet reg "count".toList = .vInt n)
    (hcase : ((dt = "float".toList ∨ dt = "float32".toList) ∧ n < 2) ∨
      (dt = "float64".toList ∧ n < 4)) :
    validate_register_data reg = false := by
  unfold validate_register_data
  rw [hdt, hc]
  rcases hcase with ⟨hdt2, hn⟩ | ⟨hdt2, hn⟩
  · have h2 : ¬ (2 ≤ n) := by omega
    rcases hdt2 with h | h <;> subst h <;> simp [h2]
  · subst hdt2
    have h4 : ¬ (4 ≤ n) := by omega
    simp [h4]

theorem pyGet_cons {k1 k : List Char} {v1 : PyVal} {d : PyDict} :
    pyGet ((k1, v1) :: d) k = if k1 = k then v1 else pyGet d k := by
  unfold pyGet pyGetD
  rw [List.find?_cons]
  by_cases h : k1 = k
  · simp [h]
  · simp [h]

theorem pyHasKey_cons {k1 k : List Char} {v1 : PyVal} {d : PyDict} :
    pyHasKey ((k1, v1) :: d) k = (decide (k1 = k) || pyHasKey d k) := by
  unfold pyHasKey
  rw [List.find?_cons]
  by_cases h : k1 = k
  · simp [h]
  · simp [h]

theorem find?_update_ne (d : PyDict) (k' k : List Char) (v : PyVal) (h : k' ≠ k) :
    (d.map (fun kv => if kv.1 = k' then (k', v) else kv)).find? (fun kv => kv.1 = k)
      = d.find? (fun kv => kv.1 = k) := by
  rw [List.find?_map]
  have hpf : ((fun kv : List Char × PyVal => decide (kv.1 = k)) ∘
      (fun kv => if kv.1 = k' then (k', v) else kv)) =
      (fun kv : List Char × PyVal => decide (kv.1 = k)) := by
    funext kv
    by_cases h1 : kv.1 = k'
    · simp [Function.comp, h1, h]
    · simp [Function.comp, h1]
  rw [hpf]
  cases hfind : d.find? (fun kv : List Char × PyVal => decide (kv.1 = k)) with
  | none => rfl
  | some kv =>
    have hprop := List.find?_some hfind
    simp only [decide_eq_true_eq] at hprop
    have : kv.1 ≠ k' := by rw [hprop]; exact Ne.symm h
    simp [Option.map, this]

theorem pyGet_pySet_ne {d : PyDict} {k' k : List Char} {v : PyVal} (h : k' ≠ k) :
    pyGet (pySet d k' v) k = pyGet d k := by
  unfold pySet
  by_cases hk : pyHasKey d k' = true
  · simp only [hk, if_true]
    unfold pyGet pyGetD
    rw [find?_update_ne d k' k v h]
  · have hk' : pyHasKey d k' = false := by
      cases h' : pyHasKey d k'; rfl; exact absurd h' hk
    simp only [hk', Bool.false_eq_true, if_false]
    by_cases h2 : pyHasKey d k = true
    · exact pyGetD_append_left h2
    · have h2' : pyHasKey d k = false := by
        cases h' : pyHasKey d k; rfl; exact absurd h' h2
      rw [pyGet, pyGetD_append_right h2', pyGet, pyGetD_of_not_hasKey h2']
      unfold pyGetD
      simp [List.find?_cons, h]

/-- Lookup of a template-supplied field survives
`validate_and_process_register`'s processing pipeline: the processed
register still maps the field to the template's value. -/
theorem processed_get (defaults reg : PyDict) (k : List Char) (target : PyVal)
    (hnd : (reg.map Prod.fst).Nodup) (htar : target ≠ .vNone)
    (hk : pyGet reg k = target) :
    pyGet (reg.foldl (fun acc kv => if pyHasKey acc kv.1 then acc else acc ++ [kv])
      (defaults.foldl
        (fun acc fd =>
          if pyHasKey acc fd.1 || fd.1 = "count".toList then acc
          else acc ++ [(fd.1, pyGetD reg fd.1 fd.2)])
        ([("name".toList, pyGet reg "name".toList),
          ("address".toList, pyGet reg "address".toList)] ++
          [("count".toList, pyGet reg "count".toList)]))) k = target ∧
    pyHasKey (reg.foldl (fun acc kv => if pyHasKey acc kv.1 then acc else acc ++ [kv])
      (defaults.foldl
        (fun acc fd =>
          if pyHasKey acc fd.1 || fd.1 = "count".toList then acc
          else acc ++ [(fd.1, pyGetD reg fd.1 fd.2)])
        ([("name".toList, pyGet reg "name".toList),
          ("address".toList, pyGet reg "address".toList)] ++
          [("count".toList, pyGet reg "count".toList)]))) k = true := by
  have hkreg : pyHasKey reg k = true := pyHasKey_of_pyGet htar hk
  have hp1 : pyHasKey ([("name".toList, pyGet reg "name".toList),
      ("address".toList, pyGet reg "address".toList)] ++
      [("count".toList, pyGet reg "count".toList)] : PyDict) k = true →
      pyGet ([("name".toList, pyGet reg "name".toList),
      ("address".toList, pyGet reg "address".toList)] ++
      [("count".toList, pyGet reg "count".toList)] : PyDict) k = target := by
    intro h1
    simp only [List.cons_append, List.nil_append] at h1 ⊢
    rw [pyGet_cons, pyGet_cons, pyGet_cons]
    rw [pyHasKey_cons, pyHasKey_cons, pyHasKey_cons] at h1
    by_cases e1 : "name".toList = k
    · rw [if_pos e1]; exact e1 ▸ hk
    · rw [if_neg e1]
      by_cases e2 : "address".toList = k
      · rw [if_pos e2]; exact e2 ▸ hk
      · rw [if_neg e2]
        by_cases e3 : "count".toList = k
        · rw [if_pos e3]; exact e3 ▸ hk
        · exfalso
          simp only [Bool.or_eq_true, decide_eq_true_eq] at h1
          rcases h1 with h | h | h | h
          · exact e1 h
          · exact e2 h
          · exact e3 h
          · simp [pyHasKey] at h
  have hopt : pyHasKey (defaults.foldl
      (fun acc fd =>
        if pyHasKey acc fd.1 || fd.1 = "count".toList then acc
        else acc ++ [(fd.1, pyGetD reg fd.1 fd.2)])
      ([("name".toList, pyGet reg "name".toList),
        ("address".toList, pyGet reg "address".toList)] ++
        [("count".toList, pyGet reg "count".toList)])) k = true →
      pyGet (defaults.foldl
      (fun acc fd =>
        if pyHasKey acc fd.1 || fd.1 = "count".toList then acc
        else acc ++ [(fd.1, pyGetD reg fd.1 fd.2)])
      ([("name".toList, pyGet reg "name".toList),
        ("address".toList, pyGet reg "address".toList)] ++
        [("count".toList, pyGet reg "count".toList)])) k = target := by
    apply foldl_get_invariant
    · intro acc x _
      cases hcond : (pyHasKey acc x.1 || decide (x.1 = "count".toList)) with
      | true => left; simp [hcond]
      | false =>
        right
        refine ⟨(x.1, pyGetD reg x.1 x.2), by simp [hcond], ?_⟩
        intro hxk _
        rw [hxk, pyGetD_eq_pyGet_of_hasKey hkreg]
        exact hk
    · exact hp1
  have hkey3 : pyHasKey (reg.foldl
      (fun acc kv => if pyHasKey acc kv.1 then acc else acc ++ [kv])
      (defaults.foldl
        (fun acc fd =>
          if pyHasKey acc fd.1 || fd.1 = "count".toList then acc
          else acc ++ [(fd.1, pyGetD reg fd.1 fd.2)])
        ([("name".toList, pyGet reg "name".toList),
          ("address".toList, pyGet reg "address".toList)] ++
          [("count".toList, pyGet reg "count".toList)]))) k = true := by
    apply regfold_hasKey
    unfold pyHasKey at hkreg
    cases hfind : reg.find? (fun kv => kv.1 = k) with
    | none => rw [hfind] at hkreg; simp at hkreg
    | some kv =>
      have hmem := List.mem_of_find?_eq_some hfind
      have hprop := List.find?_some hfind
      simp only [decide_eq_true_eq] at hprop
      exact ⟨kv, hmem, hprop⟩
  refine ⟨foldl_get_invariant reg ?_ _ hopt hkey3, hkey3⟩
  intro acc x hx
  cases hcond : pyHasKey acc x.1 with
  | true => left; simp [hcond]
  | false =>
    right
    refine ⟨x, by simp [hcond], ?_⟩
    intro hxk _
    have hxv := pyGet_of_mem_nodup hnd hx
    rw [hxk] at hxv
    rw [← hxv, hk]

/-- The float-count rejection also holds after the `entity_type`
assignment that processing performs last. -/
theorem validate_false_pySet_entity {D : PyDict} {v : PyVal} {dt : List Char} {n : Int}
    (hdt : pyGet D "data_type".toList = .vStr dt)
    (hc : pyGet D "count".toList = .vInt n)
    (hcase : ((dt = "float".toList ∨ dt = "float32".toList) ∧ n < 2) ∨
      (dt = "float64".toList ∧ n < 4)) :
    validate_register_data (pySet D "entity_type".toList v) = false := by
  apply validate_false_of_short_float _ _ hcase
  · rw [pyGet_pySet_ne (show "entity_type".toList ≠ "data_type".toList by decide)]
    exact hdt
  · rw [pyGet_pySet_ne (show "entity_type".toList ≠ "count".toList by decide)]
    exact hc

/-- C8: at template load time, a register declaring a float data type with
a word count below the type's minimum (2 for float/float32, 4 for float64)
fails `validate_register_data`, and `validate_and_process_register`
therefore rejects it (`None`) — for every register dict and every
optional-field default table — so it is never included in the loaded
register set. -/
theorem C8_short_float_register_rejected :
    ∀ (reg defaults : PyDict) (dt : List Char) (n : Int),
    (reg.map Prod.fst).Nodup →
    pyGet reg "data_type".toList = .vStr dt →
    pyGet reg "count".toList = .vInt n →
    (((dt = "float".toList ∨ dt = "float32".toList) ∧ n < 2) ∨
      (dt = "float64".toList ∧ n < 4)) →
    validate_register_data reg = false ∧
      validate_and_process_register defaults reg = none := by
  intro reg defaults dt n hnd hdt hc hcase
  refine ⟨validate_false_of_short_float hdt hc hcase, ?_⟩
  unfold validate_and_process_register
  cases hreq : (pyHasKey reg "name".toList && pyHasKey reg "address".toList) with
  | false => simp [hreq]
  | true =>
    simp only [hreq, Bool.not_true, Bool.false_eq_true, if_false]
    have h3 := processed_get defaults reg "data_type".toList (.vStr dt) hnd (by simp) hdt
    have h3c := processed_get defaults reg "count".toList (.vInt n) hnd (by simp) hc
    rw [validate_false_pySet_entity h3.1 h3c.1 hcase]
    simp

/-- Witness for C8 at a concrete register: `float32` with `count = 1`. -/
theorem C8_witness :
    validate_register_data
      [("name".toList, .vStr "x".toList), ("address".toList, .vInt 1),
        ("data_type".toList, .vStr "float32".toList), ("count".toList, .vInt 1)] = false ∧
      validate_and_process_register []
      [("name".toList, .vStr "x".toList), ("address".toList, .vInt 1),
        ("data_type".toList, .vStr "float32".toList), ("count".toList, .vInt 1)] = none :=
  C8_short_float_register_rejected
    [("name".toList, .vStr "x".toList), ("address".toList, .vInt 1),
      ("data_type".toList, .vStr "float32".toList), ("count".toList, .vInt 1)]
    [] "float32".toList 1 (by decide) (by decide) (by decide)
    (Or.inl ⟨Or.inr rfl, by decide⟩)

/-- C4: for a register carrying a (nonempty) `firmware_min_version`, the
firmware filter of `_should_include_sensor` excludes it exactly when the
device firmware is lower than the minimum — semantic-version comparison,
string comparison as fallback for non-semantic tags — in both the
template-loader and the config-flow variant (the latter also requires a
nonempty device firmware string); in particular, minimum `2.0` excludes
firmware `1.5` and admits firmware `2.1`. -/
theorem C4_firmware_gating :
    (∀ (m fw : List Char), m ≠ [] →
      (firmware_excludes_tl (some m) fw = true ↔ versionLower fw m = true)) ∧
    (∀ (m fw : List Char), m ≠ [] → fw ≠ [] →
      (firmware_excludes_cf (some m) fw = true ↔ versionLower fw m = true)) ∧
    firmware_excludes_tl (some "2.0".toList) "1.5".toList = true ∧
    firmware_excludes_tl (some "2.0".toList) "2.1".toList = false ∧
    firmware_excludes_cf (some "2.0".toList) "1.5".toList = true ∧
    firmware_excludes_cf (some "2.0".toList) "2.1".toList = false := by
  refine ⟨?_, ?_, by decide, by decide, by decide, by decide⟩
  · intro m fw hm
    have hme : m.isEmpty = false := by
      cases m
      · exact absurd rfl hm
      · rfl
    simp only [firmware_excludes_tl, versionLower, hme, Bool.false_eq_true, if_false]
  · intro m fw hm hfw
    have hme : m.isEmpty = false := by
      cases m
      · exact absurd rfl hm
      · rfl
    have hfe : fw.isEmpty = false := by
      cases fw
      · exact absurd rfl hfw
      · rfl
    simp only [firmware_excludes_cf, versionLower, hme, hfe, Bool.or_self,
      Bool.false_eq_true, if_false, Bool.false_or, Bool.or_false]

/-- Witness for C4: the firmware gate agrees with the spec's version
comparison at minimum `2.0` against firmware `1.5`. -/
theorem C4_witness :
    (firmware_excludes_tl (some "2.0".toList) "1.5".toList = true ↔
      versionLower "1.5".toList "2.0".toList = true) ∧
    (firmware_excludes_cf (some "2.0".toList) "1.5".toList = true ↔
      versionLower "1.5".toList "2.0".toList = true) :=
  ⟨C4_firmware_gating.1 "2.0".toList "1.5".toList (by decide),
    C4_firmware_gating.2.1 "2.0".toList "1.5".toList (by decide) (by decide)⟩

/-- C6: for a nonzero effective scale factor, `async_set_native_value`
sends the raw value `(value - offset) / scale_factor` to the device,
where the scale factor is `scale` when present, else `multiplier`, else
`1.0`; the raw value is converted to IEEE-754 word pairs for float types
(two words for float32 — word-swapped if configured — four for float64)
and by `int()` truncation for integer types. -/
theorem C6_write_value_scaling :
    ∀ (cfg : NumberConfig) (x : ℚ) (r : Bool), scaleFactorOf cfg ≠ 0 →
    (∀ s, cfg.scale = some s → scaleFactorOf cfg = s) ∧
    (∀ m, cfg.scale = none → cfg.multiplier = some m → scaleFactorOf cfg = m) ∧
    (cfg.scale = none → cfg.multiplier = none → scaleFactorOf cfg = 1) ∧
    ((cfg.data_type ≠ "float".toList ∧ cfg.data_type ≠ "float32".toList ∧
        cfg.data_type ≠ "float64".toList) →
      (async_set_native_value cfg x r).payload =
        some (.ints (pyTrunc ((x - cfg.offset) / scaleFactorOf cfg)), effectiveCount cfg)) ∧
    ((cfg.data_type = "float".toList ∨ cfg.data_type = "float32".toList) →
      cfg.swap ≠ "word".toList →
      (async_set_native_value cfg x r).payload =
        some (.words (f32words ((x - cfg.offset) / scaleFactorOf cfg)), 2)) ∧
    ((cfg.data_type = "float".toList ∨ cfg.data_type = "float32".toList) →
      cfg.swap = "word".toList →
      (async_set_native_value cfg x r).payload =
        some (.words [ieeeBits 8 24 ((x - cfg.offset) / scaleFactorOf cfg) % 2 ^ 16,
          ieeeBits 8 24 ((x - cfg.offset) / scaleFactorOf cfg) / 2 ^ 16], 2)) ∧
    (cfg.data_type = "float64".toList →
      (async_set_native_value cfg x r).payload =
        some (.words (f64words ((x - cfg.offset) / scaleFactorOf cfg)), 4)) := by
  intro cfg x r hsf
  refine ⟨?_, ?_, ?_, ?_, ?_, ?_, ?_⟩
  · intro s hs; simp [scaleFactorOf, hs]
  · intro m hs hm; simp [scaleFactorOf, hs, hm]
  · intro hs hm; simp [scaleFactorOf, hs, hm]
  · intro ⟨h1, h2, h3⟩
    unfold async_set_native_value
    rw [if_neg hsf]
    simp at h1 h2 h3
    cases r <;> simp [h1, h2, h3]
  · intro h1 h2
    unfold async_set_native_value
    rw [if_neg hsf]
    simp at h2
    rcases h1 with h | h <;> cases r <;> simp [h, h2]
  · intro h1 h2
    unfold async_set_native_value
    rw [if_neg hsf]
    rcases h1 with h | h <;> cases r <;> simp [h, h2, f32words]
  · intro h1
    have h2 : ¬(cfg.data_type = "float".toList ∨ cfg.data_type = "float32".toList) := by
      rw [h1]; decide
    unfold async_set_native_value
    rw [if_neg hsf]
    cases r <;> simp [h1, h2]

/-- Witness for C6: a `uint16` register with scale `2` and offset `1`;
writing display value `5` sends `int((5 - 1) / 2)`. -/
theorem C6_witness :
    (async_set_native_value
      { data_type := "uint16".toList, scale := some 2, multiplier := none,
        offset := 1, swap := "none".toList, count := none } 5 true).payload =
      some (.ints (pyTrunc ((5 - 1) / 2)), 1) :=
  (C6_write_value_scaling
    { data_type := "uint16".toList, scale := some 2, multiplier := none,
      offset := 1, swap := "none".toList, count := none } 5 true
    (by simp [scaleFactorOf])).2.2.2.1 (by refine ⟨?_, ?_, ?_⟩ <;> decide)

/-- C7 (amended): the coordinator refresh is requested iff a write was
attempted and the device call returned a truthy result; a failed write
logs an explicit error but the method returns normally — nothing is
raised to the caller on any path. -/
theorem C7_refresh_iff_write_success :
    ∀ (cfg : NumberConfig) (x : ℚ) (r : Bool),
    ((async_set_native_value cfg x r).refreshRequested = true ↔
      (async_set_native_value cfg x r).writeAttempted = true ∧ r = true) ∧
    (r = false → (async_set_native_value cfg x r).refreshRequested = false ∧
      (async_set_native_value cfg x r).errorLogged = true) ∧
    (async_set_native_value cfg x r).raisedToCaller = false := by
  intro cfg x r
  unfold async_set_native_value
  by_cases hsf : scaleFactorOf cfg = 0
  · rw [if_pos hsf]
    cases r <;> simp
  · rw [if_neg hsf]
    cases r <;> simp

/-- Witness for C7's amended statement at a concrete failed write. -/
theorem C7_witness :
    (async_set_native_value
      { data_type := "uint16".toList, scale := some 1, multiplier := none,
        offset := 0, swap := "none".toList, count := none } 5 false).refreshRequested = false ∧
    (async_set_native_value
      { data_type := "uint16".toList, scale := some 1, multiplier := none,
        offset := 0, swap := "none".toList, count := none } 5 false).errorLogged = true :=
  (C7_refresh_iff_write_success
    { data_type := "uint16".toList, scale := some 1, multiplier := none,
      offset := 0, swap := "none".toList, count := none } 5 false).2.1 rfl

/-- Counterexample to C7 as stated: at a concrete failed write the method
logs the error and requests no refresh, but raises nothing to its caller —
the caller observes a normal return, not an explicit error (the whole
method body is inside `try/except Exception`). -/
theorem C7_counterexample :
    (async_set_native_value
      { data_type := "uint16".toList, scale := some 1, multiplier := none,
        offset := 0, swap := "none".toList, count := none } 5 false).errorLogged = true ∧
    (async_set_native_value
      { data_type := "uint16".toList, scale := some 1, multiplier := none,
        offset := 0, swap := "none".toList, count := none } 5 false).raisedToCaller = false ∧
    (async_set_native_value
      { data_type := "uint16".toList, scale := some 1, multiplier := none,
        offset := 0, swap := "none".toList, count := none } 5 false).refreshRequested = false := by
  refine ⟨?_, ?_, ?_⟩ <;> rfl

/-- C3: a condition that reaches the `==` branch (none of the
earlier-checked operator substrings occur, and the split on `==` has
exactly two parts) evaluates to the documented coercion comparison
`evalCompareEq` — boolean literals first, then attempted integer coercion
of both sides, then string comparison — applied to the stripped,
unquoted right-hand side and the configuration value of the left-hand
side; a condition reaching the `!=` branch evaluates to its negation.
In particular `phases == 3` is true for `{"phases": 3}` and false for
`{"phases": 1}`. -/
theorem C3_eq_comparison_coercion :
    (∀ (c l r : List Char) (cfg : PyDict),
      containsSub " not in ".toList (pyStrip c) = false →
      containsSub " in ".toList (pyStrip c) = false →
      containsSub "!=".toList (pyStrip c) = false →
      containsSub "==".toList (pyStrip c) = true →
      pySplitOn "==".toList (pyStrip c) = [l, r] →
      _evaluate_single_condition c cfg =
        some (evalCompareEq (pyStripChars ['\'', '"'] (pyStrip r)) (pyGet cfg (pyStrip l)))) ∧
    (∀ (c l r : List Char) (cfg : PyDict),
      containsSub " not in ".toList (pyStrip c) = false →
      containsSub " in ".toList (pyStrip c) = false →
      containsSub "!=".toList (pyStrip c) = true →
      pySplitOn "!=".toList (pyStrip c) = [l, r] →
      _evaluate_single_condition c cfg =
        some (!evalCompareEq (pyStripChars ['\'', '"'] (pyStrip r)) (pyGet cfg (pyStrip l)))) ∧
    _evaluate_condition "phases == 3".toList [("phases".toList, .vInt 3)] = some true ∧
    _evaluate_condition "phases == 3".toList [("phases".toList, .vInt 1)] = some false := by
  refine ⟨?_, ?_, by decide, by decide⟩
  · intro c l r cfg h1 h2 h3 h4 hsplit
    unfold _evaluate_single_condition
    simp only [h1, h2, h3, h4, Bool.false_eq_true, if_false, if_true]
    unfold eqBranch
    rw [hsplit]
  · intro c l r cfg h1 h2 h3 hsplit
    unfold _evaluate_single_condition
    simp only [h1, h2, h3, Bool.false_eq_true, if_false, if_true]
    unfold neBranch
    rw [hsplit]

/-- Witness for C3 at `phases == 3` against `{"phases": 3}`. -/
theorem C3_witness :
    _evaluate_single_condition "phases == 3".toList [("phases".toList, .vInt 3)] =
      some (evalCompareEq (pyStripChars ['\'', '"'] (pyStrip " 3".toList))
        (pyGet [("phases".toList, .vInt 3)] (pyStrip "phases ".toList))) :=
  C3_eq_comparison_coercion.1 "phases == 3".toList "phases ".toList " 3".toList
    [("phases".toList, .vInt 3)] (by decide) (by decide) (by decide) (by decide) (by decide)

/-! ## String-machinery lemmas for the condition evaluator -/

theorem containsSub_infix_iff {p s : List Char} : containsSub p s = true ↔ p <:+: s := by
  unfold containsSub
  rw [List.any_eq_true]
  constructor
  · rintro ⟨t, ht, hp⟩
    exact List.infix_iff_prefix_suffix.mpr
      ⟨t, List.isPrefixOf_iff_prefix.mp hp, (List.mem_tails _ _).mp ht⟩
  · intro h
    obtain ⟨t, hp, hs⟩ := List.infix_iff_prefix_suffix.mp h
    exact ⟨t, (List.mem_tails _ _).mpr hs, List.isPrefixOf_iff_prefix.mpr hp⟩

theorem containsSub_false_mono {p s t : List Char} (h : containsSub p s = false)
    (ht : t <:+: s) : containsSub p t = false := by
  cases h' : containsSub p t with
  | false => rfl
  | true =>
    rw [← h]
    exact (containsSub_infix_iff.mpr ((containsSub_infix_iff.mp h').trans ht)).symm

theorem pyStrip_infix_self (s : List Char) : pyStrip s <:+: s := by
  unfold pyStrip
  have h1 : s.dropWhile isPySpace <:+ s := List.dropWhile_suffix _
  have h2 : ((s.dropWhile isPySpace).reverse.dropWhile isPySpace).reverse <+:
      s.dropWhile isPySpace := by
    have := List.dropWhile_suffix (l := (s.dropWhile isPySpace).reverse) isPySpace
    rw [← List.reverse_prefix] at this
    simpa using this
  exact h2.isInfix.trans h1.isInfix

theorem pyStrip_length_le (s : List Char) : (pyStrip s).length ≤ s.length :=
  (pyStrip_infix_self s).length_le

theorem strip_outer_step_infix_self {s t : List Char} (h : strip_outer_step s = some t) :
    t <:+: s := by
  unfold strip_outer_step at h
  split at h
  · split at h
    · cases h
      exact (pyStrip_infix_self _).trans
        (((List.dropLast_prefix _).isInfix).trans (List.drop_suffix 1 s).isInfix)
    · cases h
  · cases h

theorem strip_outer_step_length {s t : List Char} (h : strip_outer_step s = some t) :
    t.length < s.length := by
  unfold strip_outer_step at h
  split at h
  case isTrue hh =>
    split at h
    · cases h
      have hne : s ≠ [] := by
        intro he
        rw [he] at hh
        simp at hh
      have h1 : 1 ≤ s.length := List.length_pos.mpr hne
      calc (pyStrip (s.drop 1).dropLast).length
          ≤ (s.drop 1).dropLast.length := pyStrip_length_le _
        _ = s.length - 1 - 1 := by rw [List.length_dropLast, List.length_drop]
        _ < s.length := by omega
    · cases h
  case isFalse => cases h

theorem stripOuterFuel_infix_self (f : Nat) (s : List Char) : stripOuterFuel f s <:+: s := by
  induction f generalizing s with
  | zero => exact List.infix_refl _
  | succ f ih =>
    unfold stripOuterFuel
    cases h : strip_outer_step s with
    | none => exact List.infix_refl _
    | some t => exact (ih t).trans (strip_outer_step_infix_self h)

theorem stripOuterParens_infix_self (s : List Char) : stripOuterParens s <:+: s :=
  stripOuterFuel_infix_self s.length s

theorem stripOuterParens_length_le (s : List Char) : (stripOuterParens s).length ≤ s.length :=
  (stripOuterParens_infix_self s).length_le

theorem scanOps_bounds :
    ∀ (s : List Char) (i : Nat) (d : Int) (orP andP : Option Nat),
    (∀ v, orP = some v → 2 ≤ v ∧ v + 2 ≤ i + s.length) →
    (∀ v, andP = some v → 2 ≤ v ∧ v + 3 ≤ i + s.length) →
    (∀ v, (scanOps s i d orP andP).1 = some v → 2 ≤ v ∧ v + 2 ≤ i + s.length) ∧
    (∀ v, (scanOps s i d orP andP).2 = some v → 2 ≤ v ∧ v + 3 ≤ i + s.length) := by
  intro s
  induction s with
  | nil =>
    intro i d orP andP hor hand
    exact ⟨hor, hand⟩
  | cons c rest ih =>
    intro i d orP andP hor hand
    have hlen : (c :: rest).length = rest.length + 1 := rfl
    have hshift : i + (c :: rest).length = (i + 1) + rest.length := by
      rw [hlen]; omega
    unfold scanOps
    by_cases h1 : c = '('
    · rw [if_pos h1, hshift]
      exact ih (i + 1) (d + 1) orP andP (by rw [← hshift]; exact hor) (by rw [← hshift]; exact hand)
    · rw [if_neg h1]
      by_cases h2 : c = ')'
      · rw [if_pos h2, hshift]
        exact ih (i + 1) (d - 1) orP andP (by rw [← hshift]; exact hor)
          (by rw [← hshift]; exact hand)
      · rw [if_neg h2]
        by_cases h3 : d = 0
        · rw [if_pos h3]
          by_cases h4 : orPat.isPrefixOf (c :: rest) = true
          · rw [if_pos h4]
            have hlen4 : 4 ≤ (c :: rest).length := by
              have := (List.isPrefixOf_iff_prefix.mp h4).length_le
              simpa [orPat] using this
            rw [hshift]
            refine ih (i + 1) d (some (i + 2)) andP ?_ (by rw [← hshift]; exact hand)
            intro v hv
            cases hv
            omega
          · simp only [h4, Bool.false_eq_true, if_false]
            by_cases h5 : andPat.isPrefixOf (c :: rest) = true
            · rw [if_pos h5]
              have hlen5 : 5 ≤ (c :: rest).length := by
                have := (List.isPrefixOf_iff_prefix.mp h5).length_le
                simpa [andPat] using this
              rw [hshift]
              refine ih (i + 1) d orP _ (by rw [← hshift]; exact hor) ?_
              intro v hv
              cases handP : andP with
              | none =>
                rw [handP] at hv
                simp at hv
                cases hv
                omega
              | some a =>
                rw [handP] at hv
                simp at hv
                have := hand a handP
                omega
            · simp only [h5, Bool.false_eq_true, if_false]
              rw [hshift]
              exact ih (i + 1) d orP andP (by rw [← hshift]; exact hor)
                (by rw [← hshift]; exact hand)
        · rw [if_neg h3, hshift]
          exact ih (i + 1) d orP andP (by rw [← hshift]; exact hor)
            (by rw [← hshift]; exact hand)

theorem findOps_or_bounds {s : List Char} {i : Nat} (h : (findOps s).1 = some i) :
    2 ≤ i ∧ i + 2 ≤ s.length := by
  have := (scanOps_bounds s 0 0 none none (by intro v hv; cases hv) (by intro v hv; cases hv)).1 i h
  simpa using this

theorem findOps_and_bounds {s : List Char} {j : Nat} (h : (findOps s).2 = some j) :
    2 ≤ j ∧ j + 3 ≤ s.length := by
  have := (scanOps_bounds s 0 0 none none (by intro v hv; cases hv) (by intro v hv; cases hv)).2 j h
  simpa using this

/-- Fuel-independence of the condition evaluator: any fuel exceeding the
string length gives the same result (the recursion always shortens the
string, so it is well-founded on string length). -/
theorem eval_fuel_congr :
    ∀ (n : Nat) (s : List Char), s.length ≤ n → ∀ (cfg : PyDict) (f g : Nat),
    s.length < f → s.length < g →
    evaluate_condition_fuel cfg f s = evaluate_condition_fuel cfg g s := by
  intro n
  induction n with
  | zero =>
    intro s hs cfg f g hf hg
    have hsnil : s = [] := List.length_eq_zero.mp (Nat.le_antisymm hs (Nat.zero_le _))
    subst hsnil
    cases f with
    | zero => omega
    | succ f' =>
      cases g with
      | zero => omega
      | succ g' => rfl
  | succ n ih =>
    intro s hs cfg f g hf hg
    cases f with
    | zero => omega
    | succ f' =>
      cases g with
      | zero => omega
      | succ g' =>
        have hc : (stripOuterParens (pyStrip s)).length ≤ s.length :=
          Nat.le_trans (stripOuterParens_length_le _) (pyStrip_length_le s)
        simp only [evaluate_condition_fuel]
        cases hfind : findOps (stripOuterParens (pyStrip s)) with
        | mk o a =>
          cases o with
          | some i =>
            have hb : 2 ≤ i ∧ i + 2 ≤ (stripOuterParens (pyStrip s)).length :=
              findOps_or_bounds (by rw [hfind])
            have hL : (pyStrip ((stripOuterParens (pyStrip s)).take (i - 2))).length <
                s.length := by
              have h1 := pyStrip_length_le ((stripOuterParens (pyStrip s)).take (i - 2))
              have h2 := List.length_take (i - 2) (stripOuterParens (pyStrip s))
              omega
            have hR : (pyStrip ((stripOuterParens (pyStrip s)).drop (i + 2))).length <
                s.length := by
              have h1 := pyStrip_length_le ((stripOuterParens (pyStrip s)).drop (i + 2))
              have h2 := List.length_drop (i + 2) (stripOuterParens (pyStrip s))
              omega
            have eL := ih (pyStrip ((stripOuterParens (pyStrip s)).take (i - 2)))
              (by omega) cfg f' g' (by omega) (by omega)
            have eR := ih (pyStrip ((stripOuterParens (pyStrip s)).drop (i + 2)))
              (by omega) cfg f' g' (by omega) (by omega)
            simp only [eL, eR]
          | none =>
            cases a with
            | some j =>
              have hb : 2 ≤ j ∧ j + 3 ≤ (stripOuterParens (pyStrip s)).length :=
                findOps_and_bounds (by rw [hfind])
              have hL : (pyStrip ((stripOuterParens (pyStrip s)).take (j - 2))).length <
                  s.length := by
                have h1 := pyStrip_length_le ((stripOuterParens (pyStrip s)).take (j - 2))
                have h2 := List.length_take (j - 2) (stripOuterParens (pyStrip s))
                omega
              have hR : (pyStrip ((stripOuterParens (pyStrip s)).drop (j + 3))).length <
                  s.length := by
                have h1 := pyStrip_length_le ((stripOuterParens (pyStrip s)).drop (j + 3))
                have h2 := List.length_drop (j + 3) (stripOuterParens (pyStrip s))
                omega
              have eL := ih (pyStrip ((stripOuterParens (pyStrip s)).take (j - 2)))
                (by omega) cfg f' g' (by omega) (by omega)
              have eR := ih (pyStrip ((stripOuterParens (pyStrip s)).drop (j + 3)))
                (by omega) cfg f' g' (by omega) (by omega)
              simp only [eL, eR]
            | none => rfl

/-- A single condition containing no comparison-operator substring is the
documented unknown-format case and evaluates to `True`. -/
theorem evalSingle_true_of_noOps {c : List Char} {cfg : PyDict}
    (h : noComparisonOps c) : _evaluate_single_condition c cfg = some true := by
  unfold _evaluate_single_condition
  have h1 := containsSub_false_mono (h " not in ".toList (by decide)) (pyStrip_infix_self c)
  have h2 := containsSub_false_mono (h " in ".toList (by decide)) (pyStrip_infix_self c)
  have h3 := containsSub_false_mono (h "!=".toList (by decide)) (pyStrip_infix_self c)
  have h4 := containsSub_false_mono (h "==".toList (by decide)) (pyStrip_infix_self c)
  have h5 := containsSub_false_mono (h ">=".toList (by decide)) (pyStrip_infix_self c)
  have h6 := containsSub_false_mono (h ">".toList (by decide)) (pyStrip_infix_self c)
  simp only [h1, h2, h3, h4, h5, h6, Bool.false_eq_true, if_false]

/-- Recursion lemma behind the amended C1: a condition with no
comparison-operator substrings evaluates to `True` under any sufficient
fuel (the `or`/`and` splitting and parenthesis stripping only pass to
infixes, which cannot introduce an operator substring). -/
theorem eval_true_of_noComparisonOps :
    ∀ (n : Nat) (s : List Char), s.length ≤ n → ∀ (cfg : PyDict) (f : Nat),
    s.length < f → noComparisonOps s →
    evaluate_condition_fuel cfg f s = some true := by
  intro n
  induction n with
  | zero =>
    intro s hs cfg f hf hops
    have hsnil : s = [] := List.length_eq_zero.mp (Nat.le_antisymm hs (Nat.zero_le _))
    subst hsnil
    cases f with
    | zero => omega
    | succ f' => rfl
  | succ n ih =>
    intro s hs cfg f hf hops
    cases f with
    | zero => omega
    | succ f' =>
      have hinfix : stripOuterParens (pyStrip s) <:+: s :=
        (stripOuterParens_infix_self _).trans (pyStrip_infix_self s)
      have hopsc : noComparisonOps (stripOuterParens (pyStrip s)) := fun p hp =>
        containsSub_false_mono (hops p hp) hinfix
      have hc : (stripOuterParens (pyStrip s)).length ≤ s.length := hinfix.length_le
      simp only [evaluate_condition_fuel]
      cases hfind : findOps (stripOuterParens (pyStrip s)) with
      | mk o a =>
        cases o with
        | some i =>
          have hb := findOps_or_bounds (show (findOps (stripOuterParens (pyStrip s))).1 =
            some i by rw [hfind])
          have hLinf : pyStrip ((stripOuterParens (pyStrip s)).take (i - 2)) <:+: s :=
            ((pyStrip_infix_self _).trans ((List.take_prefix _ _).isInfix)).trans hinfix
          have hRinf : pyStrip ((stripOuterParens (pyStrip s)).drop (i + 2)) <:+: s :=
            ((pyStrip_infix_self _).trans ((List.drop_suffix _ _).isInfix)).trans hinfix
          have hL : (pyStrip ((stripOuterParens (pyStrip s)).take (i - 2))).length <
              s.length := by
            have h1 := pyStrip_length_le ((stripOuterParens (pyStrip s)).take (i - 2))
            have h2 := List.length_take (i - 2) (stripOuterParens (pyStrip s))
            omega
          simp only [ih _ (by omega) cfg f' (by omega)
            (fun p hp => containsSub_false_mono (hops p hp) hLinf)]
        | none =>
          cases a with
          | some j =>
            have hb := findOps_and_bounds (show (findOps (stripOuterParens (pyStrip s))).2 =
              some j by rw [hfind])
            have hLinf : pyStrip ((stripOuterParens (pyStrip s)).take (j - 2)) <:+: s :=
              ((pyStrip_infix_self _).trans ((List.take_prefix _ _).isInfix)).trans hinfix
            have hRinf : pyStrip ((stripOuterParens (pyStrip s)).drop (j + 3)) <:+: s :=
              ((pyStrip_infix_self _).trans ((List.drop_suffix _ _).isInfix)).trans hinfix
            have hL : (pyStrip ((stripOuterParens (pyStrip s)).take (j - 2))).length <
                s.length := by
              have h1 := pyStrip_length_le ((stripOuterParens (pyStrip s)).take (j - 2))
              have h2 := List.length_take (j - 2) (stripOuterParens (pyStrip s))
              omega
            have hR : (pyStrip ((stripOuterParens (pyStrip s)).drop (j + 3))).length <
                s.length := by
              have h1 := pyStrip_length_le ((stripOuterParens (pyStrip s)).drop (j + 3))
              have h2 := List.length_drop (j + 3) (stripOuterParens (pyStrip s))
              omega
            simp only [ih _ (by omega) cfg f' (by omega)
              (fun p hp => containsSub_false_mono (hops p hp) hLinf)]
            exact ih _ (by omega) cfg f' (by omega)
              (fun p hp => containsSub_false_mono (hops p hp) hRinf)
          | none => exact evalSingle_true_of_noOps hopsc

/-- C1 (amended): a condition string containing none of the six
comparison-operator substrings — however malformed — evaluates to `true`
(fail-open), for every configuration; this includes compound strings
whose `or`/`and` leaves contain no operator substring. -/
theorem C1_fail_open_no_operator :
    ∀ (s : List Char) (cfg : PyDict), noComparisonOps s →
    _evaluate_condition s cfg = some true := by
  intro s cfg h
  exact eval_true_of_noComparisonOps s.length s le_rfl cfg (s.length + 1) (by omega) h

/-- Witness for the amended C1 at the unknown-format condition
`hello world`. -/
theorem C1_witness :
    _evaluate_condition "hello world".toList [] = some true :=
  C1_fail_open_no_operator "hello world".toList []
    (by unfold noComparisonOps; decide)

/-- Counterexample to C1 as stated: `x >= foo` is malformed (its
right-hand side is not an integer literal), yet the evaluator returns
`False` — the `>=` branch's own `except ValueError` returns `False`
rather than falling through to the fail-open `True` — so a malformed
expression can exclude a register. -/
theorem C1_counterexample :
    _evaluate_condition "x >= foo".toList [] = some false := by decide

/-- C10: the evaluator's recursion is well-founded on string length —
one outer-parenthesis strip is strictly shorter; an `or` split position
`i` satisfies `2 ≤ i` and `i + 2 ≤ len` and both split operands are
strictly shorter; likewise an `and` split position; consequently the
fueled evaluator is fuel-independent (terminates) once the fuel exceeds
the string length. -/
theorem C10_recursion_well_founded :
    (∀ (s t : List Char), strip_outer_step s = some t → t.length < s.length) ∧
    (∀ (s : List Char) (i : Nat), (findOps s).1 = some i → 2 ≤ i ∧ i + 2 ≤ s.length ∧
      (pyStrip (s.take (i - 2))).length < s.length ∧
      (pyStrip (s.drop (i + 2))).length < s.length) ∧
    (∀ (s : List Char) (j : Nat), (findOps s).2 = some j → 2 ≤ j ∧ j + 3 ≤ s.length ∧
      (pyStrip (s.take (j - 2))).length < s.length ∧
      (pyStrip (s.drop (j + 3))).length < s.length) ∧
    (∀ (cfg : PyDict) (f : Nat) (s : List Char), s.length < f →
      evaluate_condition_fuel cfg f s = _evaluate_condition s cfg) := by
  refine ⟨fun s t h => strip_outer_step_length h, ?_, ?_, ?_⟩
  · intro s i h
    have hb := findOps_or_bounds h
    have h1 := pyStrip_length_le (s.take (i - 2))
    have h2 := List.length_take (i - 2) s
    have h3 := pyStrip_length_le (s.drop (i + 2))
    have h4 := List.length_drop (i + 2) s
    exact ⟨hb.1, hb.2, by omega, by omega⟩
  · intro s j h
    have hb := findOps_and_bounds h
    have h1 := pyStrip_length_le (s.take (j - 2))
    have h2 := List.length_take (j - 2) s
    have h3 := pyStrip_length_le (s.drop (j + 3))
    have h4 := List.length_drop (j + 3) s
    exact ⟨hb.1, hb.2, by omega, by omega⟩
  · intro cfg f s hf
    exact eval_fuel_congr s.length s le_rfl cfg f (s.length + 1) hf (by omega)

/-- Witness for C10 at concrete inputs: stripping `(a)`, splitting
`a or b`, splitting `a and b`, and fuel-independence on `a > 1`. -/
theorem C10_witness :
    ("a".toList.length < "(a)".toList.length) ∧
    (2 ≤ 3 ∧ 3 + 2 ≤ "a or b".toList.length ∧
      (pyStrip ("a or b".toList.take 1)).length < "a or b".toList.length ∧
      (pyStrip ("a or b".toList.drop 5)).length < "a or b".toList.length) ∧
    (2 ≤ 3 ∧ 3 + 3 ≤ "a and b".toList.length ∧
      (pyStrip ("a and b".toList.take 1)).length < "a and b".toList.length ∧
      (pyStrip ("a and b".toList.drop 6)).length < "a and b".toList.length) ∧
    evaluate_condition_fuel [] 8 "a > 1".toList = _evaluate_condition "a > 1".toList [] :=
  ⟨C10_recursion_well_founded.1 "(a)".toList "a".toList (by decide),
    C10_recursion_well_founded.2.1 "a or b".toList 3 (by decide),
    C10_recursion_well_founded.2.2.1 "a and b".toList 3 (by decide),
    C10_recursion_well_founded.2.2.2 [] 8 "a > 1".toList (by decide)⟩

/-! ## Release-version order lemmas (for C5) -/

theorem verLexLt_irrefl : ∀ a, verLexLt a a = false := by
  intro a
  induction a with
  | nil => rfl
  | cons x xs ih => simp [verLexLt, ih]

theorem verLexLt_trans :
    ∀ a b c, verLexLt a b = true → verLexLt b c = true → verLexLt a c = true := by
  intro a
  induction a with
  | nil =>
    intro b c hab hbc
    cases b with
    | nil => cases hab
    | cons b0 bs =>
      cases c with
      | nil => cases hbc
      | cons c0 cs => rfl
  | cons a0 as ih =>
    intro b c hab hbc
    cases b with
    | nil => cases hab
    | cons b0 bs =>
      cases c with
      | nil => cases hbc
      | cons c0 cs =>
        simp only [verLexLt] at hab hbc ⊢
        by_cases h1 : a0 < b0
        · by_cases h2 : b0 < c0
          · simp [show a0 < c0 by omega]
          · rw [if_neg h2] at hbc
            by_cases h3 : b0 = c0
            · subst h3; simp [h1]
            · rw [if_neg h3] at hbc; cases hbc
        · rw [if_neg h1] at hab
          by_cases h1e : a0 = b0
          · subst h1e
            rw [if_pos rfl] at hab
            by_cases h2 : a0 < c0
            · simp [h2]
            · rw [if_neg h2] at hbc ⊢
              by_cases h3 : a0 = c0
              · rw [if_pos h3] at hbc ⊢
                exact ih bs cs hab hbc
              · rw [if_neg h3] at hbc; cases hbc
          · rw [if_neg h1e] at hab; cases hab

theorem verLexLt_trichotomy :
    ∀ a b, verLexLt a b = true ∨ verLexLt b a = true ∨ a = b := by
  intro a
  induction a with
  | nil =>
    intro b
    cases b with
    | nil => right; right; rfl
    | cons b0 bs => left; rfl
  | cons a0 as ih =>
    intro b
    cases b with
    | nil => right; left; rfl
    | cons b0 bs =>
      by_cases h1 : a0 < b0
      · left; simp [verLexLt, h1]
      · by_cases h2 : b0 < a0
        · right; left; simp [verLexLt, h2]
        · have he : a0 = b0 := by omega
          subst he
          rcases ih bs with h | h | h
          · left; simp [verLexLt, h]
          · right; left; simp [verLexLt, h]
          · right; right; rw [h]

theorem verLe_refl (a : List Nat) : verLe a a = true := by
  simp [verLe]

theorem verLe_of_verLt {a b : List Nat} (h : verLt a b = true) : verLe a b = true := by
  simp [verLe, h]

theorem verLe_total_of_not_lt {a b : List Nat} (h : verLt a b = false) :
    verLe b a = true := by
  unfold verLt at h
  unfold verLe verLt
  rcases verLexLt_trichotomy (stripTrailingZeros a) (stripTrailingZeros b) with h1 | h1 | h1
  · rw [h1] at h; cases h
  · simp [h1]
  · simp [h1]

theorem verLe_trans {a b c : List Nat} (h1 : verLe a b = true) (h2 : verLe b c = true) :
    verLe a c = true := by
  unfold verLe verLt at *
  simp only [Bool.or_eq_true, decide_eq_true_eq] at h1 h2 ⊢
  rcases h1 with h1 | h1
  · rcases h2 with h2 | h2
    · exact Or.inl (verLexLt_trans _ _ _ h1 h2)
    · rw [h2] at h1; exact Or.inl h1
  · rw [h1]
    exact h2

/-- The Python `max` fold returns an element that is a `verLe`-upper
bound of all elements. -/
theorem foldl_max_spec (l : List (List Nat)) (v0 : List Nat) :
    (l.foldl (fun acc v => if verLt acc v then v else acc) v0) ∈ v0 :: l ∧
    ∀ x ∈ v0 :: l, verLe x (l.foldl (fun acc v => if verLt acc v then v else acc) v0) = true := by
  induction l generalizing v0 with
  | nil =>
    refine ⟨List.mem_singleton.mpr rfl, ?_⟩
    intro x hx
    rw [List.mem_singleton.mp hx]
    exact verLe_refl _
  | cons v l ih =>
    simp only [List.foldl_cons]
    obtain ⟨ihmem, ihbound⟩ := ih (if verLt v0 v = true then v else v0)
    constructor
    · rcases List.mem_cons.mp ihmem with h | h
      · rw [h]
        by_cases hv : verLt v0 v = true
        · rw [if_pos hv]; exact List.mem_cons_of_mem _ (List.mem_cons_self _ _)
        · rw [if_neg hv]; exact List.mem_cons_self _ _
      · exact List.mem_cons_of_mem _ (List.mem_cons_of_mem _ h)
    · intro x hx
      rcases List.mem_cons.mp hx with h | h
      · subst h
        refine verLe_trans ?_ (ihbound _ (List.mem_cons_self _ _))
        by_cases hv : verLt x v = true
        · rw [if_pos hv]; exact verLe_of_verLt hv
        · rw [if_neg hv]; exact verLe_refl _
      · rcases List.mem_cons.mp h with h2 | h2
        · subst h2
          refine verLe_trans ?_ (ihbound _ (List.mem_cons_self _ _))
          by_cases hv : verLt v0 x = true
          · rw [if_pos hv]; exact verLe_refl _
          · rw [if_neg hv]
            exact verLe_total_of_not_lt (by cases hvv : verLt v0 x; rfl; exact absurd hvv hv)
        · exact ihbound _ (List.mem_cons_of_mem _ h2)

/-- C5 (amended): when the current firmware parses as a semantic version,
`_find_applicable_firmware_version` returns `None` exactly when no
parseable key is `≤` the current version, and otherwise returns the
canonical `str()` rendering of a maximal parseable key `≤` the current
version (keys that fail to parse are skipped); when the current firmware
is not a valid semantic version, it returns the current string exactly
when it occurs verbatim in the key list. -/
theorem C5_highest_applicable_replacement :
    (∀ (cur : List Char) (keys : List (List Char)) (c : List Nat),
      parseVersion cur = some c →
      ((_find_applicable_firmware_version cur keys = none ↔
        ∀ k ∈ keys, ∀ m, parseVersion k = some m → verLe m c = false) ∧
       (∀ r, _find_applicable_firmware_version cur keys = some r →
         ∃ k ∈ keys, ∃ m, parseVersion k = some m ∧ verLe m c = true ∧
           r = renderVersion m ∧
           ∀ k' ∈ keys, ∀ m', parseVersion k' = some m' → verLe m' c = true →
             verLe m' m = true))) ∧
    (∀ (cur : List Char) (keys : List (List Char)),
      parseVersion cur = none →
      _find_applicable_firmware_version cur keys =
        if keys.contains cur then some cur else none) := by
  constructor
  · intro cur keys c hc
    unfold _find_applicable_firmware_version
    by_cases hk : keys.isEmpty = true
    · have hknil : keys = [] := by
        cases keys
        · rfl
        · cases hk
      subst hknil
      simp
    · have hk' : keys.isEmpty = false := by
        cases h' : keys.isEmpty
        · rfl
        · exact absurd h' hk
      rw [hk']
      simp only [Bool.false_eq_true, if_false]
      simp only [hc]
      cases happ : (keys.filterMap parseVersion).filter (fun v => verLe v c) with
      | nil =>
        simp only [happ]
        constructor
        · constructor
          · intro _ k hkmem m hm
            cases hlem : verLe m c with
            | false => rfl
            | true =>
              exfalso
              have hmem : m ∈ (keys.filterMap parseVersion).filter (fun v => verLe v c) := by
                rw [List.mem_filter]
                exact ⟨List.mem_filterMap.mpr ⟨k, hkmem, hm⟩, hlem⟩
              rw [happ] at hmem
              cases hmem
          · intro _; trivial
        · intro r hr
          cases hr
      | cons v0 rest =>
        simp only [happ]
        have hfold := foldl_max_spec rest v0
        have hmemapp : (rest.foldl (fun acc v => if verLt acc v then v else acc) v0) ∈
            (keys.filterMap parseVersion).filter (fun v => verLe v c) := by
          rw [happ]; exact hfold.1
        rw [List.mem_filter] at hmemapp
        obtain ⟨k0, hk0mem, hk0parse⟩ := List.mem_filterMap.mp hmemapp.1
        constructor
        · constructor
          · intro h; cases h
          · intro hall
            exfalso
            have := hall k0 hk0mem _ hk0parse
            rw [hmemapp.2] at this
            cases this
        · intro r hr
          have hrq : r = renderVersion
              (rest.foldl (fun acc v => if verLt acc v then v else acc) v0) := by
            cases hr; rfl
          refine ⟨k0, hk0mem, _, hk0parse, hmemapp.2, hrq, ?_⟩
          intro k' hk'mem m' hm' hle
          apply hfold.2
          rw [← happ, List.mem_filter]
          exact ⟨List.mem_filterMap.mpr ⟨k', hk'mem, hm'⟩, hle⟩
  · intro cur keys hnone
    unfold _find_applicable_firmware_version
    by_cases hk : keys.isEmpty = true
    · have hknil : keys = [] := by
        cases keys
        · rfl
        · cases hk
      subst hknil
      simp
    · have hk' : keys.isEmpty = false := by
        cases h' : keys.isEmpty
        · rfl
        · exact absurd h' hk
      rw [hk']
      simp only [Bool.false_eq_true, if_false]
      simp only [hnone]

/-- Witness for the amended C5: for firmware `2.0` over keys
`["1.0", "1.5", "3.0"]` the returned `1.5` renders a maximal
applicable parsed key. -/
theorem C5_witness :
    ∃ k ∈ ["1.0".toList, "1.5".toList, "3.0".toList], ∃ m, parseVersion k = some m ∧
      verLe m [2, 0] = true ∧ "1.5".toList = renderVersion m ∧
      ∀ k' ∈ ["1.0".toList, "1.5".toList, "3.0".toList], ∀ m',
        parseVersion k' = some m' → verLe m' [2, 0] = true → verLe m' m = true :=
  (C5_highest_applicable_replacement.1 "2.0".toList
    ["1.0".toList, "1.5".toList, "3.0".toList] [2, 0] (by decide)).2
    "1.5".toList (by decide)

/-- Counterexample to C5 as stated: for firmware `2.0` and key list
`["1.05"]`, the highest (indeed only) applicable version key in the list
is `"1.05"`, but the function returns the normalized rendering `"1.5"`,
which is not an element of the list. -/
theorem C5_counterexample :
    _find_applicable_firmware_version "2.0".toList ["1.05".toList] = some "1.5".toList ∧
    "1.5".toList ∉ ["1.05".toList] ∧
    parseVersion "1.05".toList = some [1, 5] ∧ verLe [1, 5] [2, 0] = true := by decide

/-! ## Operator-scan lemmas (for C2) -/

/-- The scan walks through a parenthesis-free segment in which neither
operator pattern matches, changing only the index. -/
theorem scan_skip :
    ∀ (u t : List Char) (i : Nat) (o a : Option Nat),
    (∀ ch ∈ u, ch ≠ '(' ∧ ch ≠ ')') →
    (∀ n, n < u.length → orPat.isPrefixOf ((u ++ t).drop n) = false) →
    (∀ n, n < u.length → andPat.isPrefixOf ((u ++ t).drop n) = false) →
    scanOps (u ++ t) i 0 o a = scanOps t (i + u.length) 0 o a := by
  intro u
  induction u with
  | nil => intro t i o a _ _ _; rfl
  | cons c u' ih =>
    intro t i o a hnp hor hand
    have hc := hnp c (List.mem_cons_self _ _)
    have hor0 : orPat.isPrefixOf (c :: (u' ++ t)) = false := by
      have := hor 0 (by simp)
      simpa using this
    have hand0 : andPat.isPrefixOf (c :: (u' ++ t)) = false := by
      have := hand 0 (by simp)
      simpa using this
    show scanOps (c :: (u' ++ t)) i 0 o a = _
    simp only [scanOps]
    rw [if_neg hc.1, if_neg hc.2, if_pos trivial, hor0, hand0]
    simp only [Bool.false_eq_true, if_false]
    rw [ih t (i + 1) o a (fun ch hch => hnp ch (List.mem_cons_of_mem _ hch))
      (fun n hn => by simpa [List.drop_succ_cons] using hor (n + 1) (by simp; omega))
      (fun n hn => by simpa [List.drop_succ_cons] using hand (n + 1) (by simp; omega))]
    have heq : i + 1 + u'.length = i + (c :: u').length := by
      simp only [List.length_cons]
      omega
    rw [heq]

/-- One scan step over a non-parenthesis character at depth 0 where no
operator pattern begins. -/
theorem scanOps_step_char {c : Char} (hc1 : c ≠ '(') (hc2 : c ≠ ')')
    (rest : List Char) (i : Nat) (o a : Option Nat)
    (hor : orPat.isPrefixOf (c :: rest) = false)
    (hand : andPat.isPrefixOf (c :: rest) = false) :
    scanOps (c :: rest) i 0 o a = scanOps rest (i + 1) 0 o a := by
  simp only [scanOps]
  rw [if_neg hc1, if_neg hc2, if_pos trivial, hor, hand]
  simp

/-- One scan step at depth 0 where `" or "` begins: record `i + 2`. -/
theorem scanOps_step_or {c : Char} (hc1 : c ≠ '(') (hc2 : c ≠ ')')
    (rest : List Char) (i : Nat) (o a : Option Nat)
    (hor : orPat.isPrefixOf (c :: rest) = true) :
    scanOps (c :: rest) i 0 o a = scanOps rest (i + 1) 0 (some (i + 2)) a := by
  simp only [scanOps]
  rw [if_neg hc1, if_neg hc2, if_pos trivial, hor]
  simp

/-- One scan step at depth 0 where `" and "` (but not `" or "`) begins:
record `i + 2` if no `and` was recorded yet. -/
theorem scanOps_step_and {c : Char} (hc1 : c ≠ '(') (hc2 : c ≠ ')')
    (rest : List Char) (i : Nat) (o a : Option Nat)
    (hor : orPat.isPrefixOf (c :: rest) = false)
    (hand : andPat.isPrefixOf (c :: rest) = true) :
    scanOps (c :: rest) i 0 o a =
      scanOps rest (i + 1) 0 o (if a = none then some (i + 2) else a) := by
  simp only [scanOps]
  rw [if_neg hc1, if_neg hc2, if_pos trivial, hor, hand]
  simp

/-- The scan steps through a depth-0 `" or "` separator, recording the
source's `or` position `i + 2`, provided no operator pattern begins at
the separator's trailing space. -/
theorem scan_or_sep (t : List Char) (i : Nat) (o a : Option Nat)
    (h1 : orPat.isPrefixOf (' ' :: t) = false)
    (h2 : andPat.isPrefixOf (' ' :: t) = false) :
    scanOps (orPat ++ t) i 0 o a = scanOps t (i + 4) 0 (some (i + 2)) a := by
  have hstart : List.isPrefixOf orPat (' ' :: 'o' :: 'r' :: ' ' :: t) = true := by
    rw [List.isPrefixOf_iff_prefix]
    exact List.prefix_append orPat t
  have hno1 : List.isPrefixOf orPat ('o' :: 'r' :: ' ' :: t) = false := by
    simp [orPat, List.isPrefixOf]
  have hna1 : List.isPrefixOf andPat ('o' :: 'r' :: ' ' :: t) = false := by
    simp [andPat, List.isPrefixOf]
  have hno2 : List.isPrefixOf orPat ('r' :: ' ' :: t) = false := by
    simp [orPat, List.isPrefixOf]
  have hna2 : List.isPrefixOf andPat ('r' :: ' ' :: t) = false := by
    simp [andPat, List.isPrefixOf]
  show scanOps (' ' :: 'o' :: 'r' :: ' ' :: t) i 0 o a = scanOps t (i + 4) 0 (some (i + 2)) a
  rw [scanOps_step_or (by decide) (by decide) _ i o a hstart,
    scanOps_step_char (by decide) (by decide) _ (i + 1) (some (i + 2)) a hno1 hna1,
    scanOps_step_char (by decide) (by decide) _ (i + 1 + 1) (some (i + 2)) a hno2 hna2,
    scanOps_step_char (by decide) (by decide) _ (i + 1 + 1 + 1) (some (i + 2)) a h1 h2]

/-- The scan steps through a depth-0 `" and "` separator, recording the
source's `and` position `i + 2` when none was recorded yet. -/
theorem scan_and_sep (t : List Char) (i : Nat) (o a : Option Nat)
    (h1 : orPat.isPrefixOf (' ' :: t) = false)
    (h2 : andPat.isPrefixOf (' ' :: t) = false) :
    scanOps (andPat ++ t) i 0 o a =
      scanOps t (i + 5) 0 o (if a = none then some (i + 2) else a) := by
  have hstart : List.isPrefixOf andPat (' ' :: 'a' :: 'n' :: 'd' :: ' ' :: t) = true := by
    rw [List.isPrefixOf_iff_prefix]
    exact List.prefix_append andPat t
  have hno0 : List.isPrefixOf orPat (' ' :: 'a' :: 'n' :: 'd' :: ' ' :: t) = false := by
    simp [orPat, List.isPrefixOf]
  have hno1 : List.isPrefixOf orPat ('a' :: 'n' :: 'd' :: ' ' :: t) = false := by
    simp [orPat, List.isPrefixOf]
  have hna1 : List.isPrefixOf andPat ('a' :: 'n' :: 'd' :: ' ' :: t) = false := by
    simp [andPat, List.isPrefixOf]
  have hno2 : List.isPrefixOf orPat ('n' :: 'd' :: ' ' :: t) = false := by
    simp [orPat, List.isPrefixOf]
  have hna2 : List.isPrefixOf andPat ('n' :: 'd' :: ' ' :: t) = false := by
    simp [andPat, List.isPrefixOf]
  have hno3 : List.isPrefixOf orPat ('d' :: ' ' :: t) = false := by
    simp [orPat, List.isPrefixOf]
  have hna3 : List.isPrefixOf andPat ('d' :: ' ' :: t) = false := by
    simp [andPat, List.isPrefixOf]
  show scanOps (' ' :: 'a' :: 'n' :: 'd' :: ' ' :: t) i 0 o a =
    scanOps t (i + 5) 0 o (if a = none then some (i + 2) else a)
  rw [scanOps_step_and (by decide) (by decide) _ i o a hno0 hstart,
    scanOps_step_char (by decide) (by decide) _ (i + 1) o _ hno1 hna1,
    scanOps_step_char (by decide) (by decide) _ (i + 1 + 1) o _ hno2 hna2,
    scanOps_step_char (by decide) (by decide) _ (i + 1 + 1 + 1) o _ hno3 hna3,
    scanOps_step_char (by decide) (by decide) _ (i + 1 + 1 + 1 + 1) o _ h1 h2]

/-- The scan passes over a parenthesis-free segment at nonzero depth
without recording anything. -/
theorem scan_paren_pass :
    ∀ (x t : List Char) (i : Nat) (d : Int) (o a : Option Nat), d ≠ 0 →
    (∀ ch ∈ x, ch ≠ '(' ∧ ch ≠ ')') →
    scanOps (x ++ t) i d o a = scanOps t (i + x.length) d o a := by
  intro x
  induction x with
  | nil => intro t i d o a _ _; rfl
  | cons c x' ih =>
    intro t i d o a hd hnp
    have hc := hnp c (List.mem_cons_self _ _)
    show scanOps (c :: (x' ++ t)) i d o a = _
    simp only [scanOps]
    rw [if_neg hc.1, if_neg hc.2, if_neg hd]
    rw [ih t (i + 1) d o a hd (fun ch hch => hnp ch (List.mem_cons_of_mem _ hch))]
    have heq : i + 1 + x'.length = i + (c :: x').length := by
      simp only [List.length_cons]
      omega
    rw [heq]

theorem bool_eq_false_of_imp {b : Bool} (h : b = true → False) : b = false := by
  cases b
  · rfl
  · exact (h rfl).elim

/-- The scan of a lone operator-free, parenthesis-free segment records
nothing. -/
theorem scan_skip_nil (u : List Char) (i : Nat) (o a : Option Nat)
    (hnp : ∀ ch ∈ u, ch ≠ '(' ∧ ch ≠ ')')
    (hor : ∀ n, n < u.length → orPat.isPrefixOf (u.drop n) = false)
    (hand : ∀ n, n < u.length → andPat.isPrefixOf (u.drop n) = false) :
    scanOps u i 0 o a = (o, a) := by
  have h := scan_skip u [] i o a hnp
    (fun n hn => by rw [List.append_nil]; exact hor n hn)
    (fun n hn => by rw [List.append_nil]; exact hand n hn)
  rw [List.append_nil] at h
  rw [h]
  rfl

/-- `findOps` on `u ++ " or " ++ v` for operator-free atoms: the single
`or` is found at the source position `u.length + 2` and no `and` is
recorded. -/
theorem findOps_or_shape (u v : List Char)
    (hu_np : ∀ ch ∈ u, ch ≠ '(' ∧ ch ≠ ')') (hv_np : ∀ ch ∈ v, ch ≠ '(' ∧ ch ≠ ')')
    (hor : ∀ n, n ≤ (u ++ (orPat ++ v)).length →
      orPat.isPrefixOf ((u ++ (orPat ++ v)).drop n) = true → n = u.length)
    (hand : ∀ n, n ≤ (u ++ (orPat ++ v)).length →
      andPat.isPrefixOf ((u ++ (orPat ++ v)).drop n) = false) :
    findOps (u ++ (orPat ++ v)) = (some (u.length + 2), none) := by
  have hlen : (u ++ (orPat ++ v)).length = u.length + (4 + v.length) := by
    simp [orPat]
    omega
  have hdrop : ∀ n, (u ++ (orPat ++ v)).drop (u.length + (4 + n)) = v.drop n := by
    intro n
    rw [List.drop_append, show (4 : Nat) + n = orPat.length + n from rfl, List.drop_append]
  unfold findOps
  rw [scan_skip u (orPat ++ v) 0 none none hu_np
    (fun n hn => bool_eq_false_of_imp (fun htrue => by
      have := hor n (by omega) htrue
      omega))
    (fun n hn => hand n (by omega))]
  rw [Nat.zero_add]
  have hd3 : (u ++ (orPat ++ v)).drop (u.length + 3) = ' ' :: v := by
    rw [List.drop_append]
    rfl
  rw [scan_or_sep v u.length none none
    (bool_eq_false_of_imp (fun htrue => by
      have := hor (u.length + 3) (by omega) (by rw [hd3]; exact htrue)
      omega))
    (by rw [← hd3]; exact hand (u.length + 3) (by omega))]
  rw [scan_skip_nil v (u.length + 4) (some (u.length + 2)) none hv_np
    (fun n hn => bool_eq_false_of_imp (fun htrue => by
      have := hor (u.length + (4 + n)) (by omega) (by rw [hdrop n]; exact htrue)
      omega))
    (fun n hn => by
      have := hand (u.length + (4 + n)) (by omega)
      rw [hdrop n] at this
      exact this)]

/-- `findOps` on `v ++ " and " ++ w` for operator-free atoms. -/
theorem findOps_and_shape (v w : List Char)
    (hv_np : ∀ ch ∈ v, ch ≠ '(' ∧ ch ≠ ')') (hw_np : ∀ ch ∈ w, ch ≠ '(' ∧ ch ≠ ')')
    (hor : ∀ n, n ≤ (v ++ (andPat ++ w)).length →
      orPat.isPrefixOf ((v ++ (andPat ++ w)).drop n) = false)
    (hand : ∀ n, n ≤ (v ++ (andPat ++ w)).length →
      andPat.isPrefixOf ((v ++ (andPat ++ w)).drop n) = true → n = v.length) :
    findOps (v ++ (andPat ++ w)) = (none, some (v.length + 2)) := by
  have hlen : (v ++ (andPat ++ w)).length = v.length + (5 + w.length) := by
    simp [andPat]
    omega
  have hdrop : ∀ n, (v ++ (andPat ++ w)).drop (v.length + (5 + n)) = w.drop n := by
    intro n
    rw [List.drop_append, show (5 : Nat) + n = andPat.length + n from rfl, List.drop_append]
  unfold findOps
  rw [scan_skip v (andPat ++ w) 0 none none hv_np
    (fun n hn => hor n (by omega))
    (fun n hn => bool_eq_false_of_imp (fun htrue => by
      have := hand n (by omega) htrue
      omega))]
  rw [Nat.zero_add]
  have hd4 : (v ++ (andPat ++ w)).drop (v.length + 4) = ' ' :: w := by
    rw [List.drop_append]
    rfl
  rw [scan_and_sep w v.length none none
    (by rw [← hd4]; exact hor (v.length + 4) (by omega))
    (bool_eq_false_of_imp (fun htrue => by
      have := hand (v.length + 4) (by omega) (by rw [hd4]; exact htrue)
      omega))]
  rw [if_pos rfl]
  rw [scan_skip_nil w (v.length + 5) none (some (v.length + 2)) hw_np
    (fun n hn => by
      have := hor (v.length + (5 + n)) (by omega)
      rw [hdrop n] at this
      exact this)
    (fun n hn => bool_eq_false_of_imp (fun htrue => by
      have := hand (v.length + (5 + n)) (by omega) (by rw [hdrop n]; exact htrue)
      omega))]

/-- `findOps` on `u ++ " or " ++ v ++ " and " ++ w` for operator-free
atoms: the `or` position is recorded at `u.length + 2`, the (first)
`and` position at `u.length + 4 + v.length + 2`. -/
theorem findOps_or_and_shape (u v w : List Char)
    (hu_np : ∀ ch ∈ u, ch ≠ '(' ∧ ch ≠ ')') (hv_np : ∀ ch ∈ v, ch ≠ '(' ∧ ch ≠ ')')
    (hw_np : ∀ ch ∈ w, ch ≠ '(' ∧ ch ≠ ')')
    (hor : ∀ n, n ≤ (u ++ (orPat ++ (v ++ (andPat ++ w)))).length →
      orPat.isPrefixOf ((u ++ (orPat ++ (v ++ (andPat ++ w)))).drop n) = true →
        n = u.length)
    (hand : ∀ n, n ≤ (u ++ (orPat ++ (v ++ (andPat ++ w)))).length →
      andPat.isPrefixOf ((u ++ (orPat ++ (v ++ (andPat ++ w)))).drop n) = true →
        n = u.length + (4 + v.length)) :
    findOps (u ++ (orPat ++ (v ++ (andPat ++ w)))) =
      (some (u.length + 2), some (u.length + (4 + v.length) + 2)) := by
  have hlen : (u ++ (orPat ++ (v ++ (andPat ++ w)))).length =
      u.length + (4 + (v.length + (5 + w.length))) := by
    simp [orPat, andPat]
    omega
  have hdropv : ∀ n, (u ++ (orPat ++ (v ++ (andPat ++ w)))).drop (u.length + (4 + n)) =
      (v ++ (andPat ++ w)).drop n := by
    intro n
    rw [List.drop_append, show (4 : Nat) + n = orPat.length + n from rfl, List.drop_append]
  have hdropw : ∀ n, (u ++ (orPat ++ (v ++ (andPat ++ w)))).drop
      (u.length + (4 + (v.length + (5 + n)))) = w.drop n := by
    intro n
    rw [hdropv, List.drop_append, show (5 : Nat) + n = andPat.length + n from rfl,
      List.drop_append]
  unfold findOps
  rw [scan_skip u (orPat ++ (v ++ (andPat ++ w))) 0 none none hu_np
    (fun n hn => bool_eq_false_of_imp (fun htrue => by
      have := hor n (by omega) htrue
      omega))
    (fun n hn => bool_eq_false_of_imp (fun htrue => by
      have := hand n (by omega) htrue
      omega))]
  rw [Nat.zero_add]
  have hd3 : (u ++ (orPat ++ (v ++ (andPat ++ w)))).drop (u.length + 3) =
      ' ' :: (v ++ (andPat ++ w)) := by
    rw [List.drop_append]
    rfl
  rw [scan_or_sep (v ++ (andPat ++ w)) u.length none none
    (bool_eq_false_of_imp (fun htrue => by
      have := hor (u.length + 3) (by omega) (by rw [hd3]; exact htrue)
      omega))
    (bool_eq_false_of_imp (fun htrue => by
      have := hand (u.length + 3) (by omega) (by rw [hd3]; exact htrue)
      omega))]
  rw [show u.length + 4 = u.length + (4 + 0) from by omega]
  rw [scan_skip v (andPat ++ w) (u.length + (4 + 0)) (some (u.length + 2)) none hv_np
    (fun n hn => bool_eq_false_of_imp (fun htrue => by
      have := hor (u.length + (4 + n)) (by omega) (by rw [hdropv n]; exact htrue)
      omega))
    (fun n hn => bool_eq_false_of_imp (fun htrue => by
      have := hand (u.length + (4 + n)) (by omega) (by rw [hdropv n]; exact htrue)
      omega))]
  have hd4 : (u ++ (orPat ++ (v ++ (andPat ++ w)))).drop (u.length + (4 + (v.length + 4))) =
      ' ' :: w := by
    rw [hdropv, List.drop_append]
    rfl
  rw [scan_and_sep w (u.length + (4 + 0) + v.length) (some (u.length + 2)) none
    (bool_eq_false_of_imp (fun htrue => by
      have := hor (u.length + (4 + (v.length + 4))) (by omega) (by rw [hd4]; exact htrue)
      omega))
    (bool_eq_false_of_imp (fun htrue => by
      have := hand (u.length + (4 + (v.length + 4))) (by omega) (by rw [hd4]; exact htrue)
      omega))]
  rw [if_pos rfl]
  rw [scan_skip_nil w (u.length + (4 + 0) + v.length + 5) (some (u.length + 2))
    (some (u.length + (4 + 0) + v.length + 2)) hw_np
    (fun n hn => bool_eq_false_of_imp (fun htrue => by
      have := hor (u.length + (4 + (v.length + (5 + n)))) (by omega)
        (by rw [hdropw n]; exact htrue)
      omega))
    (fun n hn => bool_eq_false_of_imp (fun htrue => by
      have := hand (u.length + (4 + (v.length + (5 + n)))) (by omega)
        (by rw [hdropw n]; exact htrue)
      omega))]
  have : u.length + (4 + 0) + v.length + 2 = u.length + (4 + v.length) + 2 := by omega
  rw [this]

/-- One scan step on `'('`: depth increases, nothing is recorded. -/
theorem scanOps_step_open (rest : List Char) (i : Nat) (d : Int) (o a : Option Nat) :
    scanOps ('(' :: rest) i d o a = scanOps rest (i + 1) (d + 1) o a := by
  simp [scanOps]

/-- One scan step on `')'`: depth decreases, nothing is recorded. -/
theorem scanOps_step_close (rest : List Char) (i : Nat) (d : Int) (o a : Option Nat) :
    scanOps (')' :: rest) i d o a = scanOps rest (i + 1) (d - 1) o a := by
  simp [scanOps]

/-- `findOps` on `'(' :: X ++ ")" ++ " and " ++ w`: the parenthesized
prefix is passed over at depth 1 (whatever operators it contains), and
the `and` is recorded at `X.length + 4`. -/
theorem findOps_paren_and_shape (X w : List Char)
    (hX_np : ∀ ch ∈ X, ch ≠ '(' ∧ ch ≠ ')') (hw_np : ∀ ch ∈ w, ch ≠ '(' ∧ ch ≠ ')')
    (h1 : orPat.isPrefixOf (' ' :: w) = false)
    (h2 : andPat.isPrefixOf (' ' :: w) = false)
    (hw_or : ∀ n, n < w.length → orPat.isPrefixOf (w.drop n) = false)
    (hw_and : ∀ n, n < w.length → andPat.isPrefixOf (w.drop n) = false) :
    findOps ('(' :: (X ++ (')' :: (andPat ++ w)))) = (none, some (X.length + 4)) := by
  unfold findOps
  rw [scanOps_step_open (X ++ (')' :: (andPat ++ w))) 0 0 none none]
  rw [scan_paren_pass X (')' :: (andPat ++ w)) (0 + 1) (0 + 1) none none (by decide) hX_np]
  rw [scanOps_step_close (andPat ++ w) (0 + 1 + X.length) (0 + 1) none none]
  rw [show (0 : Int) + 1 - 1 = 0 from by decide]
  rw [show 0 + 1 + X.length + 1 = X.length + 2 from by omega]
  rw [scan_and_sep w (X.length + 2) none none h1 h2]
  rw [if_pos rfl]
  rw [scan_skip_nil w (X.length + 2 + 5) none (some (X.length + 2 + 2)) hw_np hw_or hw_and]

/-! ## Strip-fixpoint lemmas for the evaluator's well-formed inputs -/

theorem length_dropWhile_lt_of_head (p : Char → Bool) (l : List Char) (c : Char)
    (hc : l.head? = some c) (hp : p c = true) : (l.dropWhile p).length < l.length := by
  cases l with
  | nil => simp at hc
  | cons d t =>
    simp at hc
    subst hc
    rw [List.dropWhile_cons, if_pos hp]
    have := (List.dropWhile_sublist (l := t) p).length_le
    simp
    omega

theorem pyStrip_length_le_dropWhile (s : List Char) :
    (pyStrip s).length ≤ (s.dropWhile isPySpace).length := by
  unfold pyStrip
  rw [List.length_reverse]
  calc (((s.dropWhile isPySpace).reverse.dropWhile isPySpace)).length
      ≤ (s.dropWhile isPySpace).reverse.length :=
        (List.dropWhile_sublist isPySpace).length_le
    _ = (s.dropWhile isPySpace).length := List.length_reverse _

theorem head_not_space_of_strip (s : List Char) (c : Char)
    (h : pyStrip s = s) (hc : s.head? = some c) : isPySpace c = false := by
  by_contra hsp
  rw [Bool.not_eq_false] at hsp
  have h1 := length_dropWhile_lt_of_head isPySpace s c hc hsp
  have h2 := pyStrip_length_le_dropWhile s
  rw [h] at h2
  omega

theorem last_not_space_of_strip (s : List Char) (c : Char)
    (h : pyStrip s = s) (hc : s.getLast? = some c) : isPySpace c = false := by
  by_contra hsp
  rw [Bool.not_eq_false] at hsp
  rcases (List.dropWhile_suffix (l := s) isPySpace) with ⟨t, ht⟩
  by_cases hnil : s.dropWhile isPySpace = []
  · have : pyStrip s = [] := by
      unfold pyStrip
      rw [hnil]
      rfl
    rw [h] at this
    subst this
    simp at hc
  · have hlast : (s.dropWhile isPySpace).getLast? = some c := by
      rw [← hc]
      conv_rhs => rw [← ht]
      exact (List.getLast?_append_of_ne_nil t hnil).symm
    have hrevhead : (s.dropWhile isPySpace).reverse.head? = some c := by
      rw [List.head?_reverse]
      exact hlast
    have h1 := length_dropWhile_lt_of_head isPySpace
      (s.dropWhile isPySpace).reverse c hrevhead hsp
    rw [List.length_reverse] at h1
    have h2 : (pyStrip s).length =
        ((s.dropWhile isPySpace).reverse.dropWhile isPySpace).length := by
      unfold pyStrip
      rw [List.length_reverse]
    have h3 := (List.dropWhile_sublist (l := s) isPySpace).length_le
    rw [h] at h2
    omega

theorem dropWhile_eq_self_of_head (p : Char → Bool) (s : List Char)
    (h : ∀ c, s.head? = some c → p c = false) : s.dropWhile p = s := by
  cases s with
  | nil => rfl
  | cons c t =>
    rw [List.dropWhile_cons, if_neg]
    rw [h c rfl]
    simp

theorem pyStrip_eq_self_of (s : List Char)
    (h1 : ∀ c, s.head? = some c → isPySpace c = false)
    (h2 : ∀ c, s.getLast? = some c → isPySpace c = false) : pyStrip s = s := by
  unfold pyStrip
  rw [dropWhile_eq_self_of_head isPySpace s h1]
  rw [dropWhile_eq_self_of_head isPySpace s.reverse
    (fun c hc => h2 c (by rw [← List.head?_reverse]; exact hc))]
  exact List.reverse_reverse s

theorem strip_outer_step_none_of_head (s : List Char)
    (h : ∀ c, s.head? = some c → c ≠ '(') : strip_outer_step s = none := by
  unfold strip_outer_step
  rw [if_neg]
  intro ⟨h1, _⟩
  cases s with
  | nil => simp at h1
  | cons c t =>
    simp at h1
    exact h c rfl h1

theorem strip_outer_step_none_of_last (s : List Char)
    (h : ∀ c, s.getLast? = some c → c ≠ ')') : strip_outer_step s = none := by
  unfold strip_outer_step
  rw [if_neg]
  intro ⟨_, h2⟩
  exact h ')' h2 rfl

theorem stripOuterFuel_of_step_none (f : Nat) (s : List Char)
    (h : strip_outer_step s = none) : stripOuterFuel f s = s := by
  cases f with
  | zero => rfl
  | succ f' =>
    simp only [stripOuterFuel, h]

theorem stripOuterParens_of_step_none (s : List Char)
    (h : strip_outer_step s = none) : stripOuterParens s = s :=
  stripOuterFuel_of_step_none s.length s h

/-- A paren-free nonempty string is left unchanged by the
outer-parenthesis-stripping loop. -/
theorem stripOuterParens_of_no_paren (s : List Char)
    (hnp : ∀ ch ∈ s, ch ≠ '(' ∧ ch ≠ ')') : stripOuterParens s = s :=
  stripOuterParens_of_step_none s (strip_outer_step_none_of_head s
    (fun c hc => (hnp c (List.mem_of_mem_head? hc)).1))

theorem isOuterScan_step_open (rest : List Char) (d : Int) (i n : Nat) :
    isOuterScan ('(' :: rest) d i n = isOuterScan rest (d + 1) (i + 1) n := by
  simp [isOuterScan]

theorem isOuterScan_pass :
    ∀ (x t : List Char) (d : Int) (i n : Nat),
    (∀ ch ∈ x, ch ≠ '(' ∧ ch ≠ ')') →
    isOuterScan (x ++ t) d i n = isOuterScan t d (i + x.length) n := by
  intro x
  induction x with
  | nil => intro t d i n _; rfl
  | cons c x' ih =>
    intro t d i n hnp
    have hc := hnp c (List.mem_cons_self _ _)
    show isOuterScan (c :: (x' ++ t)) d i n = _
    simp only [isOuterScan]
    rw [if_neg hc.1, if_neg hc.2]
    rw [ih t d (i + 1) n (fun ch hch => hnp ch (List.mem_cons_of_mem _ hch))]
    have heq : i + 1 + x'.length = i + (c :: x').length := by
      simp only [List.length_cons]
      omega
    rw [heq]

/-- The outer-balance check accepts `'(' ++ X ++ ')'` for paren-free `X`. -/
theorem isOuter_wrap (X : List Char) (hX : ∀ ch ∈ X, ch ≠ '(' ∧ ch ≠ ')') :
    isOuter ('(' :: (X ++ [')'])) = true := by
  unfold isOuter
  rw [isOuterScan_step_open (X ++ [')']) 0 0 ('(' :: (X ++ [')'])).length]
  rw [isOuterScan_pass X [')'] (0 + 1) (0 + 1) ('(' :: (X ++ [')'])).length hX]
  simp only [isOuterScan]
  rw [if_neg (by decide : ¬ (')' : Char) = '('), if_pos trivial, if_neg]
  intro ⟨_, h2⟩
  simp at h2
  omega

/-- One iteration of the stripping loop removes the outer parentheses of
`'(' ++ X ++ ')'` for paren-free `X`. -/
theorem strip_outer_step_wrap (X : List Char)
    (hX : ∀ ch ∈ X, ch ≠ '(' ∧ ch ≠ ')') (hs : pyStrip X = X) :
    strip_outer_step ('(' :: (X ++ [')'])) = some X := by
  unfold strip_outer_step
  rw [if_pos]
  · rw [isOuter_wrap X hX]
    rw [if_pos rfl]
    have hdrop : ('(' :: (X ++ [')'])).drop 1 = X ++ [')'] := rfl
    rw [hdrop, List.dropLast_concat, hs]
  · constructor
    · rfl
    · show (['('] ++ (X ++ [')'])).getLast? = some ')'
      rw [List.getLast?_append_of_ne_nil ['('] (by simp)]
      rw [List.getLast?_append_of_ne_nil X (by simp)]
      rfl

theorem stripOuterFuel_succ_some (f : Nat) (s t : List Char)
    (h : strip_outer_step s = some t) :
    stripOuterFuel (f + 1) s = stripOuterFuel f t := by
  simp only [stripOuterFuel, h]

/-- The stripping loop turns `'(' ++ X ++ ')'` into `X` for a paren-free,
already-stripped `X` whose head is not `'('`. -/
theorem stripOuterParens_wrap (X : List Char)
    (hX : ∀ ch ∈ X, ch ≠ '(' ∧ ch ≠ ')') (hs : pyStrip X = X) :
    stripOuterParens ('(' :: (X ++ [')'])) = X := by
  unfold stripOuterParens
  have hlen : ('(' :: (X ++ [')'])).length = X.length + 1 + 1 := by
    simp
  rw [hlen]
  rw [stripOuterFuel_succ_some (X.length + 1) _ X (strip_outer_step_wrap X hX hs)]
  exact stripOuterFuel_of_step_none _ X (strip_outer_step_none_of_head X
    (fun c hc => (hX c (List.mem_of_mem_head? hc)).1))

theorem head?_append_left (l₁ l₂ : List Char) (h : l₁ ≠ []) :
    (l₁ ++ l₂).head? = l₁.head? := by
  cases l₁ with
  | nil => exact absurd rfl h
  | cons c t => rfl

theorem isPrefixOf_append_right (p l t : List Char) (h : p.isPrefixOf l = true) :
    p.isPrefixOf (l ++ t) = true := by
  rw [List.isPrefixOf_iff_prefix] at h ⊢
  exact h.trans (l.prefix_append t)

/-- A fuelled evaluation step on an operator-free, paren-free,
already-stripped atom is a single comparison. -/
theorem eval_atom (cfg : PyDict) (a : List Char) (f : Nat)
    (hstrip : pyStrip a = a)
    (hnp : ∀ ch ∈ a, ch ≠ '(' ∧ ch ≠ ')')
    (hor : ∀ n, n < a.length → orPat.isPrefixOf (a.drop n) = false)
    (hand : ∀ n, n < a.length → andPat.isPrefixOf (a.drop n) = false) :
    evaluate_condition_fuel cfg (f + 1) a = _evaluate_single_condition a cfg := by
  have hso : stripOuterParens a = a := stripOuterParens_of_no_paren a hnp
  have hfind : findOps a = (none, none) := scan_skip_nil a 0 none none hnp hor hand
  simp only [evaluate_condition_fuel, hstrip, hso, hfind]

theorem eval_fuel_step (cfg : PyDict) (f : Nat) (cond : List Char) :
    evaluate_condition_fuel cfg (f + 1) cond =
      evalCondStep cfg (evaluate_condition_fuel cfg f) cond := rfl

/-- Fuelled evaluation of `v ++ " and " ++ w` for clean atoms: Python's
short-circuit conjunction of the two single comparisons. -/
theorem eval_and_fuel (cfg : PyDict) (v w : List Char) (bv bw : Bool) (f : Nat)
    (hv_ne : v ≠ []) (hw_ne : w ≠ [])
    (hv_np : ∀ ch ∈ v, ch ≠ '(' ∧ ch ≠ ')') (hw_np : ∀ ch ∈ w, ch ≠ '(' ∧ ch ≠ ')')
    (hv_strip : pyStrip v = v) (hw_strip : pyStrip w = w)
    (hbv : _evaluate_single_condition v cfg = some bv)
    (hbw : _evaluate_single_condition w cfg = some bw)
    (hvor : ∀ n, n < v.length → orPat.isPrefixOf (v.drop n) = false)
    (hvand : ∀ n, n < v.length → andPat.isPrefixOf (v.drop n) = false)
    (hwor : ∀ n, n < w.length → orPat.isPrefixOf (w.drop n) = false)
    (hwand : ∀ n, n < w.length → andPat.isPrefixOf (w.drop n) = false)
    (hfind : findOps (v ++ (andPat ++ w)) = (none, some (v.length + 2))) :
    evaluate_condition_fuel cfg (f + 2) (v ++ (andPat ++ w)) = some (bv && bw) := by
  have hS_strip : pyStrip (v ++ (andPat ++ w)) = v ++ (andPat ++ w) := by
    refine pyStrip_eq_self_of _ ?_ ?_
    · intro c hc
      rw [head?_append_left v (andPat ++ w) hv_ne] at hc
      exact head_not_space_of_strip v c hv_strip hc
    · intro c hc
      rw [List.getLast?_append_of_ne_nil v (by simp [andPat]),
        List.getLast?_append_of_ne_nil andPat hw_ne] at hc
      exact last_not_space_of_strip w c hw_strip hc
  have hS_so : stripOuterParens (v ++ (andPat ++ w)) = v ++ (andPat ++ w) := by
    refine stripOuterParens_of_step_none _ (strip_outer_step_none_of_head _ ?_)
    intro c hc
    rw [head?_append_left v (andPat ++ w) hv_ne] at hc
    exact (hv_np c (List.mem_of_mem_head? hc)).1
  have htake : (v ++ (andPat ++ w)).take (v.length + 2 - 2) = v := by
    rw [show v.length + 2 - 2 = v.length from rfl]
    exact List.take_left v (andPat ++ w)
  have hdropw : (v ++ (andPat ++ w)).drop (v.length + 2 + 3) = w := by
    rw [show v.length + 2 + 3 = v.length + 5 from by omega]
    rw [show (v ++ (andPat ++ w)).drop (v.length + 5) = (andPat ++ w).drop 5 from
      List.drop_append 5]
    rw [show (andPat ++ w).drop 5 = (andPat ++ w).drop (andPat.length + 0) from rfl]
    rw [List.drop_append 0, List.drop_zero]
  rw [eval_fuel_step cfg (f + 1) (v ++ (andPat ++ w))]
  simp only [evalCondStep, hS_strip, hS_so, hfind]
  rw [htake, hv_strip]
  rw [show evaluate_condition_fuel cfg (f + 1) v = some bv from by
    rw [eval_atom cfg v f hv_strip hv_np hvor hvand]; exact hbv]
  cases bv with
  | false => simp
  | true =>
    rw [hdropw, hw_strip]
    rw [show evaluate_condition_fuel cfg (f + 1) w = some bw from by
      rw [eval_atom cfg w f hw_strip hw_np hwor hwand]; exact hbw]
    simp

/-- Fuelled evaluation of `u ++ " or " ++ v ++ " and " ++ w` for clean
atoms: the `or` splits first (looser binding), so the result is
`bu || (bv && bw)` with Python's short-circuit order. -/
theorem eval_or_and_fuel (cfg : PyDict) (u v w : List Char) (bu bv bw : Bool)
    (aPos : Option Nat) (f : Nat)
    (hu_ne : u ≠ []) (hv_ne : v ≠ []) (hw_ne : w ≠ [])
    (hu_np : ∀ ch ∈ u, ch ≠ '(' ∧ ch ≠ ')') (hv_np : ∀ ch ∈ v, ch ≠ '(' ∧ ch ≠ ')')
    (hw_np : ∀ ch ∈ w, ch ≠ '(' ∧ ch ≠ ')')
    (hu_strip : pyStrip u = u) (hv_strip : pyStrip v = v) (hw_strip : pyStrip w = w)
    (hbu : _evaluate_single_condition u cfg = some bu)
    (hbv : _evaluate_single_condition v cfg = some bv)
    (hbw : _evaluate_single_condition w cfg = some bw)
    (huor : ∀ n, n < u.length → orPat.isPrefixOf (u.drop n) = false)
    (huand : ∀ n, n < u.length → andPat.isPrefixOf (u.drop n) = false)
    (hvor : ∀ n, n < v.length → orPat.isPrefixOf (v.drop n) = false)
    (hvand : ∀ n, n < v.length → andPat.isPrefixOf (v.drop n) = false)
    (hwor : ∀ n, n < w.length → orPat.isPrefixOf (w.drop n) = false)
    (hwand : ∀ n, n < w.length → andPat.isPrefixOf (w.drop n) = false)
    (hfind1 : findOps (u ++ (orPat ++ (v ++ (andPat ++ w)))) =
      (some (u.length + 2), aPos))
    (hfind2 : findOps (v ++ (andPat ++ w)) = (none, some (v.length + 2))) :
    evaluate_condition_fuel cfg (f + 3) (u ++ (orPat ++ (v ++ (andPat ++ w)))) =
      some (bu || (bv && bw)) := by
  have hR_strip : pyStrip (v ++ (andPat ++ w)) = v ++ (andPat ++ w) := by
    refine pyStrip_eq_self_of _ ?_ ?_
    · intro c hc
      rw [head?_append_left v (andPat ++ w) hv_ne] at hc
      exact head_not_space_of_strip v c hv_strip hc
    · intro c hc
      rw [List.getLast?_append_of_ne_nil v (by simp [andPat]),
        List.getLast?_append_of_ne_nil andPat hw_ne] at hc
      exact last_not_space_of_strip w c hw_strip hc
  have hS_strip : pyStrip (u ++ (orPat ++ (v ++ (andPat ++ w)))) =
      u ++ (orPat ++ (v ++ (andPat ++ w))) := by
    refine pyStrip_eq_self_of _ ?_ ?_
    · intro c hc
      rw [head?_append_left u _ hu_ne] at hc
      exact head_not_space_of_strip u c hu_strip hc
    · intro c hc
      rw [List.getLast?_append_of_ne_nil u (by simp [orPat]),
        List.getLast?_append_of_ne_nil orPat (by simp [andPat]),
        List.getLast?_append_of_ne_nil v (by simp [andPat]),
        List.getLast?_append_of_ne_nil andPat hw_ne] at hc
      exact last_not_space_of_strip w c hw_strip hc
  have hS_so : stripOuterParens (u ++ (orPat ++ (v ++ (andPat ++ w)))) =
      u ++ (orPat ++ (v ++ (andPat ++ w))) := by
    refine stripOuterParens_of_step_none _ (strip_outer_step_none_of_head _ ?_)
    intro c hc
    rw [head?_append_left u _ hu_ne] at hc
    exact (hu_np c (List.mem_of_mem_head? hc)).1
  have htake : (u ++ (orPat ++ (v ++ (andPat ++ w)))).take (u.length + 2 - 2) = u := by
    rw [show u.length + 2 - 2 = u.length from rfl]
    exact List.take_left u _
  have hdropR : (u ++ (orPat ++ (v ++ (andPat ++ w)))).drop (u.length + 2 + 2) =
      v ++ (andPat ++ w) := by
    rw [show u.length + 2 + 2 = u.length + 4 from by omega]
    rw [show (u ++ (orPat ++ (v ++ (andPat ++ w)))).drop (u.length + 4) =
      (orPat ++ (v ++ (andPat ++ w))).drop 4 from List.drop_append 4]
    rw [show (orPat ++ (v ++ (andPat ++ w))).drop 4 =
      (orPat ++ (v ++ (andPat ++ w))).drop (orPat.length + 0) from rfl]
    rw [List.drop_append 0, List.drop_zero]
  rw [eval_fuel_step cfg (f + 2) (u ++ (orPat ++ (v ++ (andPat ++ w))))]
  simp only [evalCondStep, hS_strip, hS_so, hfind1]
  rw [htake, hu_strip]
  rw [show evaluate_condition_fuel cfg (f + 2) u = some bu from by
    rw [eval_atom cfg u (f + 1) hu_strip hu_np huor huand]; exact hbu]
  cases bu with
  | true => simp
  | false =>
    rw [hdropR, hR_strip]
    rw [eval_and_fuel cfg v w bv bw f hv_ne hw_ne hv_np hw_np hv_strip hw_strip
      hbv hbw hvor hvand hwor hwand hfind2]
    simp

/-- Fuelled evaluation of `"(" ++ u ++ " or " ++ v ++ ")"`: the outer
parentheses are stripped and the inner disjunction evaluated. -/
theorem eval_paren_or_fuel (cfg : PyDict) (u v : List Char) (bu bv : Bool) (f : Nat)
    (hu_ne : u ≠ []) (hv_ne : v ≠ [])
    (hu_np : ∀ ch ∈ u, ch ≠ '(' ∧ ch ≠ ')') (hv_np : ∀ ch ∈ v, ch ≠ '(' ∧ ch ≠ ')')
    (hu_strip : pyStrip u = u) (hv_strip : pyStrip v = v)
    (hbu : _evaluate_single_condition u cfg = some bu)
    (hbv : _evaluate_single_condition v cfg = some bv)
    (huor : ∀ n, n < u.length → orPat.isPrefixOf (u.drop n) = false)
    (huand : ∀ n, n < u.length → andPat.isPrefixOf (u.drop n) = false)
    (hvor : ∀ n, n < v.length → orPat.isPrefixOf (v.drop n) = false)
    (hvand : ∀ n, n < v.length → andPat.isPrefixOf (v.drop n) = false)
    (hfindX : findOps (u ++ (orPat ++ v)) = (some (u.length + 2), none)) :
    evaluate_condition_fuel cfg (f + 2) ('(' :: ((u ++ (orPat ++ v)) ++ [')'])) =
      some (bu || bv) := by
  have hX_np : ∀ ch ∈ u ++ (orPat ++ v), ch ≠ '(' ∧ ch ≠ ')' := by
    intro ch hch
    rcases List.mem_append.mp hch with h | h
    · exact hu_np ch h
    rcases List.mem_append.mp h with h | h
    · fin_cases h <;> exact ⟨by decide, by decide⟩
    · exact hv_np ch h
  have hX_strip : pyStrip (u ++ (orPat ++ v)) = u ++ (orPat ++ v) := by
    refine pyStrip_eq_self_of _ ?_ ?_
    · intro c hc
      rw [head?_append_left u _ hu_ne] at hc
      exact head_not_space_of_strip u c hu_strip hc
    · intro c hc
      rw [List.getLast?_append_of_ne_nil u (by simp [orPat]),
        List.getLast?_append_of_ne_nil orPat hv_ne] at hc
      exact last_not_space_of_strip v c hv_strip hc
  have hS_strip : pyStrip ('(' :: ((u ++ (orPat ++ v)) ++ [')'])) =
      '(' :: ((u ++ (orPat ++ v)) ++ [')']) := by
    refine pyStrip_eq_self_of _ ?_ ?_
    · intro c hc
      simp only [List.head?_cons, Option.some.injEq] at hc
      subst hc
      decide
    · intro c hc
      rw [show ('(' :: ((u ++ (orPat ++ v)) ++ [')'])) =
        ['('] ++ ((u ++ (orPat ++ v)) ++ [')']) from rfl] at hc
      rw [List.getLast?_append_of_ne_nil ['('] (by simp),
        List.getLast?_append_of_ne_nil (u ++ (orPat ++ v)) (by simp)] at hc
      simp at hc
      subst hc
      decide
  have hS_so : stripOuterParens ('(' :: ((u ++ (orPat ++ v)) ++ [')'])) =
      u ++ (orPat ++ v) := stripOuterParens_wrap _ hX_np hX_strip
  have htake : (u ++ (orPat ++ v)).take (u.length + 2 - 2) = u := by
    rw [show u.length + 2 - 2 = u.length from rfl]
    exact List.take_left u _
  have hdropv : (u ++ (orPat ++ v)).drop (u.length + 2 + 2) = v := by
    rw [show u.length + 2 + 2 = u.length + 4 from by omega]
    rw [show (u ++ (orPat ++ v)).drop (u.length + 4) = (orPat ++ v).drop 4 from
      List.drop_append 4]
    rw [show (orPat ++ v).drop 4 = (orPat ++ v).drop (orPat.length + 0) from rfl]
    rw [List.drop_append 0, List.drop_zero]
  rw [eval_fuel_step cfg (f + 1) ('(' :: ((u ++ (orPat ++ v)) ++ [')']))]
  simp only [evalCondStep, hS_strip, hS_so, hfindX]
  rw [htake, hu_strip]
  rw [show evaluate_condition_fuel cfg (f + 1) u = some bu from by
    rw [eval_atom cfg u f hu_strip hu_np huor huand]; exact hbu]
  cases bu with
  | true => simp
  | false =>
    rw [hdropv, hv_strip]
    rw [show evaluate_condition_fuel cfg (f + 1) v = some bv from by
      rw [eval_atom cfg v f hv_strip hv_np hvor hvand]; exact hbv]
    simp

/-- Fuelled evaluation of `"(" ++ u ++ " or " ++ v ++ ")" ++ " and " ++ w`:
the parenthesized disjunction is the left operand of the `and`. -/
theorem eval_paren_and_fuel (cfg : PyDict) (u v w : List Char) (bu bv bw : Bool) (f : Nat)
    (hu_ne : u ≠ []) (hv_ne : v ≠ []) (hw_ne : w ≠ [])
    (hu_np : ∀ ch ∈ u, ch ≠ '(' ∧ ch ≠ ')') (hv_np : ∀ ch ∈ v, ch ≠ '(' ∧ ch ≠ ')')
    (hw_np : ∀ ch ∈ w, ch ≠ '(' ∧ ch ≠ ')')
    (hu_strip : pyStrip u = u) (hv_strip : pyStrip v = v) (hw_strip : pyStrip w = w)
    (hbu : _evaluate_single_condition u cfg = some bu)
    (hbv : _evaluate_single_condition v cfg = some bv)
    (hbw : _evaluate_single_condition w cfg = some bw)
    (huor : ∀ n, n < u.length → orPat.isPrefixOf (u.drop n) = false)
    (huand : ∀ n, n < u.length → andPat.isPrefixOf (u.drop n) = false)
    (hvor : ∀ n, n < v.length → orPat.isPrefixOf (v.drop n) = false)
    (hvand : ∀ n, n < v.length → andPat.isPrefixOf (v.drop n) = false)
    (hwor : ∀ n, n < w.length → orPat.isPrefixOf (w.drop n) = false)
    (hwand : ∀ n, n < w.length → andPat.isPrefixOf (w.drop n) = false)
    (hfindX : findOps (u ++ (orPat ++ v)) = (some (u.length + 2), none))
    (hfindTop : findOps ('(' :: ((u ++ (orPat ++ v)) ++ (')' :: (andPat ++ w)))) =
      (none, some ((u ++ (orPat ++ v)).length + 4))) :
    evaluate_condition_fuel cfg (f + 3)
        ('(' :: ((u ++ (orPat ++ v)) ++ (')' :: (andPat ++ w)))) =
      some ((bu || bv) && bw) := by
  have hS_strip : pyStrip ('(' :: ((u ++ (orPat ++ v)) ++ (')' :: (andPat ++ w)))) =
      '(' :: ((u ++ (orPat ++ v)) ++ (')' :: (andPat ++ w))) := by
    refine pyStrip_eq_self_of _ ?_ ?_
    · intro c hc
      simp only [List.head?_cons, Option.some.injEq] at hc
      subst hc
      decide
    · intro c hc
      rw [show ('(' :: ((u ++ (orPat ++ v)) ++ (')' :: (andPat ++ w)))) =
        ['('] ++ ((u ++ (orPat ++ v)) ++ ([')'] ++ (andPat ++ w))) from rfl] at hc
      rw [List.getLast?_append_of_ne_nil ['('] (by simp),
        List.getLast?_append_of_ne_nil (u ++ (orPat ++ v)) (by simp),
        List.getLast?_append_of_ne_nil [')'] (by simp [andPat]),
        List.getLast?_append_of_ne_nil andPat hw_ne] at hc
      exact last_not_space_of_strip w c hw_strip hc
  have hS_so : stripOuterParens ('(' :: ((u ++ (orPat ++ v)) ++ (')' :: (andPat ++ w)))) =
      '(' :: ((u ++ (orPat ++ v)) ++ (')' :: (andPat ++ w))) := by
    refine stripOuterParens_of_step_none _ (strip_outer_step_none_of_last _ ?_)
    intro c hc
    rw [show ('(' :: ((u ++ (orPat ++ v)) ++ (')' :: (andPat ++ w)))) =
      ['('] ++ ((u ++ (orPat ++ v)) ++ ([')'] ++ (andPat ++ w))) from rfl] at hc
    rw [List.getLast?_append_of_ne_nil ['('] (by simp),
      List.getLast?_append_of_ne_nil (u ++ (orPat ++ v)) (by simp),
      List.getLast?_append_of_ne_nil [')'] (by simp [andPat]),
      List.getLast?_append_of_ne_nil andPat hw_ne] at hc
    exact (hw_np c (List.mem_of_getLast?_eq_some hc)).2
  have htakeL : ('(' :: ((u ++ (orPat ++ v)) ++ (')' :: (andPat ++ w)))).take
      ((u ++ (orPat ++ v)).length + 4 - 2) = '(' :: ((u ++ (orPat ++ v)) ++ [')']) := by
    rw [show (u ++ (orPat ++ v)).length + 4 - 2 = (u ++ (orPat ++ v)).length + 1 + 1
      from by omega]
    rw [List.take_succ_cons]
    rw [show ((u ++ (orPat ++ v)) ++ (')' :: (andPat ++ w))).take
        ((u ++ (orPat ++ v)).length + 1) =
      (u ++ (orPat ++ v)) ++ ((')' :: (andPat ++ w)).take 1) from List.take_append 1]
    rfl
  have hparen_strip : pyStrip ('(' :: ((u ++ (orPat ++ v)) ++ [')'])) =
      '(' :: ((u ++ (orPat ++ v)) ++ [')']) := by
    refine pyStrip_eq_self_of _ ?_ ?_
    · intro c hc
      simp only [List.head?_cons, Option.some.injEq] at hc
      subst hc
      decide
    · intro c hc
      rw [show ('(' :: ((u ++ (orPat ++ v)) ++ [')'])) =
        ['('] ++ ((u ++ (orPat ++ v)) ++ [')']) from rfl] at hc
      rw [List.getLast?_append_of_ne_nil ['('] (by simp),
        List.getLast?_append_of_ne_nil (u ++ (orPat ++ v)) (by simp)] at hc
      simp at hc
      subst hc
      decide
  have hdropw : ('(' :: ((u ++ (orPat ++ v)) ++ (')' :: (andPat ++ w)))).drop
      ((u ++ (orPat ++ v)).length + 4 + 3) = w := by
    rw [show (u ++ (orPat ++ v)).length + 4 + 3 = ((u ++ (orPat ++ v)).length + 6) + 1
      from by omega]
    rw [List.drop_succ_cons]
    rw [show ((u ++ (orPat ++ v)) ++ (')' :: (andPat ++ w))).drop
        ((u ++ (orPat ++ v)).length + 6) =
      ((')' :: (andPat ++ w)).drop 6) from List.drop_append 6]
    rw [List.drop_succ_cons]
    rw [show (andPat ++ w).drop 5 = (andPat ++ w).drop (andPat.length + 0) from rfl]
    rw [List.drop_append 0, List.drop_zero]
  rw [eval_fuel_step cfg (f + 2) ('(' :: ((u ++ (orPat ++ v)) ++ (')' :: (andPat ++ w))))]
  simp only [evalCondStep, hS_strip, hS_so, hfindTop]
  rw [htakeL, hparen_strip]
  rw [show evaluate_condition_fuel cfg (f + 2) ('(' :: ((u ++ (orPat ++ v)) ++ [')'])) =
      some (bu || bv) from
    eval_paren_or_fuel cfg u v bu bv f hu_ne hv_ne hu_np hv_np hu_strip hv_strip
      hbu hbv huor huand hvor hvand hfindX]
  cases hb : bu || bv with
  | false =>
    simp [hb]
  | true =>
    rw [hdropw, hw_strip]
    rw [show evaluate_condition_fuel cfg (f + 2) w = some bw from by
      rw [eval_atom cfg w (f + 1) hw_strip hw_np hwor hwand]; exact hbw]
    simp [hb]

/-- C2: for clean comparison atoms `u`, `v`, `w` (nonempty,
parenthesis-free, whitespace-stripped, with the `" or "` / `" and "`
separators occurring only at the indicated separator positions),
`_evaluate_condition` gives `or` the looser binding: the flat expression
`u or v and w` evaluates to `bu || (bv && bw)`, while the grouped
expression `(u or v) and w` recurses into the parenthesized
sub-expression and evaluates to `(bu || bv) && bw`; in particular,
`"(a == 1 or a == 2) and b >= 5"` against `{"a": 2, "b": 5}` evaluates
to `true`. -/
theorem C2_or_binds_looser_than_and (cfg : PyDict) (u v w : List Char) (bu bv bw : Bool)
    (hu_ne : u ≠ []) (hv_ne : v ≠ []) (hw_ne : w ≠ [])
    (hu_np : ∀ ch ∈ u, ch ≠ '(' ∧ ch ≠ ')') (hv_np : ∀ ch ∈ v, ch ≠ '(' ∧ ch ≠ ')')
    (hw_np : ∀ ch ∈ w, ch ≠ '(' ∧ ch ≠ ')')
    (hu_strip : pyStrip u = u) (hv_strip : pyStrip v = v) (hw_strip : pyStrip w = w)
    (hbu : _evaluate_single_condition u cfg = some bu)
    (hbv : _evaluate_single_condition v cfg = some bv)
    (hbw : _evaluate_single_condition w cfg = some bw)
    (hor1 : ∀ n, n ≤ (u ++ (orPat ++ (v ++ (andPat ++ w)))).length →
      orPat.isPrefixOf ((u ++ (orPat ++ (v ++ (andPat ++ w)))).drop n) = true →
        n = u.length)
    (hand1 : ∀ n, n ≤ (u ++ (orPat ++ (v ++ (andPat ++ w)))).length →
      andPat.isPrefixOf ((u ++ (orPat ++ (v ++ (andPat ++ w)))).drop n) = true →
        n = u.length + (4 + v.length))
    (horX : ∀ n, n ≤ (u ++ (orPat ++ v)).length →
      orPat.isPrefixOf ((u ++ (orPat ++ v)).drop n) = true → n = u.length)
    (handX : ∀ n, n ≤ (u ++ (orPat ++ v)).length →
      andPat.isPrefixOf ((u ++ (orPat ++ v)).drop n) = false)
    (hwor : ∀ n, n < w.length → orPat.isPrefixOf (w.drop n) = false)
    (hwand : ∀ n, n < w.length → andPat.isPrefixOf (w.drop n) = false) :
    _evaluate_condition (u ++ (orPat ++ (v ++ (andPat ++ w)))) cfg =
      some (bu || (bv && bw)) ∧
    _evaluate_condition ('(' :: ((u ++ (orPat ++ v)) ++ (')' :: (andPat ++ w)))) cfg =
      some ((bu || bv) && bw) ∧
    _evaluate_condition "(a == 1 or a == 2) and b >= 5".toList
      [("a".toList, .vInt 2), ("b".toList, .vInt 5)] = some true := by
  have hlenS1 : (u ++ (orPat ++ (v ++ (andPat ++ w)))).length =
      u.length + (4 + (v.length + (5 + w.length))) := by
    simp [orPat, andPat]
    omega
  have hlenX : (u ++ (orPat ++ v)).length = u.length + (4 + v.length) := by
    simp [orPat]
    omega
  have hdropX : ∀ n, (u ++ (orPat ++ v)).drop (u.length + (4 + n)) = v.drop n := by
    intro n
    rw [List.drop_append, show (4 : Nat) + n = orPat.length + n from rfl, List.drop_append]
  have hdropS1 : ∀ n, (u ++ (orPat ++ (v ++ (andPat ++ w)))).drop (u.length + (4 + n)) =
      (v ++ (andPat ++ w)).drop n := by
    intro n
    rw [List.drop_append, show (4 : Nat) + n = orPat.length + n from rfl, List.drop_append]
  have huor : ∀ n, n < u.length → orPat.isPrefixOf (u.drop n) = false := by
    intro n hn
    refine bool_eq_false_of_imp (fun htrue => ?_)
    have hext : orPat.isPrefixOf ((u ++ (orPat ++ v)).drop n) = true := by
      rw [List.drop_append_of_le_length (by omega)]
      exact isPrefixOf_append_right _ _ _ htrue
    have := horX n (by omega) hext
    omega
  have huand : ∀ n, n < u.length → andPat.isPrefixOf (u.drop n) = false := by
    intro n hn
    refine bool_eq_false_of_imp (fun htrue => ?_)
    have hext : andPat.isPrefixOf ((u ++ (orPat ++ v)).drop n) = true := by
      rw [List.drop_append_of_le_length (by omega)]
      exact isPrefixOf_append_right _ _ _ htrue
    rw [handX n (by omega)] at hext
    cases hext
  have hvor : ∀ n, n < v.length → orPat.isPrefixOf (v.drop n) = false := by
    intro n hn
    refine bool_eq_false_of_imp (fun htrue => ?_)
    have hext : orPat.isPrefixOf ((u ++ (orPat ++ v)).drop (u.length + (4 + n))) = true := by
      rw [hdropX n]
      exact htrue
    have := horX (u.length + (4 + n)) (by omega) hext
    omega
  have hvand : ∀ n, n < v.length → andPat.isPrefixOf (v.drop n) = false := by
    intro n hn
    refine bool_eq_false_of_imp (fun htrue => ?_)
    have hext : andPat.isPrefixOf ((u ++ (orPat ++ v)).drop (u.length + (4 + n))) = true := by
      rw [hdropX n]
      exact htrue
    rw [handX (u.length + (4 + n)) (by omega)] at hext
    cases hext
  have hRor : ∀ n, n ≤ (v ++ (andPat ++ w)).length →
      orPat.isPrefixOf ((v ++ (andPat ++ w)).drop n) = false := by
    intro n hn
    refine bool_eq_false_of_imp (fun htrue => ?_)
    have hlenR : (v ++ (andPat ++ w)).length = v.length + (5 + w.length) := by
      simp [andPat]
      omega
    have hext : orPat.isPrefixOf
        ((u ++ (orPat ++ (v ++ (andPat ++ w)))).drop (u.length + (4 + n))) = true := by
      rw [hdropS1 n]
      exact htrue
    have := hor1 (u.length + (4 + n)) (by omega) hext
    omega
  have hRand : ∀ n, n ≤ (v ++ (andPat ++ w)).length →
      andPat.isPrefixOf ((v ++ (andPat ++ w)).drop n) = true → n = v.length := by
    intro n hn htrue
    have hlenR : (v ++ (andPat ++ w)).length = v.length + (5 + w.length) := by
      simp [andPat]
      omega
    have hext : andPat.isPrefixOf
        ((u ++ (orPat ++ (v ++ (andPat ++ w)))).drop (u.length + (4 + n))) = true := by
      rw [hdropS1 n]
      exact htrue
    have := hand1 (u.length + (4 + n)) (by omega) hext
    omega
  have hX_np : ∀ ch ∈ u ++ (orPat ++ v), ch ≠ '(' ∧ ch ≠ ')' := by
    intro ch hch
    rcases List.mem_append.mp hch with h | h
    · exact hu_np ch h
    rcases List.mem_append.mp h with h | h
    · fin_cases h <;> exact ⟨by decide, by decide⟩
    · exact hv_np ch h
  have hspacew : (u ++ (orPat ++ (v ++ (andPat ++ w)))).drop
      (u.length + (4 + (v.length + 4))) = ' ' :: w := by
    rw [hdropS1 (v.length + 4)]
    rw [List.drop_append]
    rfl
  have h1w : orPat.isPrefixOf (' ' :: w) = false := by
    refine bool_eq_false_of_imp (fun htrue => ?_)
    have := hor1 (u.length + (4 + (v.length + 4))) (by omega)
      (by rw [hspacew]; exact htrue)
    omega
  have h2w : andPat.isPrefixOf (' ' :: w) = false := by
    refine bool_eq_false_of_imp (fun htrue => ?_)
    have := hand1 (u.length + (4 + (v.length + 4))) (by omega)
      (by rw [hspacew]; exact htrue)
    omega
  have hfindX : findOps (u ++ (orPat ++ v)) = (some (u.length + 2), none) :=
    findOps_or_shape u v hu_np hv_np horX handX
  have hfind1 : findOps (u ++ (orPat ++ (v ++ (andPat ++ w)))) =
      (some (u.length + 2), some (u.length + (4 + v.length) + 2)) :=
    findOps_or_and_shape u v w hu_np hv_np hw_np hor1 hand1
  have hfind2 : findOps (v ++ (andPat ++ w)) = (none, some (v.length + 2)) :=
    findOps_and_shape v w hv_np hw_np hRor hRand
  have hfindTop : findOps ('(' :: ((u ++ (orPat ++ v)) ++ (')' :: (andPat ++ w)))) =
      (none, some ((u ++ (orPat ++ v)).length + 4)) :=
    findOps_paren_and_shape (u ++ (orPat ++ v)) w hX_np hw_np h1w h2w hwor hwand
  refine ⟨?_, ?_, by decide⟩
  · show evaluate_condition_fuel cfg ((u ++ (orPat ++ (v ++ (andPat ++ w)))).length + 1)
      (u ++ (orPat ++ (v ++ (andPat ++ w)))) = some (bu || (bv && bw))
    rw [eval_fuel_congr (u ++ (orPat ++ (v ++ (andPat ++ w)))).length
      (u ++ (orPat ++ (v ++ (andPat ++ w)))) le_rfl cfg
      ((u ++ (orPat ++ (v ++ (andPat ++ w)))).length + 1)
      ((u ++ (orPat ++ (v ++ (andPat ++ w)))).length + 3) (by omega) (by omega)]
    exact eval_or_and_fuel cfg u v w bu bv bw
      (some (u.length + (4 + v.length) + 2)) (u ++ (orPat ++ (v ++ (andPat ++ w)))).length
      hu_ne hv_ne hw_ne hu_np hv_np hw_np hu_strip hv_strip hw_strip hbu hbv hbw
      huor huand hvor hvand hwor hwand hfind1 hfind2
  · show evaluate_condition_fuel cfg
      (('(' :: ((u ++ (orPat ++ v)) ++ (')' :: (andPat ++ w)))).length + 1)
      ('(' :: ((u ++ (orPat ++ v)) ++ (')' :: (andPat ++ w)))) = some ((bu || bv) && bw)
    rw [eval_fuel_congr ('(' :: ((u ++ (orPat ++ v)) ++ (')' :: (andPat ++ w)))).length
      ('(' :: ((u ++ (orPat ++ v)) ++ (')' :: (andPat ++ w)))) le_rfl cfg
      (('(' :: ((u ++ (orPat ++ v)) ++ (')' :: (andPat ++ w)))).length + 1)
      (('(' :: ((u ++ (orPat ++ v)) ++ (')' :: (andPat ++ w)))).length + 3)
      (by omega) (by omega)]
    exact eval_paren_and_fuel cfg u v w bu bv bw
      ('(' :: ((u ++ (orPat ++ v)) ++ (')' :: (andPat ++ w)))).length
      hu_ne hv_ne hw_ne hu_np hv_np hw_np hu_strip hv_strip hw_strip hbu hbv hbw
      huor huand hvor hvand hwor hwand hfindX hfindTop

theorem C2_witness :
    _evaluate_condition
        ("a == 1".toList ++ (orPat ++ ("a == 2".toList ++ (andPat ++ "b >= 5".toList))))
        [("a".toList, .vInt 2), ("b".toList, .vInt 5)] =
      some (false || (true && true)) ∧
    _evaluate_condition
        ('(' :: (("a == 1".toList ++ (orPat ++ "a == 2".toList)) ++
          (')' :: (andPat ++ "b >= 5".toList))))
        [("a".toList, .vInt 2), ("b".toList, .vInt 5)] =
      some ((false || true) && true) ∧
    _evaluate_condition "(a == 1 or a == 2) and b >= 5".toList
      [("a".toList, .vInt 2), ("b".toList, .vInt 5)] = some true :=
  C2_or_binds_looser_than_and [("a".toList, .vInt 2), ("b".toList, .vInt 5)]
    "a == 1".toList "a == 2".toList "b >= 5".toList false true true
    (by decide) (by decide) (by decide) (by decide) (by decide) (by decide)
    (by decide) (by decide) (by decide) (by decide) (by decide) (by decide)
    (by decide) (by decide) (by decide) (by decide) (by decide) (by decide)

/-! ## Range Optimizer lemmas -/

theorem takeBlock_partition (start m g : Nat) :
    ∀ (l : List SpecRegister) (e : Nat),
    (takeBlock start m g e l).1 ++ (takeBlock start m g e l).2.2 = l := by
  intro l
  induction l with
  | nil => intro e; rfl
  | cons r rest ih =>
    intro e
    simp only [takeBlock]
    split
    · simp only [List.cons_append, List.cons.injEq, true_and]
      exact ih (max e (r.address + r.width))
    · rfl

theorem takeBlock_end_ge (start m g : Nat) :
    ∀ (l : List SpecRegister) (e : Nat), e ≤ (takeBlock start m g e l).2.1 := by
  intro l
  induction l with
  | nil => intro e; exact Nat.le_refl e
  | cons r rest ih =>
    intro e
    simp only [takeBlock]
    split
    · exact Nat.le_trans (Nat.le_max_left e _) (ih (max e (r.address + r.width)))
    · exact Nat.le_refl e

theorem takeBlock_mem_end_le (start m g : Nat) :
    ∀ (l : List SpecRegister) (e : Nat) (r : SpecRegister),
    r ∈ (takeBlock start m g e l).1 → regEnd r ≤ (takeBlock start m g e l).2.1 := by
  intro l
  induction l with
  | nil => intro e r hr; simp [takeBlock] at hr
  | cons x rest ih =>
    intro e r hr
    simp only [takeBlock] at hr ⊢
    by_cases hcond : x.address ≤ e + g ∧ x.address + x.width ≤ start + m
    · rw [if_pos hcond] at hr ⊢
      rcases List.mem_cons.mp hr with h | h
      · subst h
        calc regEnd r ≤ max e (r.address + r.width) := Nat.le_max_right _ _
          _ ≤ _ := takeBlock_end_ge start m g rest _
      · exact ih _ r h
    · rw [if_neg hcond] at hr
      simp at hr

theorem takeBlock_mem_span_le (start m g : Nat) :
    ∀ (l : List SpecRegister) (e : Nat) (r : SpecRegister),
    r ∈ (takeBlock start m g e l).1 → regEnd r ≤ start + m := by
  intro l
  induction l with
  | nil => intro e r hr; simp [takeBlock] at hr
  | cons x rest ih =>
    intro e r hr
    simp only [takeBlock] at hr
    by_cases hcond : x.address ≤ e + g ∧ x.address + x.width ≤ start + m
    · rw [if_pos hcond] at hr
      rcases List.mem_cons.mp hr with h | h
      · subst h
        exact hcond.2
      · exact ih _ r h
    · rw [if_neg hcond] at hr
      simp at hr

theorem takeBlock_stop (start m g : Nat) :
    ∀ (l : List SpecRegister) (e : Nat) (b : SpecRegister) (t : List SpecRegister),
    (takeBlock start m g e l).2.2 = b :: t →
    ¬(b.address ≤ (takeBlock start m g e l).2.1 + g ∧ regEnd b ≤ start + m) := by
  intro l
  induction l with
  | nil => intro e b t h; simp [takeBlock] at h
  | cons x rest ih =>
    intro e b t h
    simp only [takeBlock] at h ⊢
    by_cases hcond : x.address ≤ e + g ∧ x.address + x.width ≤ start + m
    · rw [if_pos hcond] at h ⊢
      exact ih _ b t h
    · rw [if_neg hcond] at h ⊢
      cases h
      exact hcond

theorem wellLaidOut_tail {r : SpecRegister} {rest : List SpecRegister}
    (h : wellLaidOut (r :: rest)) : wellLaidOut rest :=
  ⟨h.1.tail, fun x hx => h.2 x (List.mem_cons_of_mem _ hx)⟩

theorem wellLaidOut_head_le :
    ∀ (rest : List SpecRegister) (r : SpecRegister),
    wellLaidOut (r :: rest) → ∀ b ∈ rest, regEnd r ≤ b.address := by
  intro rest
  induction rest with
  | nil => intro r h b hb; simp at hb
  | cons a t ih =>
    intro r h b hb
    have hra : regEnd r ≤ a.address := (List.chain'_cons.mp h.1).1
    rcases List.mem_cons.mp hb with h1 | h1
    · subst h1
      exact hra
    · exact Nat.le_trans (Nat.le_trans hra (Nat.le_add_right a.address a.width))
        (ih a (wellLaidOut_tail h) b h1)

theorem wellLaidOut_before_le :
    ∀ (A : List SpecRegister) (b : SpecRegister) (t : List SpecRegister),
    wellLaidOut (A ++ b :: t) → ∀ x ∈ A, regEnd x ≤ b.address := by
  intro A
  induction A with
  | nil => intro b t h x hx; simp at hx
  | cons a A' ih =>
    intro b t h x hx
    rcases List.mem_cons.mp hx with h1 | h1
    · subst h1
      exact wellLaidOut_head_le (A' ++ b :: t) x h b (by simp)
    · exact ih b t (wellLaidOut_tail h) x h1

theorem wellLaidOut_append_right :
    ∀ (A B : List SpecRegister), wellLaidOut (A ++ B) → wellLaidOut B := by
  intro A
  induction A with
  | nil => intro B h; exact h
  | cons a A' ih => intro B h; exact ih B (wellLaidOut_tail h)

theorem wellLaidOut_append_left (A B : List SpecRegister)
    (h : wellLaidOut (A ++ B)) : wellLaidOut A :=
  ⟨(List.chain'_append.mp h.1).1, fun x hx => h.2 x (List.mem_append_left B hx)⟩

theorem lastEnd_append (A B : List SpecRegister) (hB : B ≠ []) :
    lastEnd (A ++ B) = lastEnd B := by
  induction A with
  | nil => rfl
  | cons a A' ih =>
    cases hA : A' ++ B with
    | nil => exact absurd (List.append_eq_nil.mp hA).2 hB
    | cons y ys =>
      show lastEnd (a :: (A' ++ B)) = lastEnd B
      rw [hA]
      show lastEnd (y :: ys) = lastEnd B
      rw [← hA, ih]

theorem lastEnd_is_max :
    ∀ (B : List SpecRegister), wellLaidOut B → ∀ x ∈ B, regEnd x ≤ lastEnd B := by
  intro B
  induction B with
  | nil => intro _ x hx; simp at hx
  | cons b B' ih =>
    intro h x hx
    cases B' with
    | nil =>
      rcases List.mem_cons.mp hx with h1 | h1
      · subst h1; exact Nat.le_refl _
      · simp at h1
    | cons c t =>
      have hlast : lastEnd (b :: c :: t) = lastEnd (c :: t) := rfl
      rw [hlast]
      rcases List.mem_cons.mp hx with h1 | h1
      · subst h1
        have hbc : regEnd x ≤ c.address := (List.chain'_cons.mp h.1).1
        exact Nat.le_trans (Nat.le_trans hbc (Nat.le_add_right c.address c.width))
          (ih (wellLaidOut_tail h) c (by simp))
      · exact ih (wellLaidOut_tail h) x h1

theorem gapsOkB_tail (g : Nat) (a : SpecRegister) (l : List SpecRegister)
    (h : gapsOkB g (a :: l) = true) : gapsOkB g l = true := by
  cases l with
  | nil => rfl
  | cons b t =>
    simp only [gapsOkB, Bool.and_eq_true] at h
    exact h.2

theorem gapsOkB_suffix (g : Nat) :
    ∀ (A B : List SpecRegister), gapsOkB g (A ++ B) = true → gapsOkB g B = true := by
  intro A
  induction A with
  | nil => intro B h; exact h
  | cons a A' ih =>
    intro B h
    exact ih B (gapsOkB_tail g a (A' ++ B) h)

theorem feasible_suffix (m g : Nat) (d B₂ : List SpecRegister)
    (hB₂ : B₂ ≠ []) (hfeas : feasibleBlock m g (d ++ B₂) = true)
    (hw : wellLaidOut (d ++ B₂)) : feasibleBlock m g B₂ = true := by
  cases d with
  | nil => exact hfeas
  | cons r d' =>
    cases hB : B₂ with
    | nil => exact absurd hB hB₂
    | cons h₂ t₂ =>
      subst hB
      have hfeas' : (gapsOkB g (r :: (d' ++ h₂ :: t₂)) &&
          ((d' ++ h₂ :: t₂).isEmpty ||
            decide (lastEnd (r :: (d' ++ h₂ :: t₂)) ≤ r.address + m))) = true := hfeas
      rw [Bool.and_eq_true] at hfeas'
      show (gapsOkB g (h₂ :: t₂) &&
        (t₂.isEmpty || decide (lastEnd (h₂ :: t₂) ≤ h₂.address + m))) = true
      rw [Bool.and_eq_true]
      constructor
      · exact gapsOkB_suffix g (r :: d') (h₂ :: t₂) hfeas'.1
      · cases t₂ with
        | nil => simp
        | cons c t =>
          have hne : d' ++ h₂ :: c :: t ≠ [] := by simp
          have h2 := hfeas'.2
          rw [show ((d' ++ h₂ :: c :: t).isEmpty : Bool) = false from by
            cases hd : d' ++ h₂ :: c :: t with
            | nil => exact absurd hd hne
            | cons _ _ => rfl] at h2
          simp only [Bool.false_or, decide_eq_true_eq] at h2
          have hlast : lastEnd (r :: (d' ++ h₂ :: c :: t)) = lastEnd (h₂ :: c :: t) := by
        
            rw [show r :: (d' ++ h₂ :: c :: t) = (r :: d') ++ (h₂ :: c :: t) from rfl]
            exact lastEnd_append (r :: d') (h₂ :: c :: t) (by simp)
          rw [hlast] at h2
          have hra : regEnd r ≤ h₂.address :=
            wellLaidOut_before_le (r :: d') h₂ (c :: t) hw r (by simp)
          simp only [Bool.or_eq_true, decide_eq_true_eq]
          right
          have : r.address ≤ h₂.address :=
            Nat.le_trans (Nat.le_add_right r.address r.width) hra
          omega

theorem sweepGroups_flatten (m g : Nat) :
    ∀ (n : Nat) (l : List SpecRegister) (f : Nat), l.length ≤ n → l.length < f →
    (sweepGroups m g f l).flatten = l := by
  intro n
  induction n with
  | zero =>
    intro l f hl hf
    have : l = [] := List.length_eq_zero.mp (Nat.le_antisymm hl (Nat.zero_le _))
    subst this
    cases f with
    | zero => omega
    | succ f' => rfl
  | succ n ih =>
    intro l f hl hf
    cases l with
    | nil =>
      cases f with
      | zero => omega
      | succ f' => rfl
    | cons r rest =>
      cases f with
      | zero => omega
      | succ f' =>
        simp only [sweepGroups, List.flatten_cons]
        have hpart := takeBlock_partition r.address m g rest (r.address + r.width)
        have hlen : (takeBlock r.address m g (r.address + r.width) rest).2.2.length ≤ n := by
          have := congrArg List.length hpart
          simp only [List.length_append, List.length_cons] at hl this ⊢
          omega
        have hlenf : (takeBlock r.address m g (r.address + r.width) rest).2.2.length < f' := by
          have := congrArg List.length hpart
          simp only [List.length_append, List.length_cons] at hf this ⊢
          omega
        rw [ih (takeBlock r.address m g (r.address + r.width) rest).2.2 f' hlen hlenf]
        rw [List.cons_append, hpart]

theorem takeBlock_end_le (start m g : Nat) :
    ∀ (l : List SpecRegister) (e B : Nat), e ≤ B → start + m ≤ B →
    (takeBlock start m g e l).2.1 ≤ B := by
  intro l
  induction l with
  | nil => intro e B he _; exact he
  | cons x rest ih =>
    intro e B he hm
    simp only [takeBlock]
    by_cases hcond : x.address ≤ e + g ∧ x.address + x.width ≤ start + m
    · rw [if_pos hcond]
      exact ih _ B (Nat.max_le.mpr ⟨he, Nat.le_trans hcond.2 hm⟩) hm
    · rw [if_neg hcond]
      exact he

theorem sweep_coverage (m g : Nat) :
    ∀ (n : Nat) (l : List SpecRegister) (f : Nat), l.length ≤ n → wellLaidOut l →
    List.Forall₂ (fun (s : ReadSpan) (b : List SpecRegister) => ∀ r ∈ b, spanCovers s r)
      (sweepBlocks m g f l) (sweepGroups m g f l) := by
  intro n
  induction n with
  | zero =>
    intro l f hl _
    have : l = [] := List.length_eq_zero.mp (Nat.le_antisymm hl (Nat.zero_le _))
    subst this
    cases f with
    | zero => exact List.Forall₂.nil
    | succ f' => exact List.Forall₂.nil
  | succ n ih =>
    intro l f hl hw
    cases l with
    | nil =>
      cases f with
      | zero => exact List.Forall₂.nil
      | succ f' => exact List.Forall₂.nil
    | cons r rest =>
      cases f with
      | zero => exact List.Forall₂.nil
      | succ f' =>
        simp only [sweepBlocks, sweepGroups]
        refine List.Forall₂.cons ?_ ?_
        · intro x hx
          have hge := takeBlock_end_ge r.address m g rest (r.address + r.width)
          rcases List.mem_cons.mp hx with h1 | h1
          · subst h1
            refine ⟨Nat.le_refl _, ?_⟩
            show regEnd x ≤
              x.address + ((takeBlock x.address m g (x.address + x.width) rest).2.1 - x.address)
            unfold regEnd
            omega
          · have hxrest : x ∈ rest := by
              rw [← takeBlock_partition r.address m g rest (r.address + r.width)]
              exact List.mem_append_left _ h1
            have haddr : regEnd r ≤ x.address := wellLaidOut_head_le rest r hw x hxrest
            have hend := takeBlock_mem_end_le r.address m g rest (r.address + r.width) x h1
            refine ⟨Nat.le_trans (Nat.le_trans (Nat.le_add_right _ _) haddr) (Nat.le_refl _), ?_⟩
            show regEnd x ≤
              r.address + ((takeBlock r.address m g (r.address + r.width) rest).2.1 - r.address)
            unfold regEnd at haddr hend ⊢
            omega
        · have hpart := takeBlock_partition r.address m g rest (r.address + r.width)
          have hlen : (takeBlock r.address m g (r.address + r.width) rest).2.2.length ≤ n := by
            have := congrArg List.length hpart
            simp only [List.length_append, List.length_cons] at hl this ⊢
            omega
          have hw2 : wellLaidOut (takeBlock r.address m g (r.address + r.width) rest).2.2 := by
            refine wellLaidOut_append_right
              (r :: (takeBlock r.address m g (r.address + r.width) rest).1) _ ?_
            rw [List.cons_append, hpart]
            exact hw
          exact ih _ f' hlen hw2

theorem sweep_span_bound (m g : Nat) :
    ∀ (n : Nat) (l : List SpecRegister) (f : Nat), l.length ≤ n → wellLaidOut l →
    ∀ s ∈ sweepBlocks m g f l,
      s.words ≤ m ∨ ∃ r ∈ l, s = ⟨r.address, r.width⟩ ∧ m < r.width := by
  intro n
  induction n with
  | zero =>
    intro l f hl _ s hs
    have : l = [] := List.length_eq_zero.mp (Nat.le_antisymm hl (Nat.zero_le _))
    subst this
    cases f with
    | zero => simp [sweepBlocks] at hs
    | succ f' => simp [sweepBlocks] at hs
  | succ n ih =>
    intro l f hl hw s hs
    cases l with
    | nil =>
      cases f with
      | zero => simp [sweepBlocks] at hs
      | succ f' => simp [sweepBlocks] at hs
    | cons r rest =>
      cases f with
      | zero => simp [sweepBlocks] at hs
      | succ f' =>
        simp only [sweepBlocks] at hs
        have hpart := takeBlock_partition r.address m g rest (r.address + r.width)
        rcases List.mem_cons.mp hs with h1 | h1
        · by_cases hcase : regEnd r ≤ r.address + m
          · left
            subst h1
            have hle := takeBlock_end_le r.address m g rest (r.address + r.width)
              (r.address + m) hcase (Nat.le_refl _)
            show (takeBlock r.address m g (r.address + r.width) rest).2.1 - r.address ≤ m
            omega
          · right
            have htaken : takeBlock r.address m g (r.address + r.width) rest =
                ([], r.address + r.width, rest) := by
              cases rest with
              | nil => rfl
              | cons x rest' =>
                simp only [takeBlock]
                rw [if_neg]
                intro ⟨_, hc2⟩
                have haddr : regEnd r ≤ x.address :=
                  wellLaidOut_head_le (x :: rest') r hw x (by simp)
                have : x.address ≤ x.address + x.width := Nat.le_add_right _ _
                unfold regEnd at haddr hcase
                omega
            subst h1
            refine ⟨r, by simp, ?_, ?_⟩
            · rw [htaken]
              show (⟨r.address, (r.address + r.width) - r.address⟩ : ReadSpan) = _
              simp
            · unfold regEnd at hcase
              omega
        · have hlen : (takeBlock r.address m g (r.address + r.width) rest).2.2.length ≤ n := by
            have := congrArg List.length hpart
            simp only [List.length_append, List.length_cons] at hl this ⊢
            omega
          have hw2 : wellLaidOut (takeBlock r.address m g (r.address + r.width) rest).2.2 := by
            refine wellLaidOut_append_right
              (r :: (takeBlock r.address m g (r.address + r.width) rest).1) _ ?_
            rw [List.cons_append, hpart]
            exact hw
          rcases ih _ f' hlen hw2 s h1 with h | ⟨x, hx, hx2⟩
          · exact Or.inl h
          · refine Or.inr ⟨x, ?_, hx2⟩
            have : x ∈ rest := by
              rw [← hpart]
              exact List.mem_append_right _ hx
            exact List.mem_cons_of_mem _ this

theorem sweep_merge_chain (m g : Nat) :
    ∀ (n : Nat) (l : List SpecRegister) (f : Nat), l.length ≤ n → l.length < f →
    wellLaidOut l →
    List.Chain' (fun (p q : ReadSpan × List SpecRegister) => ∀ b ∈ q.2.take 1,
        ¬(b.address ≤ p.1.start + p.1.words + g ∧ regEnd b ≤ p.1.start + m))
      ((sweepBlocks m g f l).zip (sweepGroups m g f l)) := by
  intro n
  induction n with
  | zero =>
    intro l f hl hf _
    have : l = [] := List.length_eq_zero.mp (Nat.le_antisymm hl (Nat.zero_le _))
    subst this
    cases f with
    | zero => exact List.chain'_nil
    | succ f' => exact List.chain'_nil
  | succ n ih =>
    intro l f hl hf hw
    cases l with
    | nil =>
      cases f with
      | zero => exact List.chain'_nil
      | succ f' => exact List.chain'_nil
    | cons r rest =>
      cases f with
      | zero => exact List.chain'_nil
      | succ f' =>
        simp only [sweepBlocks, sweepGroups]
        rw [List.zip_cons_cons]
        rw [List.chain'_cons']
        have hpart := takeBlock_partition r.address m g rest (r.address + r.width)
        have hlen : (takeBlock r.address m g (r.address + r.width) rest).2.2.length ≤ n := by
          have := congrArg List.length hpart
          simp only [List.length_append, List.length_cons] at hl this ⊢
          omega
        have hlenf : (takeBlock r.address m g (r.address + r.width) rest).2.2.length < f' := by
          have := congrArg List.length hpart
          simp only [List.length_append, List.length_cons] at hf this ⊢
          omega
        have hw2 : wellLaidOut (takeBlock r.address m g (r.address + r.width) rest).2.2 := by
          refine wellLaidOut_append_right
            (r :: (takeBlock r.address m g (r.address + r.width) rest).1) _ ?_
          rw [List.cons_append, hpart]
          exact hw
        refine ⟨?_, ih _ f' hlen hlenf hw2⟩
        intro q hq b hb
        cases hrest2 : (takeBlock r.address m g (r.address + r.width) rest).2.2 with
        | nil =>
          rw [hrest2] at hq
          cases f' with
          | zero => simp [sweepBlocks, sweepGroups] at hq
          | succ f'' => simp [sweepBlocks, sweepGroups] at hq
        | cons b' t' =>
          rw [hrest2] at hq
          cases f' with
          | zero => omega
          | succ f'' =>
            simp only [sweepBlocks, sweepGroups, List.zip_cons_cons, List.head?_cons,
              Option.mem_some_iff] at hq
            subst hq
            simp only [List.take_cons, List.take_zero] at hb
            rcases List.mem_cons.mp hb with h1 | h1
            · subst h1
              have hstop := takeBlock_stop r.address m g rest (r.address + r.width) b t' hrest2
              have hge := takeBlock_end_ge r.address m g rest (r.address + r.width)
              show ¬(b.address ≤ r.address +
                  ((takeBlock r.address m g (r.address + r.width) rest).2.1 - r.address) + g ∧
                regEnd b ≤ r.address + m)
              intro ⟨hc1, hc2⟩
              refine hstop ⟨?_, hc2⟩
              show b.address ≤ (takeBlock r.address m g (r.address + r.width) rest).2.1 + g
              have : r.address + ((takeBlock r.address m g (r.address + r.width) rest).2.1 -
                  r.address) = (takeBlock r.address m g (r.address + r.width) rest).2.1 := by
                omega
              omega
            · simp at h1

/-- The greedy sweep absorbs every register of a feasible block that
starts where the sweep starts: after the block's members, it continues
from the block's last end. -/
theorem greedy_prefix (start m g : Nat) :
    ∀ (B' : List SpecRegister) (T : List SpecRegister) (prev : SpecRegister),
    wellLaidOut (prev :: (B' ++ T)) →
    gapsOkB g (prev :: B') = true →
    (∀ x ∈ B', regEnd x ≤ start + m) →
    takeBlock start m g (prev.address + prev.width) (B' ++ T) =
      (B' ++ (takeBlock start m g (lastEnd (prev :: B')) T).1,
       (takeBlock start m g (lastEnd (prev :: B')) T).2) := by
  intro B'
  induction B' with
  | nil =>
    intro T prev _ _ _
    show takeBlock start m g (prev.address + prev.width) T =
      ([] ++ (takeBlock start m g (regEnd prev) T).1,
       (takeBlock start m g (regEnd prev) T).2)
    rw [List.nil_append]
    rfl
  | cons b B'' ih =>
    intro T prev hw hgaps hbound
    have hgap1 : b.address ≤ regEnd prev + g := by
      simp only [gapsOkB, Bool.and_eq_true, decide_eq_true_eq] at hgaps
      exact hgaps.1
    have hbnd1 : regEnd b ≤ start + m := hbound b (by simp)
    have hchain : regEnd prev ≤ b.address := (List.chain'_cons.mp hw.1).1
    show takeBlock start m g (prev.address + prev.width) (b :: (B'' ++ T)) = _
    simp only [takeBlock]
    rw [if_pos ⟨hgap1, hbnd1⟩]
    have hmax : max (prev.address + prev.width) (b.address + b.width) =
        b.address + b.width := by
      have : b.address ≤ b.address + b.width := Nat.le_add_right _ _
      unfold regEnd at hchain
      omega
    rw [hmax]
    rw [ih T b (wellLaidOut_tail hw) (gapsOkB_tail g prev (b :: B'') hgaps)
      (fun x hx => hbound x (List.mem_cons_of_mem _ hx))]
    show (b :: (B'' ++ (takeBlock start m g (lastEnd (b :: B'')) T).1),
      (takeBlock start m g (lastEnd (b :: B'')) T).2) = _
    have hlast : lastEnd (prev :: b :: B'') = lastEnd (b :: B'') := rfl
    rw [hlast]
    rfl

/-- Removing a prefix of the registers from a valid partition leaves a
valid partition of the remainder with no more blocks. -/
theorem partition_drop (m g : Nat) :
    ∀ (P : List (List SpecRegister)) (d rest : List SpecRegister),
    validPartition m g P (d ++ rest) → wellLaidOut (d ++ rest) →
    ∃ Q, validPartition m g Q rest ∧ Q.length ≤ P.length := by
  intro P
  induction P with
  | nil =>
    intro d rest hval _
    have hflat : ([] : List (List SpecRegister)).flatten = d ++ rest := hval.1
    simp only [List.flatten_nil] at hflat
    have : rest = [] := (List.append_eq_nil.mp hflat.symm).2
    subst this
    exact ⟨[], ⟨rfl, by simp⟩, by simp⟩
  | cons B P' ih =>
    intro d rest hval hw
    have hflat : B ++ P'.flatten = d ++ rest := by
      have := hval.1
      simpa using this
    by_cases hlen : B.length ≤ d.length
    · have hB : d.take B.length = B := by
        have h1 : (B ++ P'.flatten).take B.length = B := by
          rw [List.take_append_of_le_length (Nat.le_refl _)]
          exact List.take_length B
        rw [hflat] at h1
        rw [List.take_append_of_le_length hlen] at h1
        exact h1
      have hd : d = B ++ d.drop B.length := by
        conv_lhs => rw [← List.take_append_drop B.length d]
        rw [hB]
      have hflat' : P'.flatten = d.drop B.length ++ rest := by
        have h2 : B ++ P'.flatten = B ++ (d.drop B.length ++ rest) := by
          rw [hflat]
          conv_lhs => rw [hd]
          rw [List.append_assoc]
        exact List.append_cancel_left h2
      have hw' : wellLaidOut (d.drop B.length ++ rest) := by
        refine wellLaidOut_append_right B _ ?_
        rw [← List.append_assoc, ← hd]
        exact hw
      rcases ih (d.drop B.length) rest ⟨hflat', fun b hb => hval.2 b (List.mem_cons_of_mem _ hb)⟩
        hw' with ⟨Q, hQ, hQlen⟩
      exact ⟨Q, hQ, Nat.le_trans hQlen (by simp)⟩
    · have hdB : B.take d.length = d := by
        have h1 : (d ++ rest).take d.length = d := by
          rw [List.take_append_of_le_length (Nat.le_refl _)]
          exact List.take_length d
        rw [← hflat] at h1
        rw [List.take_append_of_le_length (by omega)] at h1
        exact h1
      have hBdec : B = d ++ B.drop d.length := by
        conv_lhs => rw [← List.take_append_drop d.length B]
        rw [hdB]
      have hB₂ne : B.drop d.length ≠ [] := by
        intro hcontra
        have := congrArg List.length hcontra
        simp at this
        omega
      have hrest : rest = B.drop d.length ++ P'.flatten := by
        have h2 : d ++ rest = d ++ (B.drop d.length ++ P'.flatten) := by
          rw [← hflat]
          conv_lhs => rw [hBdec]
          rw [List.append_assoc]
        exact (List.append_cancel_left h2)
      have hwB : wellLaidOut B := by
        refine wellLaidOut_append_left B P'.flatten ?_
        rw [hflat]
        exact hw
      have hB₂feas : feasibleBlock m g (B.drop d.length) = true := by
        refine feasible_suffix m g d (B.drop d.length) hB₂ne ?_ ?_
        · rw [← hBdec]
          exact hval.2 B (by simp)
        · rw [← hBdec]
          exact hwB
      refine ⟨B.drop d.length :: P', ⟨?_, ?_⟩, by simp⟩
      · simp only [List.flatten_cons]
        exact hrest.symm
      · intro b hb
        rcases List.mem_cons.mp hb with h1 | h1
        · subst h1
          exact hB₂feas
        · exact hval.2 b (List.mem_cons_of_mem _ h1)

theorem sweep_minimal (m g : Nat) :
    ∀ (n : Nat) (l : List SpecRegister) (f : Nat), l.length ≤ n → l.length < f →
    wellLaidOut l →
    ∀ P, validPartition m g P l → (sweepBlocks m g f l).length ≤ P.length := by
  intro n
  induction n with
  | zero =>
    intro l f hl _ _ P _
    have : l = [] := List.length_eq_zero.mp (Nat.le_antisymm hl (Nat.zero_le _))
    subst this
    cases f with
    | zero => simp [sweepBlocks]
    | succ f' => simp [sweepBlocks]
  | succ n ih =>
    intro l f hl hf hw P hval
    cases l with
    | nil =>
      cases f with
      | zero => simp [sweepBlocks]
      | succ f' => simp [sweepBlocks]
    | cons r rest =>
      cases f with
      | zero => omega
      | succ f' =>
        cases P with
        | nil =>
          have := hval.1
          simp at this
        | cons B P' =>
          have hflat : B ++ P'.flatten = r :: rest := by
            have := hval.1
            simpa using this
          have hBfeas : feasibleBlock m g B = true := hval.2 B (by simp)
          cases hB : B with
          | nil =>
            rw [hB] at hBfeas
            simp [feasibleBlock] at hBfeas
          | cons x B' =>
            rw [hB] at hflat
            have hx : x = r := (List.cons.injEq _ _ _ _).mp hflat |>.1
            subst hx
            have hrest : B' ++ P'.flatten = rest := (List.cons.injEq _ _ _ _).mp hflat |>.2
            rw [hB] at hBfeas
            have hgaps : gapsOkB g (x :: B') = true := by
              have : (gapsOkB g (x :: B') &&
                  (B'.isEmpty || decide (lastEnd (x :: B') ≤ x.address + m))) = true := hBfeas
              rw [Bool.and_eq_true] at this
              exact this.1
            have hwB : wellLaidOut (x :: B') := by
              refine wellLaidOut_append_left (x :: B') P'.flatten ?_
              rw [List.cons_append, hrest]
              exact hw
            have hbound : ∀ y ∈ B', regEnd y ≤ x.address + m := by
              intro y hy
              cases hB' : B' with
              | nil => rw [hB'] at hy; simp at hy
              | cons c t =>
                have h2 : (B'.isEmpty || decide (lastEnd (x :: B') ≤ x.address + m)) = true := by
                  have hfb : (gapsOkB g (x :: B') &&
                      (B'.isEmpty || decide (lastEnd (x :: B') ≤ x.address + m))) = true := hBfeas
                  rw [Bool.and_eq_true] at hfb
                  exact hfb.2
                rw [hB'] at h2
                simp only [List.isEmpty_cons, Bool.false_or, decide_eq_true_eq] at h2
                rw [← hB'] at h2
                have hmax := lastEnd_is_max (x :: B') hwB y (List.mem_cons_of_mem _ hy)
                omega
            have hrw : rest = B' ++ P'.flatten := hrest.symm
            have hgp := greedy_prefix x.address m g B' P'.flatten x
              (by rw [← hrw]; exact hw) hgaps hbound
            simp only [sweepBlocks]
            rw [hrw, hgp]
            simp only [List.length_cons, Nat.add_le_add_iff_right]
            have hpartT := takeBlock_partition x.address m g P'.flatten
              (lastEnd (x :: B'))
            have hwT : wellLaidOut P'.flatten := by
              refine wellLaidOut_append_right (x :: B') _ ?_
              rw [List.cons_append, hrest]
              exact hw
            rcases partition_drop m g P'
              (takeBlock x.address m g (lastEnd (x :: B')) P'.flatten).1
              (takeBlock x.address m g (lastEnd (x :: B')) P'.flatten).2.2
              ⟨by rw [hpartT], fun b hb => hval.2 b (List.mem_cons_of_mem _ hb)⟩
              (by rw [hpartT]; exact hwT) with ⟨Q, hQval, hQlen⟩
            have hlenT : (takeBlock x.address m g (lastEnd (x :: B')) P'.flatten).2.2.length
                ≤ n := by
              have h1 := congrArg List.length hpartT
              have h2 := congrArg List.length hrest
              simp only [List.length_append, List.length_cons] at hl h1 h2 ⊢
              omega
            have hlenTf : (takeBlock x.address m g (lastEnd (x :: B')) P'.flatten).2.2.length
                < f' := by
              have h1 := congrArg List.length hpartT
              have h2 := congrArg List.length hrest
              simp only [List.length_append, List.length_cons] at hf h1 h2 ⊢
              omega
            have hwrest' : wellLaidOut
                (takeBlock x.address m g (lastEnd (x :: B')) P'.flatten).2.2 := by
              refine wellLaidOut_append_right
                (takeBlock x.address m g (lastEnd (x :: B')) P'.flatten).1 _ ?_
              rw [hpartT]
              exact hwT
            exact Nat.le_trans (ih _ f' hlenT hlenTf hwrest' Q hQval) hQlen

theorem insertByAddress_perm (r : SpecRegister) :
    ∀ l, (insertByAddress r l).Perm (r :: l) := by
  intro l
  induction l with
  | nil => exact List.Perm.refl _
  | cons x xs ih =>
    simp only [insertByAddress]
    split
    · exact List.Perm.refl _
    · exact List.Perm.trans (List.Perm.cons x ih) (List.Perm.swap r x xs)

theorem sortByAddress_perm : ∀ l, (sortByAddress l).Perm l := by
  intro l
  induction l with
  | nil => exact List.Perm.refl _
  | cons r rs ih =>
    exact List.Perm.trans (insertByAddress_perm r (sortByAddress rs)) (List.Perm.cons r ih)

/-- C9 (amended): the Range Optimizer on a well-laid-out register group —
the empty set yields no spans; the sweep's blocks partition the sorted
input and each block's registers are covered by that block's span
(exactly-one coverage); every span respects `maxSpan` except a single
wider-than-`maxSpan` register, which becomes its own oversized span;
a new span is opened only when the gap exceeds `maxGap` or the grown
span would exceed `maxSpan` (merging is *not* unconditional); and the
span count is minimal among all partitions into blocks respecting the
two constraints. -/
theorem C9_range_optimizer (regs : List SpecRegister) (maxSpan maxGap : Nat)
    (hw : wellLaidOut (sortByAddress regs)) :
    optimize [] maxSpan maxGap = [] ∧
    (optGroups regs maxSpan maxGap).flatten =
      sortByAddress regs ∧
    List.Forall₂ (fun (s : ReadSpan) (b : List SpecRegister) => ∀ r ∈ b, spanCovers s r)
      (optimize regs maxSpan maxGap) (optGroups regs maxSpan maxGap) ∧
    (∀ s ∈ optimize regs maxSpan maxGap,
      s.words ≤ maxSpan ∨ ∃ r, r ∈ regs ∧ s = ⟨r.address, r.width⟩ ∧ maxSpan < r.width) ∧
    List.Chain' (fun (p q : ReadSpan × List SpecRegister) => ∀ b ∈ q.2.take 1,
        ¬(b.address ≤ p.1.start + p.1.words + maxGap ∧ regEnd b ≤ p.1.start + maxSpan))
      ((optimize regs maxSpan maxGap).zip (optGroups regs maxSpan maxGap)) ∧
    ∀ P, validPartition maxSpan maxGap P
        (sortByAddress regs) →
      (optimize regs maxSpan maxGap).length ≤ P.length := by
  refine ⟨rfl, ?_, ?_, ?_, ?_, ?_⟩
  · exact sweepGroups_flatten maxSpan maxGap
      (sortByAddress regs).length _ _
      (Nat.le_refl _) (by omega)
  · exact sweep_coverage maxSpan maxGap
      (sortByAddress regs).length _ _
      (Nat.le_refl _) hw
  · intro s hs
    rcases sweep_span_bound maxSpan maxGap
        (sortByAddress regs).length _ _
        (Nat.le_refl _) hw s hs with h | ⟨r, hr, h2⟩
    · exact Or.inl h
    · refine Or.inr ⟨r, ?_, h2⟩
      exact (sortByAddress_perm regs).mem_iff.mp hr
  · exact sweep_merge_chain maxSpan maxGap
      (sortByAddress regs).length _ _
      (Nat.le_refl _) (by omega) hw
  · intro P hP
    exact sweep_minimal maxSpan maxGap
      (sortByAddress regs).length _ _
      (Nat.le_refl _) (by omega) hw P hP

theorem C9_witness :
    optimize [] 8 2 = [] ∧
    (optGroups [⟨0, 2⟩, ⟨3, 2⟩, ⟨10, 1⟩] 8 2).flatten =
      sortByAddress [⟨0, 2⟩, ⟨3, 2⟩, ⟨10, 1⟩] ∧
    List.Forall₂ (fun (s : ReadSpan) (b : List SpecRegister) => ∀ r ∈ b, spanCovers s r)
      (optimize [⟨0, 2⟩, ⟨3, 2⟩, ⟨10, 1⟩] 8 2) (optGroups [⟨0, 2⟩, ⟨3, 2⟩, ⟨10, 1⟩] 8 2) ∧
    (∀ s ∈ optimize [⟨0, 2⟩, ⟨3, 2⟩, ⟨10, 1⟩] 8 2,
      s.words ≤ 8 ∨ ∃ r, r ∈ ([⟨0, 2⟩, ⟨3, 2⟩, ⟨10, 1⟩] : List SpecRegister) ∧
        s = ⟨r.address, r.width⟩ ∧ 8 < r.width) ∧
    List.Chain' (fun (p q : ReadSpan × List SpecRegister) => ∀ b ∈ q.2.take 1,
        ¬(b.address ≤ p.1.start + p.1.words + 2 ∧ regEnd b ≤ p.1.start + 8))
      ((optimize [⟨0, 2⟩, ⟨3, 2⟩, ⟨10, 1⟩] 8 2).zip
        (optGroups [⟨0, 2⟩, ⟨3, 2⟩, ⟨10, 1⟩] 8 2)) ∧
    (optimize [⟨0, 2⟩, ⟨3, 2⟩, ⟨10, 1⟩] 8 2).length ≤
      ([[⟨0, 2⟩], [⟨3, 2⟩], [⟨10, 1⟩]] : List (List SpecRegister)).length :=
  have h := C9_range_optimizer [⟨0, 2⟩, ⟨3, 2⟩, ⟨10, 1⟩] 8 2
    (by
      unfold wellLaidOut
      exact ⟨List.Chain.cons (by decide) (List.Chain.cons (by decide) List.Chain.nil),
        by decide⟩)
  ⟨h.1, h.2.1, h.2.2.1, h.2.2.2.1, h.2.2.2.2.1,
    h.2.2.2.2.2 [[⟨0, 2⟩], [⟨3, 2⟩], [⟨10, 1⟩]]
      (by unfold validPartition; exact ⟨by decide, by decide⟩)⟩

/-- Counterexample to C9 as stated: with `max_span_words = 15` and
`max_gap_words = 5`, the adjacent registers `(0, 10 words)` and
`(10, 10 words)` have gap `0 ≤ 5` yet are *not* merged into one span —
merging them would exceed the span limit — so "adjacent registers with
gap ≤ max_gap_words are always merged" is false; the span limit takes
precedence. -/
theorem C9_counterexample :
    optimize [⟨0, 10⟩, ⟨10, 10⟩] 15 5 = [⟨0, 10⟩, ⟨10, 10⟩] ∧
    (⟨10, 10⟩ : SpecRegister).address ≤ regEnd ⟨0, 10⟩ + 5 ∧
    (optimize [⟨0, 10⟩, ⟨10, 10⟩] 15 5).length = 2 := by decide
